import Mathlib

/-!
# micrograd.c : a shallow embedding

The C program keeps a graph of heap-allocated `Value` structs linked by raw
pointers.  Here a pointer is a natural number, the heap is a total map from
addresses to structs, and every C function that writes through a pointer is a
function from heaps to heaps.  The `children` array together with `child_count`
is a list of addresses, the function pointer `_backward` an optional tag naming
one of the three backward functions, and the `int` flag `requires_grad` a
boolean.

The program is translated twice, line for line the same but for the numbers.
The definitions of `Micrograd` compute in exact rationals: sums and products are
not rounded and there is no NaN or infinity.  They carry the statements about
the structure of the graph and about the gradient as a derivative, and every
concrete run evaluated with them uses small integers, on which binary64
computes the same numbers.  The definitions of `Micrograd.Machine` leave the
type `double` and its operations as parameters of which nothing is assumed, so
that what is proved of them holds of the rounded binary64 operations; they carry
the statements about the very values the program stores.

The recursive functions follow pointers, so they take a fuel argument bounding
the recursion depth; reading `children[i]` past `child_count` and running out
of fuel are reported as distinct faults.
-/

namespace Micrograd

/-- The three functions a `_backward` pointer can point to. -/
inductive BackwardFn
  | add
  | mul
  | relu
deriving DecidableEq, Repr

/-- The ways the embedded code can fail to produce a heap. -/
inductive Fault
  | fuel
  | operand
deriving DecidableEq, Repr

/-- The struct `Value` (lines 8-16); `child_count` is the length of `children`. -/
structure Value where
  data : ℚ
  grad : ℚ
  children : List Nat
  op : String
  _backward : Option BackwardFn
  requires_grad : Bool
deriving DecidableEq

/-- The field `child_count`. -/
def Value.child_count (v : Value) : Nat := v.children.length

/-- The heap: every address holds a struct. -/
abbrev Heap := Nat → Value

/-- Store a struct at an address. -/
def Heap.write (h : Heap) (p : Nat) (v : Value) : Heap :=
  fun q => if q = p then v else h q

/-- The statement `p->grad = g`. -/
def setGrad (h : Heap) (p : Nat) (g : ℚ) : Heap :=
  h.write p { h p with grad := g }

/-- The statement `p->grad += d`, the sum taken exactly (`Machine.addGrad` keeps the
addition of the machine). -/
def addGrad (h : Heap) (p : Nat) (d : ℚ) : Heap :=
  setGrad h p ((h p).grad + d)

/-- The read `parent->children[i]`; a fault when `i` is not below `child_count`. -/
def childAt (h : Heap) (parent i : Nat) : Except Fault Nat :=
  match (h parent).children[i]? with
  | some c => .ok c
  | none => .error .operand

/-- `Value_create` (lines 29-39); `p` is the address `malloc` returns. -/
def Value_create (h : Heap) (p : Nat) (data : ℚ) (requires_grad : Bool) : Heap :=
  h.write p
    { data := data, grad := 0, children := [], op := "", _backward := none,
      requires_grad := requires_grad }

/-- `Value_add_child` (lines 42-47). -/
def Value_add_child (h : Heap) (parent child : Nat) : Heap :=
  h.write parent { h parent with children := (h parent).children ++ [child] }

/-- `Value_add` (lines 50-61), the sum of line 51 taken exactly (`Machine.Value_add`
keeps the addition of the machine). -/
def Value_add (h : Heap) (result a b : Nat) : Heap :=
  let h1 := h.write result { h result with data := (h a).data + (h b).data }
  let h2 := h1.write result
    { h1 result with requires_grad := (h1 a).requires_grad || (h1 b).requires_grad }
  let h3 := h2.write result { h2 result with op := "+" }
  if (h3 result).requires_grad then
    let h4 := Value_add_child h3 result a
    let h5 := Value_add_child h4 result b
    h5.write result { h5 result with _backward := some BackwardFn.add }
  else h3

/-- `Value_add_backward` (lines 64-71). -/
def Value_add_backward (h : Heap) (result : Nat) : Except Fault Heap := do
  let c0 ← childAt h result 0
  let h1 := if (h c0).requires_grad then addGrad h c0 (h result).grad else h
  let c1 ← childAt h1 result 1
  let h2 := if (h1 c1).requires_grad then addGrad h1 c1 (h1 result).grad else h1
  pure h2

/-- `Value_mul` (lines 74-85), the product of line 75 taken exactly
(`Machine.Value_mul` keeps the multiplication of the machine). -/
def Value_mul (h : Heap) (result a b : Nat) : Heap :=
  let h1 := h.write result { h result with data := (h a).data * (h b).data }
  let h2 := h1.write result
    { h1 result with requires_grad := (h1 a).requires_grad || (h1 b).requires_grad }
  let h3 := h2.write result { h2 result with op := "*" }
  if (h3 result).requires_grad then
    let h4 := Value_add_child h3 result a
    let h5 := Value_add_child h4 result b
    h5.write result { h5 result with _backward := some BackwardFn.mul }
  else h3

/-- One statement of `Value_mul_backward`:
`if (result->children[i]->requires_grad)
   result->children[i]->grad += result->children[j]->data * result->grad;`. -/
def mulAccumulate (h : Heap) (result i j : Nat) : Except Fault Heap := do
  let ci ← childAt h result i
  if (h ci).requires_grad then do
    let cj ← childAt h result j
    pure (addGrad h ci ((h cj).data * (h result).grad))
  else pure h

/-- `Value_mul_backward` (lines 88-95): its two statements in order. -/
def Value_mul_backward (h : Heap) (result : Nat) : Except Fault Heap := do
  let h1 ← mulAccumulate h result 0 1
  mulAccumulate h1 result 1 0

/-- `Value_relu` (lines 98-107); `fmax` is the maximum. -/
def Value_relu (h : Heap) (result a : Nat) : Heap :=
  let h1 := h.write result { h result with data := max 0 (h a).data }
  let h2 := h1.write result { h1 result with requires_grad := (h1 a).requires_grad }
  let h3 := h2.write result { h2 result with op := "ReLU" }
  if (h3 result).requires_grad then
    let h4 := Value_add_child h3 result a
    h4.write result { h4 result with _backward := some BackwardFn.relu }
  else h3

/-- `Value_relu_backward` (lines 110-114). -/
def Value_relu_backward (h : Heap) (result : Nat) : Except Fault Heap := do
  let c0 ← childAt h result 0
  let h1 :=
    if (h c0).requires_grad then
      addGrad h c0 (if (h result).data > 0 then (h result).grad else 0)
    else h
  pure h1

/-- The indirect call `root->_backward(root)` guarded by `if (root->_backward)`
(lines 119-121). -/
def callBackward (h : Heap) (root : Nat) : Except Fault Heap :=
  match (h root)._backward with
  | none => .ok h
  | some BackwardFn.add => Value_add_backward h root
  | some BackwardFn.mul => Value_mul_backward h root
  | some BackwardFn.relu => Value_relu_backward h root

/-- The loop `for (int i = n - 1; i >= 0; i--) f(root->children[i]);` of
`Value_backward` (lines 124-126), with `n` the iterations still to run and `f` the
recursive call. -/
def backwardLoop (f : Heap → Nat → Except Fault Heap) (root : Nat) :
    Nat → Heap → Except Fault Heap
  | 0, h => .ok h
  | i + 1, h => do
    let c ← childAt h root i
    let h1 ← f h c
    backwardLoop f root i h1

/-- `Value_backward` (lines 117-127); the first argument bounds the recursion depth. -/
def Value_backward : Nat → Heap → Nat → Except Fault Heap
  | 0, _, _ => .error .fuel
  | fuel + 1, h, root => do
    let h1 ← callBackward h root
    backwardLoop (Value_backward fuel) root (h1 root).child_count h1

/-- The loop `for (size_t i = 0; i < v->child_count; i++) f(v->children[i]);` of
`Value_zero_grad` (lines 132-134): `i` is the loop counter and `n` the number of
iterations still to run.  The bound is read once on entry, which is what the C
loop does on every heap since `Value_zero_grad` writes `grad` fields only. -/
def zeroGradLoop (f : Heap → Nat → Except Fault Heap) (v : Nat) :
    Nat → Nat → Heap → Except Fault Heap
  | 0, _, h => .ok h
  | n + 1, i, h => do
    let c ← childAt h v i
    let h1 ← f h c
    zeroGradLoop f v n (i + 1) h1

/-- `Value_zero_grad` (lines 130-135); the first argument bounds the recursion depth. -/
def Value_zero_grad : Nat → Heap → Nat → Except Fault Heap
  | 0, _, _ => .error .fuel
  | fuel + 1, h, v =>
    let h1 := setGrad h v 0
    zeroGradLoop (Value_zero_grad fuel) v (h1 v).child_count 0 h1

/-- A leaf: a node no operation has been applied to, so it has no operands and no
backward function. -/
def IsLeaf (h : Heap) (p : Nat) : Prop :=
  (h p).children = [] ∧ (h p)._backward = none

/-- The heap before any allocation: every address holds a zeroed struct. -/
def emptyHeap : Heap :=
  fun _ => { data := 0, grad := 0, children := [], op := "", _backward := none,
             requires_grad := false }

/-- The three inputs of `main` (lines 201-203) at addresses 0, 1 and 2. -/
def mainInputs (input1 input2 bias_val : ℚ) : Heap :=
  let h := Value_create emptyHeap 0 input1 true
  let h := Value_create h 1 input2 true
  Value_create h 2 bias_val true

/-- Everything in a struct except its gradient. -/
def Value.shape (v : Value) : Value := { v with grad := 0 }

/-- Two heaps hold the same graph: they differ in `grad` fields only. -/
def SameShape (h h' : Heap) : Prop := ∀ n, (h' n).shape = (h n).shape

/-- A backward pass may take `h` to `h'`: the graph is the same and the gradient of a
node that does not require gradient is the same. -/
def Frame (h h' : Heap) : Prop :=
  SameShape h h' ∧ ∀ n, (h n).requires_grad = false → (h' n).grad = (h n).grad

/-- Every node with a backward function has the operands that function reads. -/
def WellFormed (h : Heap) : Prop :=
  ∀ n, match (h n)._backward with
    | none => True
    | some BackwardFn.add => 2 ≤ (h n).children.length
    | some BackwardFn.mul => 2 ≤ (h n).children.length
    | some BackwardFn.relu => 1 ≤ (h n).children.length

/-- The graph is acyclic: `rank` strictly decreases along every operand link. -/
def Acyclic (h : Heap) (rank : Nat → Nat) : Prop :=
  ∀ p c, c ∈ (h p).children → rank c < rank p

/-- Node `n` can be reached from `r` by following operand links. -/
inductive Reachable (h : Heap) : Nat → Nat → Prop
  | refl (r : Nat) : Reachable h r r
  | step (r c n : Nat) : c ∈ (h r).children → Reachable h c n → Reachable h r n

/-- What a gradient reset started at `v` may do to the heap: the graph is the same, a
zero gradient stays zero, and a node that is not reachable from `v` keeps its gradient. -/
def ZeroRel (v : Nat) (h h' : Heap) : Prop :=
  SameShape h h' ∧ (∀ n, (h n).grad = 0 → (h' n).grad = 0) ∧
    (∀ n, ¬ Reachable h v n → (h' n).grad = (h n).grad)

/-- Two heaps hold the same structs at every address in `S`. -/
def AgreeOn (S : Nat → Prop) (h k : Heap) : Prop := ∀ n, S n → h n = k n

/-! ### The reference semantics of the backward pass

The definitions below do not come from the C source: they state what the
specification says the backward pass computes, to be compared with
`Value_backward`. -/

/-- The operand links of node `r`, each with the local derivative of `r` with respect
to that operand, following the gradient rules of the specification: 1 for both
operands of an addition, the value of the sibling for a multiplication, and for a
rectification 1 when the output is positive and 0 otherwise. -/
def operandDerivs (h : Heap) (r : Nat) : List (Nat × ℚ) :=
  match (h r)._backward, (h r).children with
  | some BackwardFn.add, [a, b] => [(a, 1), (b, 1)]
  | some BackwardFn.mul, [a, b] => [(a, (h b).data), (b, (h a).data)]
  | some BackwardFn.relu, [a] => [(a, if (h r).data > 0 then 1 else 0)]
  | _, cs => cs.map fun c => (c, 0)

/-- Every path that starts at `r` and follows operand links, given as the node the
path ends in and the product of the local derivatives along the path; paths longer
than `depth - 1` links are cut off. -/
def allPaths : Nat → Heap → Nat → List (Nat × ℚ)
  | 0, _, _ => []
  | depth + 1, h, r =>
    (r, 1) :: (operandDerivs h r).flatMap fun e =>
      (allPaths depth h e.1).map fun q => (q.1, e.2 * q.2)

/-- The sum over all paths from `r` to `n` of the product of the local derivatives
along the path. -/
def pathSum (depth : Nat) (h : Heap) (r n : Nat) : ℚ :=
  (((allPaths depth h r).filter fun q => decide (q.1 = n)).map Prod.snd).sum

/-- Node `n` has operands (it is not a leaf). -/
def hasOperands (h : Heap) (n : Nat) : Bool := decide ((h n).children ≠ [])

/-- Only leaves are shared below `root`: listing the end node of every path from `root`,
no node that has operands is listed twice. -/
def LeafSharing (depth : Nat) (h : Heap) (root : Nat) : Prop :=
  (((allPaths depth h root).map Prod.fst).filter (hasOperands h)).Nodup

/-- The graph was built by add, multiply and rectify on fresh nodes: a node with the
add or multiply rule has exactly two operands, a node with the rectify rule exactly
one, and a node with no rule has none. -/
def Built (h : Heap) : Prop :=
  ∀ n, match (h n)._backward with
    | none => (h n).children = []
    | some BackwardFn.add => (h n).children.length = 2
    | some BackwardFn.mul => (h n).children.length = 2
    | some BackwardFn.relu => (h n).children.length = 1

/-- The reverse-topological-order pass of the specification: the gradient rule of
each node of `order` is applied once, in that order, with no recursion. -/
def topoOrderBackward (h : Heap) : List Nat → Except Fault Heap
  | [] => .ok h
  | p :: rest => callBackward h p >>= fun h1 => topoOrderBackward h1 rest

/-- A valid order for `topoOrderBackward`: no node occurs twice and the operands of
every node occur later than the node, so that a node is processed after all its
dependents. -/
def IsRevTopo (h : Heap) : List Nat → Prop
  | [] => True
  | p :: rest => p ∉ rest ∧ (∀ c ∈ (h p).children, c ∈ rest) ∧ IsRevTopo h rest

/-- Run `f` on the nodes of a list, from its head to its end. -/
def visitAll (f : Heap → Nat → Except Fault Heap) : List Nat → Heap → Except Fault Heap
  | [], h => .ok h
  | c :: cs, h => f h c >>= visitAll f cs

/-- The graph `z = y + y`, `y = x + x` over the leaf `x = 3`, with `x`, `y`, `z` at
addresses 0, 1, 2, all gradients zero except the seed 1 at `z`. -/
def sharedSumHeap : Heap :=
  let h := Value_create emptyHeap 0 3 true
  let h := Value_create h 1 0 true
  let h := Value_create h 2 0 true
  let h := Value_add h 1 0 0
  let h := Value_add h 2 1 1
  setGrad h 2 1

/-- The graph `q = p + x`, `p = x * x` over the leaf `x = 3`, with `x`, `p`, `q` at
addresses 0, 1, 2 and all gradients zero: the leaf `x` ends three paths from `q`. -/
def sharedLeafHeap : Heap :=
  let h := Value_create emptyHeap 0 3 true
  let h := Value_create h 1 0 true
  let h := Value_create h 2 0 true
  let h := Value_mul h 1 0 0
  Value_add h 2 1 0

/-- Node `n` can be reached from `r` by following at least one operand link. -/
def ProperDesc (h : Heap) (r n : Nat) : Prop :=
  ∃ c, c ∈ (h r).children ∧ Reachable h c n

/-- Run a list of statements `p->grad += d`, given as pairs `(p, d)`, in order. -/
def applyPushes (h : Heap) : List (Nat × ℚ) → Heap
  | [] => h
  | e :: rest => applyPushes (addGrad h e.1 e.2) rest

/-- The heap `h'` comes from `h` by statements `p->grad += d` only, each on a node in `T`. -/
def Accumulates (T : Nat → Prop) (h h' : Heap) : Prop :=
  ∃ pushes : List (Nat × ℚ), h' = applyPushes h pushes ∧ ∀ e ∈ pushes, T e.1

/-- What a backward pass started at `r` may do to the heap: it only adds to gradients of
nodes that lie strictly below `r` and require gradient. -/
def PushRel (r : Nat) (h h' : Heap) : Prop :=
  Accumulates (fun p => ProperDesc h r p ∧ (h p).requires_grad = true) h h'

/-- One call of the construction interface; `create p d rg` is `Value_create(d, rg)`
returning the address `p`. -/
inductive Call
  | create (p : Nat) (data : ℚ) (requires_grad : Bool)
  | add (result a b : Nat)
  | mul (result a b : Nat)
  | relu (result a : Nat)

/-- Run one call of the construction interface. -/
def runCall (h : Heap) : Call → Heap
  | Call.create p d rg => Value_create h p d rg
  | Call.add r a b => Value_add h r a b
  | Call.mul r a b => Value_mul h r a b
  | Call.relu r a => Value_relu h r a

/-- Run a sequence of calls of the construction interface, first call first. -/
def runCalls (h : Heap) : List Call → Heap
  | [] => h
  | c :: rest => runCalls (runCall h c) rest

/-- A node without a backward function has no operands. -/
def NoRuleNoOperands (h : Heap) : Prop :=
  ∀ n, (h n)._backward = none → (h n).children = []

/-- The loop `for (size_t i = 0; i < v->child_count; i++) f(v->children[i]);` of
`Value_free` (lines 142-144), collecting the nodes released by the calls; `Value_free`
writes no field, so the loop visits the operand list as it is on entry. -/
def freeLoop (f : Option Nat → Except Fault (List Nat)) :
    List Nat → Except Fault (List Nat)
  | [] => .ok []
  | c :: cs => do
    let l1 ← f (some c)
    let l2 ← freeLoop f cs
    pure (l1 ++ l2)

/-- `Value_free` (lines 138-153).  The argument is a pointer that may be `NULL`
(`none`); the result lists, in order, the nodes handed to `free(v)`.  The struct of a
released node is taken to keep its contents, so that a second visit of the node can be
followed; the first argument bounds the recursion depth. -/
def Value_free : Nat → Heap → Option Nat → Except Fault (List Nat)
  | 0, _, _ => .error .fuel
  | _ + 1, _, none => .ok []
  | fuel + 1, h, some v => do
    let released ← freeLoop (Value_free fuel h) (h v).children
    pure (released ++ [v])

/-- The graph below `root` is a tree: listing the end node of every path from `root`,
no node is listed twice, that is, no node is used as an operand more than once. -/
def TreeShaped (depth : Nat) (h : Heap) (root : Nat) : Prop :=
  ((allPaths depth h root).map Prod.fst).Nodup

/-- The partial derivative of the value of node `r` with respect to the value of node
`n`, by the rules of differentiation: a node has derivative 1 with respect to itself;
a sum has the sum of the derivatives of its operands; a product `a * b` has
`a' * b + a * b'`; a rectification has the derivative of its operand when its output is
positive and 0 otherwise; any other node is a constant.  Subterms deeper than `depth`
are cut off. -/
def partialDeriv : Nat → Heap → Nat → Nat → ℚ
  | 0, _, _, _ => 0
  | depth + 1, h, r, n =>
    if r = n then 1
    else
      match (h r)._backward, (h r).children with
      | some BackwardFn.add, [a, b] => partialDeriv depth h a n + partialDeriv depth h b n
      | some BackwardFn.mul, [a, b] =>
        partialDeriv depth h a n * (h b).data + (h a).data * partialDeriv depth h b n
      | some BackwardFn.relu, [a] =>
        (if (h r).data > 0 then 1 else 0) * partialDeriv depth h a n
      | _, _ => 0

/-- The tree `p = a * b` over the leaves `a = 4` and `b = 5`, with `a`, `b`, `p` at
addresses 0, 1, 2 and all gradients zero. -/
def productHeap : Heap :=
  let h := Value_create emptyHeap 0 4 true
  let h := Value_create h 1 5 true
  let h := Value_create h 2 0 true
  Value_mul h 2 0 1

/-- The traversal of the specification that differs from `Value_backward` only in the
order of the recursion: the loop over the operands runs from the first operand to the
last, `for (i = 0; i < root->child_count; i++)`. -/
def Value_backward_firstFirst : Nat → Heap → Nat → Except Fault Heap
  | 0, _, _ => .error .fuel
  | fuel + 1, h, root => do
    let h1 ← callBackward h root
    zeroGradLoop (Value_backward_firstFirst fuel) root (h1 root).child_count 0 h1

/-- What a computation that went from heap `k` to the result `r` added to the gradient
of node `n`. -/
def gradChange (r : Except Fault Heap) (k : Heap) (n : Nat) : ℚ :=
  match r with
  | .ok o => (o n).grad - (k n).grad
  | .error _ => 0

/-- The graph `z = y + w`, `w = relu(y)`, `y = x + x` over the leaf `x = 3`, with `x`,
`y`, `w`, `z` at addresses 0, 1, 2, 3, all gradients zero except the seed 1 at `z`:
the node `y` has operands and is reached by two paths. -/
def sharedRectifyHeap : Heap :=
  let h := Value_create emptyHeap 0 3 true
  let h := Value_create h 1 0 true
  let h := Value_create h 2 0 true
  let h := Value_create h 3 0 true
  let h := Value_add h 1 0 0
  let h := Value_relu h 2 1
  let h := Value_add h 3 1 2
  setGrad h 3 1

/-! ### The program over the arithmetic of the machine

The definitions above compute in exact rationals.  A `double` sum or product is
rounded, can underflow to zero and can overflow, so a statement about the very numbers
the program stores is made over the definitions below: the same translation of the
same lines, with the type `double`, its constants `0.0` and `1.0`, its operations
`+`, `*`, `fmax` and its comparison `>` taken as parameters of which nothing is
assumed.  Binary64 with its rounding is one such arithmetic, the rationals are
another. -/

/-- The arithmetic the program computes with: the type `double`, the constants `0.0`
and `1.0`, the operations `+`, `*`, `fmax` and the comparison `>`. -/
structure Arith where
  D : Type
  zero : D
  one : D
  add : D → D → D
  mul : D → D → D
  fmax : D → D → D
  gt : D → D → Bool

/-- Exact rational arithmetic. -/
def ratArith : Arith :=
  { D := ℚ, zero := 0, one := 1, add := fun x y => x + y, mul := fun x y => x * y,
    fmax := fun x y => max x y, gt := fun x y => decide (x > y) }

/-- The number `x` is one on which `0.0 + x`, `x * 1.0` and `x * 0.0` give `x`, `x`
and `0.0`.  In binary64, numbers being compared as `==` compares them, these are the
finite numbers: the three operations are then exact.  In the rationals every number is
such. -/
def Arith.Ordinary (A : Arith) (x : A.D) : Prop :=
  A.add A.zero x = x ∧ A.mul x A.one = x ∧ A.mul x A.zero = A.zero

namespace Machine

/-- The struct `Value` (lines 8-16); `child_count` is the length of `children`. -/
structure Value (A : Arith) where
  data : A.D
  grad : A.D
  children : List Nat
  op : String
  _backward : Option BackwardFn
  requires_grad : Bool

/-- The field `child_count`. -/
def Value.child_count {A : Arith} (v : Value A) : Nat := v.children.length

/-- The heap: every address holds a struct. -/
abbrev Heap (A : Arith) := Nat → Value A

/-- Store a struct at an address. -/
def Heap.write {A : Arith} (h : Heap A) (p : Nat) (v : Value A) : Heap A :=
  fun q => if q = p then v else h q

/-- The statement `p->grad = g`. -/
def setGrad {A : Arith} (h : Heap A) (p : Nat) (g : A.D) : Heap A :=
  Heap.write h p { h p with grad := g }

/-- The statement `p->grad += d`. -/
def addGrad {A : Arith} (h : Heap A) (p : Nat) (d : A.D) : Heap A :=
  setGrad h p (A.add (h p).grad d)

/-- The read `parent->children[i]`; a fault when `i` is not below `child_count`. -/
def childAt {A : Arith} (h : Heap A) (parent i : Nat) : Except Fault Nat :=
  match (h parent).children[i]? with
  | some c => .ok c
  | none => .error .operand

/-- `Value_create` (lines 29-39); `p` is the address `malloc` returns. -/
def Value_create {A : Arith} (h : Heap A) (p : Nat) (data : A.D) (requires_grad : Bool) :
    Heap A :=
  Heap.write h p
    { data := data, grad := A.zero, children := [], op := "", _backward := none,
      requires_grad := requires_grad }

/-- `Value_add_child` (lines 42-47). -/
def Value_add_child {A : Arith} (h : Heap A) (parent child : Nat) : Heap A :=
  Heap.write h parent { h parent with children := (h parent).children ++ [child] }

/-- `Value_add` (lines 50-61). -/
def Value_add {A : Arith} (h : Heap A) (result a b : Nat) : Heap A :=
  let h1 := Heap.write h result { h result with data := A.add (h a).data (h b).data }
  let h2 := Heap.write h1 result
    { h1 result with requires_grad := (h1 a).requires_grad || (h1 b).requires_grad }
  let h3 := Heap.write h2 result { h2 result with op := "+" }
  if (h3 result).requires_grad then
    let h4 := Value_add_child h3 result a
    let h5 := Value_add_child h4 result b
    Heap.write h5 result { h5 result with _backward := some BackwardFn.add }
  else h3

/-- `Value_add_backward` (lines 64-71). -/
def Value_add_backward {A : Arith} (h : Heap A) (result : Nat) : Except Fault (Heap A) := do
  let c0 ← childAt h result 0
  let h1 := if (h c0).requires_grad then addGrad h c0 (h result).grad else h
  let c1 ← childAt h1 result 1
  let h2 := if (h1 c1).requires_grad then addGrad h1 c1 (h1 result).grad else h1
  pure h2

/-- `Value_mul` (lines 74-85). -/
def Value_mul {A : Arith} (h : Heap A) (result a b : Nat) : Heap A :=
  let h1 := Heap.write h result { h result with data := A.mul (h a).data (h b).data }
  let h2 := Heap.write h1 result
    { h1 result with requires_grad := (h1 a).requires_grad || (h1 b).requires_grad }
  let h3 := Heap.write h2 result { h2 result with op := "*" }
  if (h3 result).requires_grad then
    let h4 := Value_add_child h3 result a
    let h5 := Value_add_child h4 result b
    Heap.write h5 result { h5 result with _backward := some BackwardFn.mul }
  else h3

/-- One statement of `Value_mul_backward`:
`if (result->children[i]->requires_grad)
   result->children[i]->grad += result->children[j]->data * result->grad;`. -/
def mulAccumulate {A : Arith} (h : Heap A) (result i j : Nat) : Except Fault (Heap A) := do
  let ci ← childAt h result i
  if (h ci).requires_grad then do
    let cj ← childAt h result j
    pure (addGrad h ci (A.mul (h cj).data (h result).grad))
  else pure h

/-- `Value_mul_backward` (lines 88-95): its two statements in order. -/
def Value_mul_backward {A : Arith} (h : Heap A) (result : Nat) : Except Fault (Heap A) := do
  let h1 ← mulAccumulate h result 0 1
  mulAccumulate h1 result 1 0

/-- `Value_relu` (lines 98-107): `result->data = fmax(0.0, a->data)`. -/
def Value_relu {A : Arith} (h : Heap A) (result a : Nat) : Heap A :=
  let h1 := Heap.write h result { h result with data := A.fmax A.zero (h a).data }
  let h2 := Heap.write h1 result { h1 result with requires_grad := (h1 a).requires_grad }
  let h3 := Heap.write h2 result { h2 result with op := "ReLU" }
  if (h3 result).requires_grad then
    let h4 := Value_add_child h3 result a
    Heap.write h4 result { h4 result with _backward := some BackwardFn.relu }
  else h3

/-- `Value_relu_backward` (lines 110-114):
`a->grad += (result->data > 0) ? result->grad : 0`. -/
def Value_relu_backward {A : Arith} (h : Heap A) (result : Nat) : Except Fault (Heap A) := do
  let c0 ← childAt h result 0
  let h1 :=
    if (h c0).requires_grad then
      addGrad h c0 (if A.gt (h result).data A.zero then (h result).grad else A.zero)
    else h
  pure h1

/-- The indirect call `root->_backward(root)` guarded by `if (root->_backward)`
(lines 119-121). -/
def callBackward {A : Arith} (h : Heap A) (root : Nat) : Except Fault (Heap A) :=
  match (h root)._backward with
  | none => .ok h
  | some BackwardFn.add => Value_add_backward h root
  | some BackwardFn.mul => Value_mul_backward h root
  | some BackwardFn.relu => Value_relu_backward h root

/-- The loop `for (int i = n - 1; i >= 0; i--) f(root->children[i]);` of
`Value_backward` (lines 124-126), with `n` the iterations still to run and `f` the
recursive call. -/
def backwardLoop {A : Arith} (f : Heap A → Nat → Except Fault (Heap A)) (root : Nat) :
    Nat → Heap A → Except Fault (Heap A)
  | 0, h => .ok h
  | i + 1, h => do
    let c ← childAt h root i
    let h1 ← f h c
    backwardLoop f root i h1

/-- `Value_backward` (lines 117-127); the first argument bounds the recursion depth. -/
def Value_backward {A : Arith} : Nat → Heap A → Nat → Except Fault (Heap A)
  | 0, _, _ => .error .fuel
  | fuel + 1, h, root => do
    let h1 ← callBackward h root
    backwardLoop (Value_backward fuel) root (h1 root).child_count h1

/-- The loop `for (size_t i = 0; i < v->child_count; i++) f(v->children[i]);` of
`Value_zero_grad` (lines 132-134): `i` is the loop counter and `n` the number of
iterations still to run.  The bound is read once on entry, which is what the C
loop does on every heap since `Value_zero_grad` writes `grad` fields only. -/
def zeroGradLoop {A : Arith} (f : Heap A → Nat → Except Fault (Heap A)) (v : Nat) :
    Nat → Nat → Heap A → Except Fault (Heap A)
  | 0, _, h => .ok h
  | n + 1, i, h => do
    let c ← childAt h v i
    let h1 ← f h c
    zeroGradLoop f v n (i + 1) h1

/-- `Value_zero_grad` (lines 130-135); the first argument bounds the recursion depth. -/
def Value_zero_grad {A : Arith} : Nat → Heap A → Nat → Except Fault (Heap A)
  | 0, _, _ => .error .fuel
  | fuel + 1, h, v =>
    let h1 := setGrad h v A.zero
    zeroGradLoop (Value_zero_grad fuel) v (h1 v).child_count 0 h1

/-- A leaf: a node no operation has been applied to, so it has no operands and no
backward function. -/
def IsLeaf {A : Arith} (h : Heap A) (p : Nat) : Prop :=
  (h p).children = [] ∧ (h p)._backward = none

/-- The heap before any allocation: every address holds a zeroed struct. -/
def emptyHeap (A : Arith) : Heap A :=
  fun _ => { data := A.zero, grad := A.zero, children := [], op := "", _backward := none,
             requires_grad := false }

/-- Case 1 of `main` from the creation of the three result nodes to the backward
pass (lines 206-208, 214-216, 232-238), on a heap that already holds the inputs
`a`, `b` and `bias`; `result1`, `result2` and `final_output` are the addresses
`malloc` returns. -/
def main_case1 {A : Arith} (fuel : Nat) (h : Heap A)
    (a b bias result1 result2 final_output : Nat) : Except Fault (Heap A) := do
  let h := Value_create h result1 A.zero true
  let h := Value_create h result2 A.zero true
  let h := Value_create h final_output A.zero true
  let h := Value_mul h result1 a b
  let h := Value_add h result2 result1 bias
  let h := Value_relu h final_output result2
  let h ← Value_zero_grad fuel h final_output
  let h := setGrad h final_output A.one
  Value_backward fuel h final_output

/-- The three inputs of `main` (lines 201-203) at addresses 0, 1 and 2. -/
def mainInputs (A : Arith) (input1 input2 bias_val : A.D) : Heap A :=
  let h := Value_create (emptyHeap A) 0 input1 true
  let h := Value_create h 1 input2 true
  Value_create h 2 bias_val true

end Machine

end Micrograd

namespace Micrograd

/-! ## Elementary facts about heap writes -/

@[simp] theorem ok_bind {α β : Type} (a : α) (f : α → Except Fault β) :
    (Except.ok a >>= f) = f a := rfl

@[simp] theorem error_bind {α β : Type} (e : Fault) (f : α → Except Fault β) :
    ((Except.error e : Except Fault α) >>= f) = Except.error e := rfl

@[simp] theorem pure_eq_ok {α : Type} (a : α) : (pure a : Except Fault α) = Except.ok a := rfl

@[simp] theorem write_same (h : Heap) (p : Nat) (v : Value) : h.write p v p = v := by
  simp [Heap.write]

@[simp] theorem write_other (h : Heap) (p q : Nat) (v : Value) (hne : q ≠ p) :
    h.write p v q = h q := by
  simp [Heap.write, hne]

theorem setGrad_apply (h : Heap) (p q : Nat) (g : ℚ) :
    setGrad h p g q = if q = p then { h p with grad := g } else h q := rfl

theorem addGrad_apply (h : Heap) (p q : Nat) (d : ℚ) :
    addGrad h p d q = if q = p then { h p with grad := (h p).grad + d } else h q := rfl

/-! ## The operations on two or three nodes -/

/-- C10: after add, multiply or rectify the result requires gradient exactly when
one of the operands did before the call, whatever flag the result held. -/
theorem requires_grad_iff (h : Heap) (result a b : Nat) :
    ((Value_add h result a b result).requires_grad = true ↔
      ((h a).requires_grad = true ∨ (h b).requires_grad = true)) ∧
    ((Value_mul h result a b result).requires_grad = true ↔
      ((h a).requires_grad = true ∨ (h b).requires_grad = true)) ∧
    ((Value_relu h result a result).requires_grad = true ↔ (h a).requires_grad = true) := by
  refine ⟨?_, ?_, ?_⟩
  · by_cases hr : ((h a).requires_grad || (h b).requires_grad) = true <;>
      by_cases h1 : a = result <;> by_cases h2 : b = result <;>
      simp_all [Value_add, Value_add_child, Heap.write]
  · by_cases hr : ((h a).requires_grad || (h b).requires_grad) = true <;>
      by_cases h1 : a = result <;> by_cases h2 : b = result <;>
      simp_all [Value_mul, Value_add_child, Heap.write]
  · by_cases hr : (h a).requires_grad = true <;> by_cases h1 : a = result <;>
      simp_all [Value_relu, Value_add_child, Heap.write]

/-- C2, as stated, fails: with `a` of value 4 not requiring gradient and `b` of value 5
requiring it, backward from `p = multiply(a,b)` seeded with 1 leaves `a.grad` at 0,
not at `b`'s value 5. -/
theorem mul_backward_unflagged_operand :
    ∃ h', Value_backward 2
        (setGrad (Value_mul (Value_create (Value_create (Value_create emptyHeap 0 4 false)
          1 5 true) 2 0 true) 2 0 1) 2 1) 2 = .ok h' ∧
      (h' 0).grad = 0 ∧ (h' 1).data = 5 ∧ (h' 0).grad ≠ (h' 1).data := by
  simp [Value_backward, Value_mul, Value_create, setGrad, addGrad, callBackward,
    Value_mul_backward, mulAccumulate, childAt, backwardLoop, Value_add_child, Value.child_count,
    Heap.write, emptyHeap]

/-- C2, amended: for distinct leaves `a` and `b` that both require gradient and have
gradient 0, backward from a fresh `p = multiply(a,b)` seeded with 1 returns with
`a.grad = b.data` and `b.grad = a.data`. -/
theorem mul_backward_leaves (h : Heap) (a b p : Nat) (d0 : ℚ) (rg0 : Bool) (fuel : Nat)
    (hab : a ≠ b) (hpa : p ≠ a) (hpb : p ≠ b)
    (hla : IsLeaf h a) (hlb : IsLeaf h b)
    (hra : (h a).requires_grad = true) (hrb : (h b).requires_grad = true)
    (hga : (h a).grad = 0) (hgb : (h b).grad = 0) :
    ∃ h', Value_backward (fuel + 2)
        (setGrad (Value_mul (Value_create h p d0 rg0) p a b) p 1) p = .ok h' ∧
      (h' a).grad = (h b).data ∧ (h' b).grad = (h a).data := by
  obtain ⟨hca, hna⟩ := hla
  obtain ⟨hcb, hnb⟩ := hlb
  have hba : b ≠ a := Ne.symm hab
  have hap : a ≠ p := Ne.symm hpa
  have hbp : b ≠ p := Ne.symm hpb
  simp [Value_backward, Value_mul, Value_create, setGrad, addGrad, callBackward,
    Value_mul_backward, mulAccumulate, childAt, backwardLoop, Value_add_child, Value.child_count,
    Heap.write, *]

/-- Witness for `mul_backward_leaves`: `a = 4`, `b = 5` gives gradients 5 and 4. -/
theorem mul_backward_leaves_witness :
    ∃ h', Value_backward 2
        (setGrad (Value_mul (Value_create (mainInputs 4 5 0) 5 0 true) 5 0 1) 5 1) 5 = .ok h' ∧
      (h' 0).grad = (mainInputs 4 5 0 1).data ∧ (h' 1).grad = (mainInputs 4 5 0 0).data :=
  mul_backward_leaves (mainInputs 4 5 0) 0 1 5 0 true 0 (by decide) (by decide) (by decide)
    ⟨rfl, rfl⟩ ⟨rfl, rfl⟩ rfl rfl rfl rfl

/-- C3, as stated, fails when `a` and `b` are the same node: backward from
`s = add(x,x)` seeded with 1 leaves `x.grad` at 2, not 1. -/
theorem add_backward_same_operand :
    ∃ h', Value_backward 2
        (setGrad (Value_add (Value_create (Value_create emptyHeap 0 3 true) 1 0 true) 1 0 0)
          1 1) 1 = .ok h' ∧
      (h' 0).grad = 2 ∧ (h' 0).grad ≠ 1 := by
  simp [Value_backward, Value_add, Value_create, setGrad, addGrad, callBackward,
    Value_add_backward, childAt, backwardLoop, Value_add_child, Value.child_count,
    Heap.write, emptyHeap]
  norm_num

/-- C3, amended: for distinct leaves `a` and `b` that both require gradient and have
gradient 0, backward from a fresh `s = add(a,b)` seeded with 1 returns with
`a.grad = 1` and `b.grad = 1`. -/
theorem add_backward_leaves (h : Heap) (a b s : Nat) (d0 : ℚ) (rg0 : Bool) (fuel : Nat)
    (hab : a ≠ b) (hsa : s ≠ a) (hsb : s ≠ b)
    (hla : IsLeaf h a) (hlb : IsLeaf h b)
    (hra : (h a).requires_grad = true) (hrb : (h b).requires_grad = true)
    (hga : (h a).grad = 0) (hgb : (h b).grad = 0) :
    ∃ h', Value_backward (fuel + 2)
        (setGrad (Value_add (Value_create h s d0 rg0) s a b) s 1) s = .ok h' ∧
      (h' a).grad = 1 ∧ (h' b).grad = 1 := by
  obtain ⟨hca, hna⟩ := hla
  obtain ⟨hcb, hnb⟩ := hlb
  have hba : b ≠ a := Ne.symm hab
  have has : a ≠ s := Ne.symm hsa
  have hbs : b ≠ s := Ne.symm hsb
  simp [Value_backward, Value_add, Value_create, setGrad, addGrad, callBackward,
    Value_add_backward, childAt, backwardLoop, Value_add_child, Value.child_count,
    Heap.write, *]

/-- Witness for `add_backward_leaves`: case 3 of `main`, `final_output = a + bias`. -/
theorem add_backward_leaves_witness :
    ∃ h', Value_backward 2
        (setGrad (Value_add (Value_create (mainInputs 4 5 7) 5 0 true) 5 0 2) 5 1) 5 = .ok h' ∧
      (h' 0).grad = 1 ∧ (h' 2).grad = 1 :=
  add_backward_leaves (mainInputs 4 5 7) 0 2 5 0 true 0 (by decide) (by decide) (by decide)
    ⟨rfl, rfl⟩ ⟨rfl, rfl⟩ rfl rfl rfl rfl

/-- C4: for a leaf `a` requiring gradient with gradient 0 and any seed, backward from
a fresh `r = rectify(a)` with `r.grad = seed` returns with `a.grad = seed` when
`a.data > 0` and `a.grad = 0` when `a.data ≤ 0`. -/
theorem relu_backward_leaf (h : Heap) (a r : Nat) (seed d0 : ℚ) (rg0 : Bool) (fuel : Nat)
    (hra : r ≠ a) (hla : IsLeaf h a)
    (hrg : (h a).requires_grad = true) (hg : (h a).grad = 0) :
    ∃ h', Value_backward (fuel + 2)
        (setGrad (Value_relu (Value_create h r d0 rg0) r a) r seed) r = .ok h' ∧
      (0 < (h a).data → (h' a).grad = seed) ∧ ((h a).data ≤ 0 → (h' a).grad = 0) := by
  obtain ⟨hca, hna⟩ := hla
  have har : a ≠ r := Ne.symm hra
  simp [Value_backward, Value_relu, Value_create, setGrad, addGrad, callBackward,
    Value_relu_backward, childAt, backwardLoop, Value_add_child, Value.child_count,
    Heap.write, *]
  constructor
  · intro hpos hle
    exact absurd hpos (not_lt.mpr hle)
  · intro hle hpos
    exact absurd hpos (not_lt.mpr hle)

/-- Witness for `relu_backward_leaf`: a leaf of value exactly 0 and seed 7. -/
theorem relu_backward_leaf_witness :
    ∃ h', Value_backward 2
        (setGrad (Value_relu (Value_create (mainInputs 0 5 7) 5 0 true) 5 0) 5 7) 5 = .ok h' ∧
      (0 < (mainInputs 0 5 7 0).data → (h' 0).grad = 7) ∧
      ((mainInputs 0 5 7 0).data ≤ 0 → (h' 0).grad = 0) :=
  relu_backward_leaf (mainInputs 0 5 7) 0 5 7 0 true 0 (by decide) ⟨rfl, rfl⟩ rfl rfl

/-- C5: for a leaf `x` requiring gradient with gradient 0, backward from a fresh
`p = multiply(x,x)` seeded with 1 returns with `x.grad = 2 * x.data`. -/
theorem mul_backward_square (h : Heap) (x p : Nat) (d0 : ℚ) (rg0 : Bool) (fuel : Nat)
    (hpx : p ≠ x) (hlx : IsLeaf h x)
    (hrg : (h x).requires_grad = true) (hg : (h x).grad = 0) :
    ∃ h', Value_backward (fuel + 2)
        (setGrad (Value_mul (Value_create h p d0 rg0) p x x) p 1) p = .ok h' ∧
      (h' x).grad = 2 * (h x).data := by
  obtain ⟨hcx, hnx⟩ := hlx
  have hxp : x ≠ p := Ne.symm hpx
  simp [Value_backward, Value_mul, Value_create, setGrad, addGrad, callBackward,
    Value_mul_backward, mulAccumulate, childAt, backwardLoop, Value_add_child, Value.child_count,
    Heap.write, *]
  ring

/-- Witness for `mul_backward_square`: `x = 4` gives gradient `2 * 4`. -/
theorem mul_backward_square_witness :
    ∃ h', Value_backward 2
        (setGrad (Value_mul (Value_create (mainInputs 4 5 7) 5 0 true) 5 0 0) 5 1) 5 = .ok h' ∧
      (h' 0).grad = 2 * (mainInputs 4 5 7 0).data :=
  mul_backward_square (mainInputs 4 5 7) 0 5 0 true 0 (by decide) ⟨rfl, rfl⟩ rfl rfl

/-! ## What the three operations store -/

theorem Value_create_other (h : Heap) (p q : Nat) (d : ℚ) (rg : Bool) (hne : q ≠ p) :
    Value_create h p d rg q = h q := by
  simp [Value_create, hne]

theorem Value_create_same (h : Heap) (p : Nat) (d : ℚ) (rg : Bool) :
    Value_create h p d rg p =
      { data := d, grad := 0, children := [], op := "", _backward := none,
        requires_grad := rg } := by
  simp [Value_create]

theorem Value_add_other (h : Heap) (result a b q : Nat) (hne : q ≠ result) :
    Value_add h result a b q = h q := by
  by_cases hr : ((h a).requires_grad || (h b).requires_grad) = true <;>
    by_cases h1 : a = result <;> by_cases h2 : b = result <;>
    simp_all [Value_add, Value_add_child, Heap.write]

theorem Value_mul_other (h : Heap) (result a b q : Nat) (hne : q ≠ result) :
    Value_mul h result a b q = h q := by
  by_cases hr : ((h a).requires_grad || (h b).requires_grad) = true <;>
    by_cases h1 : a = result <;> by_cases h2 : b = result <;>
    simp_all [Value_mul, Value_add_child, Heap.write]

theorem Value_relu_other (h : Heap) (result a q : Nat) (hne : q ≠ result) :
    Value_relu h result a q = h q := by
  by_cases hr : (h a).requires_grad = true <;> by_cases h1 : a = result <;>
    simp_all [Value_relu, Value_add_child, Heap.write]

theorem Value_add_same (h : Heap) (result a b : Nat)
    (hr : (h a).requires_grad = true ∨ (h b).requires_grad = true) :
    Value_add h result a b result =
      { data := (h a).data + (h b).data, grad := (h result).grad,
        children := (h result).children ++ [a, b], op := "+",
        _backward := some BackwardFn.add, requires_grad := true } := by
  by_cases h1 : a = result <;> by_cases h2 : b = result <;>
    rcases hr with hr | hr <;> simp_all [Value_add, Value_add_child, Heap.write]

theorem Value_mul_same (h : Heap) (result a b : Nat)
    (hr : (h a).requires_grad = true ∨ (h b).requires_grad = true) :
    Value_mul h result a b result =
      { data := (h a).data * (h b).data, grad := (h result).grad,
        children := (h result).children ++ [a, b], op := "*",
        _backward := some BackwardFn.mul, requires_grad := true } := by
  by_cases h1 : a = result <;> by_cases h2 : b = result <;>
    rcases hr with hr | hr <;> simp_all [Value_mul, Value_add_child, Heap.write]

theorem Value_relu_same (h : Heap) (result a : Nat) (hr : (h a).requires_grad = true) :
    Value_relu h result a result =
      { data := max 0 (h a).data, grad := (h result).grad,
        children := (h result).children ++ [a], op := "ReLU",
        _backward := some BackwardFn.relu, requires_grad := true } := by
  by_cases h1 : a = result <;> simp_all [Value_relu, Value_add_child, Heap.write]


/-! ## Shapes and frames -/

theorem shape_eq_iff (v w : Value) :
    v.shape = w.shape ↔ v.data = w.data ∧ v.children = w.children ∧ v.op = w.op ∧
      v._backward = w._backward ∧ v.requires_grad = w.requires_grad := by
  cases v; cases w; simp [Value.shape]

theorem SameShape.rfl_shape (h : Heap) : SameShape h h := fun _ => rfl

theorem SameShape.then_shape {h1 h2 h3 : Heap} (a : SameShape h1 h2) (b : SameShape h2 h3) :
    SameShape h1 h3 := fun n => (b n).trans (a n)

theorem SameShape.symm {h1 h2 : Heap} (a : SameShape h1 h2) : SameShape h2 h1 :=
  fun n => (a n).symm

theorem SameShape.data {h h' : Heap} (s : SameShape h h') (n : Nat) :
    (h' n).data = (h n).data := ((shape_eq_iff _ _).1 (s n)).1

theorem SameShape.children {h h' : Heap} (s : SameShape h h') (n : Nat) :
    (h' n).children = (h n).children := ((shape_eq_iff _ _).1 (s n)).2.1

theorem SameShape.op {h h' : Heap} (s : SameShape h h') (n : Nat) :
    (h' n).op = (h n).op := ((shape_eq_iff _ _).1 (s n)).2.2.1

theorem SameShape.backward {h h' : Heap} (s : SameShape h h') (n : Nat) :
    (h' n)._backward = (h n)._backward := ((shape_eq_iff _ _).1 (s n)).2.2.2.1

theorem SameShape.requires_grad {h h' : Heap} (s : SameShape h h') (n : Nat) :
    (h' n).requires_grad = (h n).requires_grad := ((shape_eq_iff _ _).1 (s n)).2.2.2.2

theorem sameShape_setGrad (h : Heap) (p : Nat) (g : ℚ) : SameShape h (setGrad h p g) := by
  intro n
  by_cases hn : n = p
  · subst hn; simp [setGrad, Value.shape]
  · simp [setGrad, hn]

theorem sameShape_addGrad (h : Heap) (p : Nat) (d : ℚ) : SameShape h (addGrad h p d) :=
  sameShape_setGrad h p _

theorem SameShape.wellFormed {h h' : Heap} (s : SameShape h h') (w : WellFormed h) :
    WellFormed h' := by
  intro n
  have := w n
  rw [s.backward n, s.children n]
  exact this

theorem SameShape.acyclic {h h' : Heap} {rank : Nat → Nat} (s : SameShape h h')
    (a : Acyclic h rank) : Acyclic h' rank := by
  intro p c hc
  rw [s.children p] at hc
  exact a p c hc

theorem Frame.rfl_frame (h : Heap) : Frame h h := ⟨SameShape.rfl_shape h, fun _ _ => rfl⟩

theorem Frame.then_frame {h1 h2 h3 : Heap} (a : Frame h1 h2) (b : Frame h2 h3) : Frame h1 h3 := by
  refine ⟨a.1.then_shape b.1, fun n hn => ?_⟩
  rw [b.2 n (by rw [a.1.requires_grad n]; exact hn), a.2 n hn]

theorem frame_addGrad (h : Heap) (p : Nat) (d : ℚ) (hp : (h p).requires_grad = true) :
    Frame h (addGrad h p d) := by
  refine ⟨sameShape_addGrad h p d, fun n hn => ?_⟩
  have hne : n ≠ p := by
    rintro rfl
    rw [hp] at hn
    exact absurd hn (by decide)
  simp [addGrad_apply, hne]

theorem frame_guarded (h : Heap) (p : Nat) (d : ℚ) :
    Frame h (if (h p).requires_grad = true then addGrad h p d else h) := by
  by_cases hp : (h p).requires_grad = true
  · rw [if_pos hp]; exact frame_addGrad h p d hp
  · rw [if_neg hp]; exact Frame.rfl_frame h

theorem childAt_ok (h : Heap) (r i : Nat) (hi : i < (h r).children.length) :
    childAt h r i = .ok ((h r).children.get ⟨i, hi⟩) := by
  simp [childAt, List.getElem?_eq_getElem hi]

theorem childAt_mem {h : Heap} {r i c : Nat} (hc : childAt h r i = .ok c) :
    c ∈ (h r).children := by
  unfold childAt at hc
  split at hc
  · next c' hm =>
    cases hc
    exact List.mem_iff_getElem?.2 ⟨_, hm⟩
  · cases hc

theorem childAt_congr {h h' : Heap} (s : SameShape h h') (r i : Nat) :
    childAt h' r i = childAt h r i := by
  simp [childAt, s.children r]


/-! ## The backward pass: frame and termination -/

theorem Value_add_backward_frame {h h' : Heap} {r : Nat}
    (e : Value_add_backward h r = .ok h') : Frame h h' := by
  unfold Value_add_backward at e
  cases e0 : childAt h r 0 with
  | error f => rw [e0] at e; cases e
  | ok c0 =>
    rw [e0] at e
    simp only [ok_bind] at e
    have f1 := frame_guarded h c0 (h r).grad
    revert e f1
    generalize (if (h c0).requires_grad = true then addGrad h c0 (h r).grad else h) = h1
    intro e f1
    cases e1 : childAt h1 r 1 with
    | error f => rw [e1] at e; cases e
    | ok c1 =>
      rw [e1] at e
      simp only [ok_bind, pure_eq_ok, Except.ok.injEq] at e
      rw [← e]
      exact f1.then_frame (frame_guarded h1 c1 (h1 r).grad)

theorem mulAccumulate_frame {h h' : Heap} {r i j : Nat}
    (e : mulAccumulate h r i j = .ok h') : Frame h h' := by
  unfold mulAccumulate at e
  cases e0 : childAt h r i with
  | error f => rw [e0] at e; cases e
  | ok c0 =>
    rw [e0] at e
    simp only [ok_bind] at e
    by_cases hp : (h c0).requires_grad = true
    · rw [if_pos hp] at e
      cases e1 : childAt h r j with
      | error f => rw [e1] at e; cases e
      | ok c1 =>
        rw [e1] at e
        simp only [ok_bind, pure_eq_ok, Except.ok.injEq] at e
        rw [← e]
        exact frame_addGrad h c0 _ hp
    · rw [if_neg hp] at e
      simp only [pure_eq_ok, Except.ok.injEq] at e
      rw [← e]
      exact Frame.rfl_frame h

theorem Value_mul_backward_frame {h h' : Heap} {r : Nat}
    (e : Value_mul_backward h r = .ok h') : Frame h h' := by
  unfold Value_mul_backward at e
  cases e0 : mulAccumulate h r 0 1 with
  | error f => rw [e0] at e; cases e
  | ok h1 =>
    rw [e0] at e
    simp only [ok_bind] at e
    exact (mulAccumulate_frame e0).then_frame (mulAccumulate_frame e)

theorem Value_relu_backward_frame {h h' : Heap} {r : Nat}
    (e : Value_relu_backward h r = .ok h') : Frame h h' := by
  unfold Value_relu_backward at e
  cases e0 : childAt h r 0 with
  | error f => rw [e0] at e; cases e
  | ok c0 =>
    rw [e0] at e
    simp only [ok_bind, pure_eq_ok, Except.ok.injEq] at e
    rw [← e]
    exact frame_guarded h c0 _

theorem callBackward_frame {h h' : Heap} {r : Nat}
    (e : callBackward h r = .ok h') : Frame h h' := by
  unfold callBackward at e
  split at e
  · cases e; exact Frame.rfl_frame h
  · exact Value_add_backward_frame e
  · exact Value_mul_backward_frame e
  · exact Value_relu_backward_frame e

theorem backwardLoop_frame {f : Heap → Nat → Except Fault Heap}
    (hf : ∀ h c h', f h c = .ok h' → Frame h h') (r : Nat) :
    ∀ (i : Nat) (h h' : Heap), backwardLoop f r i h = .ok h' → Frame h h' := by
  intro i
  induction i with
  | zero =>
    intro h h' e
    simp only [backwardLoop, Except.ok.injEq] at e
    rw [← e]
    exact Frame.rfl_frame h
  | succ i ih =>
    intro h h' e
    simp only [backwardLoop] at e
    cases e0 : childAt h r i with
    | error x => rw [e0] at e; cases e
    | ok c =>
      rw [e0] at e
      simp only [ok_bind] at e
      cases e1 : f h c with
      | error x => rw [e1] at e; cases e
      | ok h1 =>
        rw [e1] at e
        simp only [ok_bind] at e
        exact (hf h c h1 e1).then_frame (ih h1 h' e)

theorem Value_backward_frame :
    ∀ (fuel : Nat) (h : Heap) (r : Nat) (h' : Heap),
      Value_backward fuel h r = .ok h' → Frame h h' := by
  intro fuel
  induction fuel with
  | zero => intro h r h' e; cases e
  | succ fuel ih =>
    intro h r h' e
    simp only [Value_backward] at e
    cases e0 : callBackward h r with
    | error x => rw [e0] at e; cases e
    | ok h1 =>
      rw [e0] at e
      simp only [ok_bind] at e
      exact (callBackward_frame e0).then_frame
        (backwardLoop_frame (fun a c b => ih a c b) r _ h1 h' e)

theorem callBackward_ok (h : Heap) (r : Nat) (w : WellFormed h) :
    ∃ h', callBackward h r = .ok h' := by
  have wr := w r
  unfold callBackward
  split
  · exact ⟨h, rfl⟩
  · next hb =>
    rw [hb] at wr
    simp only at wr
    have c0 := childAt_ok h r 0 (by omega)
    unfold Value_add_backward
    rw [c0]
    simp only [ok_bind]
    have s1 : SameShape h (if (h ((h r).children.get ⟨0, by omega⟩)).requires_grad = true
        then addGrad h ((h r).children.get ⟨0, by omega⟩) (h r).grad else h) :=
      (frame_guarded h _ _).1
    rw [childAt_congr s1, childAt_ok h r 1 (by omega)]
    exact ⟨_, rfl⟩
  · next hb =>
    rw [hb] at wr
    simp only at wr
    have step : ∀ (k : Heap) (i j : Nat), SameShape h k → i < 2 → j < 2 →
        ∃ k', mulAccumulate k r i j = .ok k' := by
      intro k i j hs hi hj
      unfold mulAccumulate
      rw [childAt_congr hs, childAt_ok h r i (by omega), childAt_congr hs,
        childAt_ok h r j (by omega)]
      simp only [ok_bind, pure_eq_ok]
      split <;> exact ⟨_, rfl⟩
    unfold Value_mul_backward
    obtain ⟨h1, e1⟩ := step h 0 1 (SameShape.rfl_shape h) (by omega) (by omega)
    rw [e1]
    simp only [ok_bind]
    exact step h1 1 0 (mulAccumulate_frame e1).1 (by omega) (by omega)
  · next hb =>
    rw [hb] at wr
    simp only at wr
    unfold Value_relu_backward
    rw [childAt_ok h r 0 (by omega)]
    exact ⟨_, rfl⟩

theorem backwardLoop_ok {f : Heap → Nat → Except Fault Heap} (h0 : Heap) (r : Nat)
    (hf : ∀ h c, SameShape h0 h → c ∈ (h0 r).children → ∃ h', f h c = .ok h' ∧ SameShape h h') :
    ∀ (i : Nat) (h : Heap), i ≤ (h0 r).children.length → SameShape h0 h →
      ∃ h', backwardLoop f r i h = .ok h' := by
  intro i
  induction i with
  | zero => intro h _ _; exact ⟨h, rfl⟩
  | succ i ih =>
    intro h hi hs
    simp only [backwardLoop]
    rw [childAt_congr hs, childAt_ok h0 r i (by omega)]
    simp only [ok_bind]
    obtain ⟨h1, e1, s1⟩ := hf h _ hs (List.get_mem _ _ _)
    rw [e1]
    simp only [ok_bind]
    exact ih h1 (by omega) (hs.then_shape s1)

theorem Value_backward_ok (rank : Nat → Nat) :
    ∀ (fuel : Nat) (h : Heap) (r : Nat), WellFormed h → Acyclic h rank → rank r < fuel →
      ∃ h', Value_backward fuel h r = .ok h' := by
  intro fuel
  induction fuel with
  | zero => intro h r _ _ hr; omega
  | succ fuel ih =>
    intro h r w a hr
    simp only [Value_backward]
    obtain ⟨h1, e1⟩ := callBackward_ok h r w
    rw [e1]
    simp only [ok_bind]
    have s1 : SameShape h h1 := (callBackward_frame e1).1
    refine backwardLoop_ok h1 r ?_ _ h1 (le_of_eq rfl) (SameShape.rfl_shape h1)
    intro k c sk hc
    have hk : SameShape h k := s1.then_shape sk
    have hc' : c ∈ (h r).children := by rw [← s1.children r]; exact hc
    obtain ⟨k', ek⟩ := ih k c (hk.wellFormed w) (hk.acyclic a) (by have := a r c hc'; omega)
    exact ⟨k', ek, (Value_backward_frame fuel k c k' ek).1⟩


/-! ## Graph construction keeps the heap well formed and acyclic -/

theorem Value_add_same_unflagged (h : Heap) (result a b : Nat)
    (ha : (h a).requires_grad = false) (hb : (h b).requires_grad = false) :
    Value_add h result a b result =
      { h result with data := (h a).data + (h b).data, op := "+", requires_grad := false } := by
  by_cases h1 : a = result <;> by_cases h2 : b = result <;>
    simp_all [Value_add, Value_add_child, Heap.write]

theorem Value_mul_same_unflagged (h : Heap) (result a b : Nat)
    (ha : (h a).requires_grad = false) (hb : (h b).requires_grad = false) :
    Value_mul h result a b result =
      { h result with data := (h a).data * (h b).data, op := "*", requires_grad := false } := by
  by_cases h1 : a = result <;> by_cases h2 : b = result <;>
    simp_all [Value_mul, Value_add_child, Heap.write]

theorem Value_relu_same_unflagged (h : Heap) (result a : Nat)
    (ha : (h a).requires_grad = false) :
    Value_relu h result a result =
      { h result with data := max 0 (h a).data, op := "ReLU", requires_grad := false } := by
  by_cases h1 : a = result <;> simp_all [Value_relu, Value_add_child, Heap.write]

theorem wellFormed_emptyHeap : WellFormed emptyHeap := fun _ => trivial

theorem wellFormed_create {h : Heap} (w : WellFormed h) (p : Nat) (d : ℚ) (rg : Bool) :
    WellFormed (Value_create h p d rg) := by
  intro n
  by_cases hn : n = p
  · subst hn; rw [Value_create_same]; trivial
  · rw [Value_create_other _ _ _ _ _ hn]; exact w n

theorem wellFormed_add {h : Heap} (w : WellFormed h) (result a b : Nat) :
    WellFormed (Value_add h result a b) := by
  intro n
  by_cases hn : n = result
  · subst hn
    by_cases hr : (h a).requires_grad = true ∨ (h b).requires_grad = true
    · rw [Value_add_same _ _ _ _ hr]; simp
    · have ha : (h a).requires_grad = false := by
        cases hx : (h a).requires_grad <;> simp_all
      have hb : (h b).requires_grad = false := by
        cases hx : (h b).requires_grad <;> simp_all
      rw [Value_add_same_unflagged _ _ _ _ ha hb]; exact w n
  · rw [Value_add_other _ _ _ _ _ hn]; exact w n

theorem wellFormed_mul {h : Heap} (w : WellFormed h) (result a b : Nat) :
    WellFormed (Value_mul h result a b) := by
  intro n
  by_cases hn : n = result
  · subst hn
    by_cases hr : (h a).requires_grad = true ∨ (h b).requires_grad = true
    · rw [Value_mul_same _ _ _ _ hr]; simp
    · have ha : (h a).requires_grad = false := by
        cases hx : (h a).requires_grad <;> simp_all
      have hb : (h b).requires_grad = false := by
        cases hx : (h b).requires_grad <;> simp_all
      rw [Value_mul_same_unflagged _ _ _ _ ha hb]; exact w n
  · rw [Value_mul_other _ _ _ _ _ hn]; exact w n

theorem wellFormed_relu {h : Heap} (w : WellFormed h) (result a : Nat) :
    WellFormed (Value_relu h result a) := by
  intro n
  by_cases hn : n = result
  · subst hn
    by_cases hr : (h a).requires_grad = true
    · rw [Value_relu_same _ _ _ hr]; simp
    · have ha : (h a).requires_grad = false := by
        cases hx : (h a).requires_grad <;> simp_all
      rw [Value_relu_same_unflagged _ _ _ ha]; exact w n
  · rw [Value_relu_other _ _ _ _ hn]; exact w n

theorem acyclic_emptyHeap (rank : Nat → Nat) : Acyclic emptyHeap rank := by
  intro p c hc
  simp [emptyHeap] at hc

theorem acyclic_create {h : Heap} {rank : Nat → Nat} (a : Acyclic h rank)
    (p : Nat) (d : ℚ) (rg : Bool) : Acyclic (Value_create h p d rg) rank := by
  intro q c hc
  by_cases hq : q = p
  · subst hq; rw [Value_create_same] at hc; simp at hc
  · rw [Value_create_other _ _ _ _ _ hq] at hc; exact a q c hc

theorem acyclic_add {h : Heap} {rank : Nat → Nat} (ac : Acyclic h rank) (result a b : Nat)
    (ha : rank a < rank result) (hb : rank b < rank result) :
    Acyclic (Value_add h result a b) rank := by
  intro q c hc
  by_cases hq : q = result
  · subst hq
    by_cases hr : (h a).requires_grad = true ∨ (h b).requires_grad = true
    · rw [Value_add_same _ _ _ _ hr] at hc
      simp only [List.mem_append, List.mem_cons, List.mem_singleton] at hc
      rcases hc with hc | hc | hc | hc
      · exact ac q c hc
      · rw [hc]; exact ha
      · rw [hc]; exact hb
      · cases hc
    · have ha' : (h a).requires_grad = false := by
        cases hx : (h a).requires_grad <;> simp_all
      have hb' : (h b).requires_grad = false := by
        cases hx : (h b).requires_grad <;> simp_all
      rw [Value_add_same_unflagged _ _ _ _ ha' hb'] at hc
      exact ac q c hc
  · rw [Value_add_other _ _ _ _ _ hq] at hc; exact ac q c hc

theorem acyclic_mul {h : Heap} {rank : Nat → Nat} (ac : Acyclic h rank) (result a b : Nat)
    (ha : rank a < rank result) (hb : rank b < rank result) :
    Acyclic (Value_mul h result a b) rank := by
  intro q c hc
  by_cases hq : q = result
  · subst hq
    by_cases hr : (h a).requires_grad = true ∨ (h b).requires_grad = true
    · rw [Value_mul_same _ _ _ _ hr] at hc
      simp only [List.mem_append, List.mem_cons, List.mem_singleton] at hc
      rcases hc with hc | hc | hc | hc
      · exact ac q c hc
      · rw [hc]; exact ha
      · rw [hc]; exact hb
      · cases hc
    · have ha' : (h a).requires_grad = false := by
        cases hx : (h a).requires_grad <;> simp_all
      have hb' : (h b).requires_grad = false := by
        cases hx : (h b).requires_grad <;> simp_all
      rw [Value_mul_same_unflagged _ _ _ _ ha' hb'] at hc
      exact ac q c hc
  · rw [Value_mul_other _ _ _ _ _ hq] at hc; exact ac q c hc

theorem acyclic_relu {h : Heap} {rank : Nat → Nat} (ac : Acyclic h rank) (result a : Nat)
    (ha : rank a < rank result) : Acyclic (Value_relu h result a) rank := by
  intro q c hc
  by_cases hq : q = result
  · subst hq
    by_cases hr : (h a).requires_grad = true
    · rw [Value_relu_same _ _ _ hr] at hc
      simp only [List.mem_append, List.mem_cons, List.mem_singleton] at hc
      rcases hc with hc | hc | hc
      · exact ac q c hc
      · rw [hc]; exact ha
      · cases hc
    · have ha' : (h a).requires_grad = false := by
        cases hx : (h a).requires_grad <;> simp_all
      rw [Value_relu_same_unflagged _ _ _ ha'] at hc
      exact ac q c hc
  · rw [Value_relu_other _ _ _ _ hq] at hc; exact ac q c hc

theorem wellFormed_setGrad {h : Heap} (w : WellFormed h) (p : Nat) (g : ℚ) :
    WellFormed (setGrad h p g) := (sameShape_setGrad h p g).wellFormed w

theorem acyclic_setGrad {h : Heap} {rank : Nat → Nat} (a : Acyclic h rank) (p : Nat) (g : ℚ) :
    Acyclic (setGrad h p g) rank := (sameShape_setGrad h p g).acyclic a

/-- C8: on a well-formed acyclic graph backward returns, and every node whose
`requires_grad` is false (in particular every such leaf, wherever it is an operand)
has the gradient it had on entry; a gradient that was 0 is still 0.  The seed is
whatever `root.grad` holds on entry. -/
theorem backward_keeps_unflagged (h : Heap) (rank : Nat → Nat) (root fuel : Nat)
    (w : WellFormed h) (a : Acyclic h rank) (hf : rank root < fuel) :
    ∃ h', Value_backward fuel h root = .ok h' ∧
      ∀ p, (h p).requires_grad = false →
        (h' p).grad = (h p).grad ∧ ((h p).grad = 0 → (h' p).grad = 0) := by
  obtain ⟨h', e⟩ := Value_backward_ok rank fuel h root w a hf
  refine ⟨h', e, fun p hp => ?_⟩
  have := (Value_backward_frame fuel h root h' e).2 p hp
  exact ⟨this, fun h0 => this.trans h0⟩

/-- Witness for `backward_keeps_unflagged`: `p = a * b` with `a` not requiring
gradient, seeded with 3. -/
theorem backward_keeps_unflagged_witness :
    ∃ h', Value_backward 3 (setGrad (Value_mul (Value_create (Value_create (Value_create
        emptyHeap 0 4 false) 1 5 true) 2 0 true) 2 0 1) 2 3) 2 = .ok h' ∧
      ∀ p, ((setGrad (Value_mul (Value_create (Value_create (Value_create
        emptyHeap 0 4 false) 1 5 true) 2 0 true) 2 0 1) 2 3) p).requires_grad = false →
        (h' p).grad = ((setGrad (Value_mul (Value_create (Value_create (Value_create
          emptyHeap 0 4 false) 1 5 true) 2 0 true) 2 0 1) 2 3) p).grad ∧
        (((setGrad (Value_mul (Value_create (Value_create (Value_create
          emptyHeap 0 4 false) 1 5 true) 2 0 true) 2 0 1) 2 3) p).grad = 0 →
          (h' p).grad = 0) :=
  backward_keeps_unflagged _ (fun n => n) 2 3
    (wellFormed_setGrad (wellFormed_mul (wellFormed_create (wellFormed_create
      (wellFormed_create wellFormed_emptyHeap _ _ _) _ _ _) _ _ _) _ _ _) _ _)
    (acyclic_setGrad (acyclic_mul (acyclic_create (acyclic_create
      (acyclic_create (acyclic_emptyHeap _) _ _ _) _ _ _) _ _ _) _ _ _
      (by decide) (by decide)) _ _)
    (by decide)

/-! ## Reading a heap after a gradient write -/

theorem setGrad_same (h : Heap) (p : Nat) (g : ℚ) :
    setGrad h p g p = { h p with grad := g } := by
  simp [setGrad]

theorem setGrad_other (h : Heap) (p q : Nat) (g : ℚ) (hne : q ≠ p) :
    setGrad h p g q = h q := by
  simp [setGrad, hne]

theorem addGrad_same (h : Heap) (p : Nat) (d : ℚ) :
    addGrad h p d p = { h p with grad := (h p).grad + d } := by
  simp [addGrad, setGrad]

theorem addGrad_other (h : Heap) (p q : Nat) (d : ℚ) (hne : q ≠ p) :
    addGrad h p d q = h q := by
  simp [addGrad, setGrad, hne]

/-! ## Reachability -/

theorem Reachable.then_reach {h : Heap} {a b c : Nat} (x : Reachable h a b) (y : Reachable h b c) :
    Reachable h a c := by
  induction x with
  | refl r => exact y
  | step r d n hd _ ih => exact Reachable.step r d c hd (ih y)

theorem Reachable.child {h : Heap} {r c : Nat} (hc : c ∈ (h r).children) : Reachable h r c :=
  Reachable.step r c c hc (Reachable.refl c)

theorem Reachable.reach_congr {h h' : Heap} (s : SameShape h h') {r n : Nat}
    (x : Reachable h r n) : Reachable h' r n := by
  induction x with
  | refl r => exact Reachable.refl r
  | step r d n hd _ ih =>
    exact Reachable.step r d n (by rw [s.children r]; exact hd) ih

theorem Reachable.cases_head {h : Heap} {r n : Nat} (x : Reachable h r n) :
    n = r ∨ ∃ c, c ∈ (h r).children ∧ Reachable h c n := by
  cases x with
  | refl => exact Or.inl rfl
  | step _ c _ hc hr => exact Or.inr ⟨c, hc, hr⟩

theorem value_eq_of_shape {v w : Value} (hs : v.shape = w.shape) (hg : v.grad = w.grad) :
    v = w := by
  cases v; cases w
  simp only [Value.shape, Value.mk.injEq] at hs
  simp only [Value.mk.injEq]
  simp only at hg
  exact ⟨hs.1, hg, hs.2.2.1, hs.2.2.2.1, hs.2.2.2.2.1, hs.2.2.2.2.2⟩

/-! ## The gradient reset -/

theorem zeroGradLoop_rel (R : Heap → Heap → Prop) (hrefl : ∀ h, R h h)
    (htrans : ∀ a b c, R a b → R b c → R a c)
    {f : Heap → Nat → Except Fault Heap} (v : Nat)
    (hf : ∀ h c h', c ∈ (h v).children → f h c = .ok h' → R h h') :
    ∀ (n i : Nat) (h h' : Heap), zeroGradLoop f v n i h = .ok h' → R h h' := by
  intro n
  induction n with
  | zero =>
    intro i h h' e
    simp only [zeroGradLoop, Except.ok.injEq] at e
    rw [← e]
    exact hrefl h
  | succ n ih =>
    intro i h h' e
    simp only [zeroGradLoop] at e
    cases e0 : childAt h v i with
    | error x => rw [e0] at e; cases e
    | ok c =>
      rw [e0] at e
      simp only [ok_bind] at e
      cases e1 : f h c with
      | error x => rw [e1] at e; cases e
      | ok h1 =>
        rw [e1] at e
        simp only [ok_bind] at e
        exact htrans _ _ _ (hf h c h1 (childAt_mem e0) e1) (ih (i + 1) h1 h' e)

theorem ZeroRel.rfl_zero (v : Nat) (h : Heap) : ZeroRel v h h :=
  ⟨SameShape.rfl_shape h, fun _ x => x, fun _ _ => rfl⟩

theorem ZeroRel.then_zero {v : Nat} {a b c : Heap} (x : ZeroRel v a b) (y : ZeroRel v b c) :
    ZeroRel v a c := by
  refine ⟨x.1.then_shape y.1, fun n hn => y.2.1 n (x.2.1 n hn), fun n hn => ?_⟩
  rw [y.2.2 n (fun hr => hn (hr.reach_congr x.1.symm)), x.2.2 n hn]

theorem ZeroRel.of_child {v c : Nat} {h h' : Heap} (hc : c ∈ (h v).children)
    (x : ZeroRel c h h') : ZeroRel v h h' :=
  ⟨x.1, x.2.1, fun n hn => x.2.2 n (fun hr => hn (Reachable.step v c n hc hr))⟩

theorem zeroRel_setGrad (v : Nat) (h : Heap) : ZeroRel v h (setGrad h v 0) := by
  refine ⟨sameShape_setGrad h v 0, fun n hn => ?_, fun n hn => ?_⟩
  · by_cases e : n = v
    · subst e; rw [setGrad_same]
    · rw [setGrad_other _ _ _ _ e]; exact hn
  · have e : n ≠ v := by
      rintro rfl
      exact hn (Reachable.refl _)
    rw [setGrad_other _ _ _ _ e]

theorem Value_zero_grad_rel :
    ∀ (fuel : Nat) (h : Heap) (v : Nat) (h' : Heap),
      Value_zero_grad fuel h v = .ok h' → ZeroRel v h h' := by
  intro fuel
  induction fuel with
  | zero => intro h v h' e; cases e
  | succ fuel ih =>
    intro h v h' e
    simp only [Value_zero_grad] at e
    refine (zeroRel_setGrad v h).then_zero ?_
    refine zeroGradLoop_rel (ZeroRel v) (ZeroRel.rfl_zero v) (fun _ _ _ x y => x.then_zero y) v ?_
      _ _ _ _ e
    intro k c k' hc ek
    exact (ih k c k' ek).of_child hc

theorem zeroGradLoop_ok {f : Heap → Nat → Except Fault Heap} (h0 : Heap) (v : Nat)
    (hf : ∀ h c, SameShape h0 h → c ∈ (h0 v).children → ∃ h', f h c = .ok h' ∧ SameShape h h') :
    ∀ (n i : Nat) (h : Heap), i + n ≤ (h0 v).children.length → SameShape h0 h →
      ∃ h', zeroGradLoop f v n i h = .ok h' := by
  intro n
  induction n with
  | zero => intro i h _ _; exact ⟨h, rfl⟩
  | succ n ih =>
    intro i h hi hs
    simp only [zeroGradLoop]
    rw [childAt_congr hs, childAt_ok h0 v i (by omega)]
    simp only [ok_bind]
    obtain ⟨h1, e1, s1⟩ := hf h _ hs (List.get_mem _ _ _)
    rw [e1]
    simp only [ok_bind]
    exact ih (i + 1) h1 (by omega) (hs.then_shape s1)

theorem Value_zero_grad_ok (rank : Nat → Nat) :
    ∀ (fuel : Nat) (h : Heap) (v : Nat), Acyclic h rank → rank v < fuel →
      ∃ h', Value_zero_grad fuel h v = .ok h' := by
  intro fuel
  induction fuel with
  | zero => intro h v _ hr; omega
  | succ fuel ih =>
    intro h v a hr
    simp only [Value_zero_grad]
    have s1 : SameShape h (setGrad h v 0) := sameShape_setGrad h v 0
    refine zeroGradLoop_ok (setGrad h v 0) v ?_ _ 0 _ (by simp [Value.child_count])
      (SameShape.rfl_shape _)
    intro k c sk hc
    have hk : SameShape h k := s1.then_shape sk
    have hc' : c ∈ (h v).children := by rw [← s1.children v]; exact hc
    obtain ⟨k', ek⟩ := ih k c (hk.acyclic a) (by have := a v c hc'; omega)
    exact ⟨k', ek, (Value_zero_grad_rel fuel k c k' ek).1⟩

theorem zeroGradLoop_zeroes {f : Heap → Nat → Except Fault Heap} (v : Nat)
    (hf : ∀ h c h', c ∈ (h v).children → f h c = .ok h' →
      ZeroRel v h h' ∧ ∀ m, Reachable h c m → (h' m).grad = 0) :
    ∀ (n i : Nat) (h h' : Heap), zeroGradLoop f v n i h = .ok h' →
      ∀ j c, i ≤ j → j < i + n → (h v).children[j]? = some c →
        ∀ m, Reachable h c m → (h' m).grad = 0 := by
  intro n
  induction n with
  | zero => intro i h h' _ j c h1 h2; omega
  | succ n ih =>
    intro i h h' e j c hij hjn hjc m hm
    simp only [zeroGradLoop] at e
    cases e0 : childAt h v i with
    | error x => rw [e0] at e; cases e
    | ok ci =>
      rw [e0] at e
      simp only [ok_bind] at e
      cases e1 : f h ci with
      | error x => rw [e1] at e; cases e
      | ok h1 =>
        rw [e1] at e
        simp only [ok_bind] at e
        obtain ⟨r1, z1⟩ := hf h ci h1 (childAt_mem e0) e1
        have rest : ZeroRel v h1 h' :=
          zeroGradLoop_rel (ZeroRel v) (ZeroRel.rfl_zero v) (fun _ _ _ x y => x.then_zero y) v
            (fun k c k' hc ek => (hf k c k' hc ek).1) _ _ _ _ e
        by_cases hji : j = i
        · subst hji
          have : ci = c := by
            unfold childAt at e0
            rw [hjc] at e0
            simp only [Except.ok.injEq] at e0
            exact e0.symm
          subst this
          exact rest.2.1 m (z1 m hm)
        · exact ih (i + 1) h1 h' e j c (by omega) (by omega)
            (by rw [r1.1.children v]; exact hjc) m (hm.reach_congr r1.1)

theorem Value_zero_grad_zeroes :
    ∀ (fuel : Nat) (h : Heap) (v : Nat) (h' : Heap),
      Value_zero_grad fuel h v = .ok h' → ∀ m, Reachable h v m → (h' m).grad = 0 := by
  intro fuel
  induction fuel with
  | zero => intro h v h' e; cases e
  | succ fuel ih =>
    intro h v h' e m hm
    simp only [Value_zero_grad] at e
    have s1 : SameShape h (setGrad h v 0) := sameShape_setGrad h v 0
    have hf : ∀ (k : Heap) (c : Nat) (k' : Heap), c ∈ (k v).children →
        Value_zero_grad fuel k c = .ok k' →
        ZeroRel v k k' ∧ ∀ m, Reachable k c m → (k' m).grad = 0 :=
      fun k c k' hc ek => ⟨(Value_zero_grad_rel fuel k c k' ek).of_child hc, ih k c k' ek⟩
    rcases hm.cases_head with rfl | ⟨c, hc, hcm⟩
    · have rest : ZeroRel m (setGrad h m 0) h' :=
        zeroGradLoop_rel (ZeroRel m) (ZeroRel.rfl_zero m) (fun _ _ _ x y => x.then_zero y) m
          (fun k c k' hc ek => (hf k c k' hc ek).1) _ _ _ _ e
      exact rest.2.1 m (by rw [setGrad_same])
    · obtain ⟨j, hj⟩ := List.mem_iff_getElem?.1 hc
      have hjlt : j < (h v).children.length := by
        by_contra hge
        rw [List.getElem?_eq_none (by omega)] at hj
        cases hj
      refine zeroGradLoop_zeroes v hf _ 0 _ h' e j c (Nat.zero_le j) ?_ ?_ m (hcm.reach_congr s1)
      · simp only [Value.child_count, s1.children v]; omega
      · rw [s1.children v]; exact hj


/-! ## Backward reads and writes only what is reachable from the root -/

theorem agree_guarded {S : Nat → Prop} {h k : Heap} (ag : AgreeOn S h k) (c : Nat)
    (hc : S c) (d : ℚ) :
    AgreeOn S (if (h c).requires_grad = true then addGrad h c d else h)
      (if (k c).requires_grad = true then addGrad k c d else k) := by
  rw [← ag c hc]
  by_cases hp : (h c).requires_grad = true
  · rw [if_pos hp, if_pos hp]
    intro n hn
    by_cases e : n = c
    · subst e; rw [addGrad_same, addGrad_same, ag n hn]
    · rw [addGrad_other _ _ _ _ e, addGrad_other _ _ _ _ e]; exact ag n hn
  · rw [if_neg hp, if_neg hp]; exact ag

theorem childAt_agree {S : Nat → Prop} {h k : Heap} (ag : AgreeOn S h k) {r : Nat}
    (hr : S r) (i : Nat) : childAt k r i = childAt h r i := by
  simp [childAt, ag r hr]

theorem mulAccumulate_congr {S : Nat → Prop} {h k h' : Heap} {r i j : Nat}
    (closed : ∀ p c, S p → c ∈ (h p).children → S c) (hr : S r) (ag : AgreeOn S h k)
    (e : mulAccumulate h r i j = .ok h') :
    ∃ k', mulAccumulate k r i j = .ok k' ∧ AgreeOn S h' k' := by
  unfold mulAccumulate at e ⊢
  rw [childAt_agree ag hr, childAt_agree ag hr]
  cases e0 : childAt h r i with
  | error f => rw [e0] at e; cases e
  | ok c0 =>
    rw [e0] at e
    simp only [ok_bind] at e ⊢
    have hc0 : S c0 := closed r c0 hr (childAt_mem e0)
    rw [← ag c0 hc0]
    by_cases hp : (h c0).requires_grad = true
    · rw [if_pos hp] at e ⊢
      cases e1 : childAt h r j with
      | error f => rw [e1] at e; cases e
      | ok c1 =>
        rw [e1] at e
        simp only [ok_bind, pure_eq_ok, Except.ok.injEq] at e ⊢
        have hc1 : S c1 := closed r c1 hr (childAt_mem e1)
        refine ⟨_, rfl, ?_⟩
        rw [← e, ← ag c1 hc1, ← ag r hr]
        intro n hn
        by_cases en : n = c0
        · subst en; rw [addGrad_same, addGrad_same, ag n hn]
        · rw [addGrad_other _ _ _ _ en, addGrad_other _ _ _ _ en]; exact ag n hn
    · rw [if_neg hp] at e ⊢
      simp only [pure_eq_ok, Except.ok.injEq] at e ⊢
      exact ⟨k, rfl, by rw [← e]; exact ag⟩

theorem callBackward_congr {S : Nat → Prop} {h k h' : Heap} {r : Nat}
    (closed : ∀ p c, S p → c ∈ (h p).children → S c) (hr : S r) (ag : AgreeOn S h k)
    (e : callBackward h r = .ok h') :
    ∃ k', callBackward k r = .ok k' ∧ AgreeOn S h' k' := by
  unfold callBackward at e ⊢
  rw [← ag r hr]
  split at e
  · simp only [Except.ok.injEq] at e
    exact ⟨k, rfl, by rw [← e]; exact ag⟩
  · unfold Value_add_backward at e ⊢
    rw [childAt_agree ag hr]
    cases e0 : childAt h r 0 with
    | error f => rw [e0] at e; cases e
    | ok c0 =>
      rw [e0] at e
      simp only [ok_bind] at e ⊢
      have hc0 : S c0 := closed r c0 hr (childAt_mem e0)
      have ag1 := agree_guarded ag c0 hc0 (h r).grad
      have s1 : SameShape h (if (h c0).requires_grad = true then addGrad h c0 (h r).grad
          else h) := (frame_guarded h c0 _).1
      rw [← ag r hr]
      revert e ag1 s1
      generalize (if (h c0).requires_grad = true then addGrad h c0 (h r).grad else h) = h1
      generalize (if (k c0).requires_grad = true then addGrad k c0 (h r).grad else k) = k1
      intro e ag1 s1
      rw [childAt_agree ag1 hr]
      cases e1 : childAt h1 r 1 with
      | error f => rw [e1] at e; cases e
      | ok c1 =>
        rw [e1] at e
        simp only [ok_bind, pure_eq_ok, Except.ok.injEq] at e ⊢
        have hc1 : S c1 := closed r c1 hr (by
          rw [← s1.children r]; exact childAt_mem e1)
        refine ⟨_, rfl, ?_⟩
        rw [← e, ← ag1 r hr]
        exact agree_guarded ag1 c1 hc1 _
  · unfold Value_mul_backward at e ⊢
    cases e0 : mulAccumulate h r 0 1 with
    | error f => rw [e0] at e; cases e
    | ok h1 =>
      rw [e0] at e
      simp only [ok_bind] at e
      obtain ⟨k1, ek1, ag1⟩ := mulAccumulate_congr closed hr ag e0
      rw [ek1]
      simp only [ok_bind]
      have s1 : SameShape h h1 := (mulAccumulate_frame e0).1
      exact mulAccumulate_congr (fun p c hp hc => closed p c hp (by
        rw [← s1.children p]; exact hc)) hr ag1 e
  · unfold Value_relu_backward at e ⊢
    rw [childAt_agree ag hr]
    cases e0 : childAt h r 0 with
    | error f => rw [e0] at e; cases e
    | ok c0 =>
      rw [e0] at e
      simp only [ok_bind, pure_eq_ok, Except.ok.injEq] at e ⊢
      have hc0 : S c0 := closed r c0 hr (childAt_mem e0)
      refine ⟨_, rfl, ?_⟩
      rw [← e, ← ag r hr]
      exact agree_guarded ag c0 hc0 _

theorem backwardLoop_congr {S : Nat → Prop} {f g : Heap → Nat → Except Fault Heap} (r : Nat)
    (hr : S r)
    (hf : ∀ h k c h', (∀ p c, S p → c ∈ (h p).children → S c) → S c → AgreeOn S h k →
      f h c = .ok h' → SameShape h h' ∧ ∃ k', g k c = .ok k' ∧ AgreeOn S h' k') :
    ∀ (i : Nat) (h k h' : Heap), (∀ p c, S p → c ∈ (h p).children → S c) → AgreeOn S h k →
      backwardLoop f r i h = .ok h' → ∃ k', backwardLoop g r i k = .ok k' ∧ AgreeOn S h' k' := by
  intro i
  induction i with
  | zero =>
    intro h k h' _ ag e
    simp only [backwardLoop, Except.ok.injEq] at e
    exact ⟨k, rfl, by rw [← e]; exact ag⟩
  | succ i ih =>
    intro h k h' closed ag e
    simp only [backwardLoop] at e ⊢
    rw [childAt_agree ag hr]
    cases e0 : childAt h r i with
    | error x => rw [e0] at e; cases e
    | ok c =>
      rw [e0] at e
      simp only [ok_bind] at e ⊢
      cases e1 : f h c with
      | error x => rw [e1] at e; cases e
      | ok h1 =>
        rw [e1] at e
        simp only [ok_bind] at e
        obtain ⟨s1, k1, ek1, ag1⟩ := hf h k c h1 closed (closed r c hr (childAt_mem e0)) ag e1
        rw [ek1]
        simp only [ok_bind]
        exact ih h1 k1 h' (fun p c hp hc => closed p c hp (by
          rw [← s1.children p]; exact hc)) ag1 e

theorem Value_backward_congr (S : Nat → Prop) :
    ∀ (fuel : Nat) (h k : Heap) (r : Nat) (h' : Heap),
      (∀ p c, S p → c ∈ (h p).children → S c) → S r → AgreeOn S h k →
      Value_backward fuel h r = .ok h' →
      ∃ k', Value_backward fuel k r = .ok k' ∧ AgreeOn S h' k' := by
  intro fuel
  induction fuel with
  | zero => intro h k r h' _ _ _ e; cases e
  | succ fuel ih =>
    intro h k r h' closed hr ag e
    simp only [Value_backward] at e ⊢
    cases e0 : callBackward h r with
    | error x => rw [e0] at e; cases e
    | ok h1 =>
      rw [e0] at e
      simp only [ok_bind] at e
      obtain ⟨k1, ek1, ag1⟩ := callBackward_congr closed hr ag e0
      rw [ek1]
      simp only [ok_bind]
      have s1 : SameShape h h1 := (callBackward_frame e0).1
      have hcc : (k1 r).child_count = (h1 r).child_count := by rw [ag1 r hr]
      rw [hcc]
      refine backwardLoop_congr r hr ?_ _ h1 k1 h' (fun p c hp hc => closed p c hp (by
        rw [← s1.children p]; exact hc)) ag1 e
      intro a b c a' cl hc ab ea
      exact ⟨(Value_backward_frame fuel a c a' ea).1, ih a b c a' cl hc ab ea⟩

/-- C7: on a well-formed acyclic graph whose gradients are zero, seed the root and run
backward (a from-scratch pass, result `b`); then run zero_grad from the root, seed the
root with the same value and run backward again (result `a`).  All three calls return
and every node reachable from the root has in `a` exactly the gradient it has in `b`. -/
theorem backward_after_zero_grad (k : Heap) (rank : Nat → Nat) (root fuel : Nat) (seed : ℚ)
    (w : WellFormed k) (ac : Acyclic k rank) (hf : rank root < fuel)
    (hz : ∀ n, Reachable k root n → (k n).grad = 0) :
    ∃ b z a, Value_backward fuel (setGrad k root seed) root = .ok b ∧
      Value_zero_grad fuel b root = .ok z ∧
      Value_backward fuel (setGrad z root seed) root = .ok a ∧
      ∀ n, Reachable k root n → (a n).grad = (b n).grad := by
  have s0 : SameShape k (setGrad k root seed) := sameShape_setGrad k root seed
  obtain ⟨b, eb⟩ := Value_backward_ok rank fuel (setGrad k root seed) root
    (s0.wellFormed w) (s0.acyclic ac) hf
  have sb : SameShape k b := s0.then_shape (Value_backward_frame _ _ _ _ eb).1
  obtain ⟨z, ez⟩ := Value_zero_grad_ok rank fuel b root (sb.acyclic ac) hf
  have sz : SameShape k z := sb.then_shape (Value_zero_grad_rel _ _ _ _ ez).1
  have ag : AgreeOn (Reachable k root) (setGrad k root seed) (setGrad z root seed) := by
    intro n hn
    by_cases e : n = root
    · subst e
      rw [setGrad_same, setGrad_same]
      exact value_eq_of_shape (sz n).symm rfl
    · rw [setGrad_other _ _ _ _ e, setGrad_other _ _ _ _ e]
      exact value_eq_of_shape (sz n).symm (by
        rw [hz n hn, Value_zero_grad_zeroes _ _ _ _ ez n (hn.reach_congr sb)])
  obtain ⟨a, ea, aga⟩ := Value_backward_congr (Reachable k root) fuel _ _ root b
    (fun p c hp hc => hp.then_reach (Reachable.child (by rw [← s0.children p]; exact hc)))
    (Reachable.refl root) ag eb
  exact ⟨b, z, a, eb, ez, ea, fun n hn => by rw [aga n hn]⟩

/-- Witness for `backward_after_zero_grad`: `p = a * b` built on three fresh nodes,
seed 3. -/
theorem backward_after_zero_grad_witness :
    ∃ b z a, Value_backward 3 (setGrad (Value_mul (mainInputs 4 5 0) 2 0 1) 2 3) 2 = .ok b ∧
      Value_zero_grad 3 b 2 = .ok z ∧
      Value_backward 3 (setGrad z 2 3) 2 = .ok a ∧
      ∀ n, Reachable (Value_mul (mainInputs 4 5 0) 2 0 1) 2 n → (a n).grad = (b n).grad :=
  backward_after_zero_grad (Value_mul (mainInputs 4 5 0) 2 0 1) (fun n => n) 2 3 3
    (wellFormed_mul (wellFormed_create (wellFormed_create
      (wellFormed_create wellFormed_emptyHeap _ _ _) _ _ _) _ _ _) _ _ _)
    (acyclic_mul (acyclic_create (acyclic_create
      (acyclic_create (acyclic_emptyHeap _) _ _ _) _ _ _) _ _ _) _ _ _ (by decide) (by decide))
    (by decide)
    (by
      intro n _
      by_cases e2 : n = 2
      · subst e2; rw [Value_mul_same _ _ _ _ (Or.inl rfl)]; rfl
      · rw [Value_mul_other _ _ _ _ _ e2]
        by_cases e1 : n = 1
        · subst e1; rfl
        · by_cases e0 : n = 0
          · subst e0; rfl
          · simp [mainInputs, Value_create, Heap.write, e2, e1, e0, emptyHeap])

theorem sharedSumHeap_apply (n : Nat) :
    sharedSumHeap n =
      if n = 2 then { data := 12, grad := 1, children := [1, 1], op := "+",
                      _backward := some BackwardFn.add, requires_grad := true }
      else if n = 1 then { data := 6, grad := 0, children := [0, 0], op := "+",
                           _backward := some BackwardFn.add, requires_grad := true }
      else if n = 0 then { data := 3, grad := 0, children := [], op := "",
                           _backward := none, requires_grad := true }
      else emptyHeap n := by
  by_cases h2 : n = 2
  · subst h2
    simp [sharedSumHeap, Value_add, Value_add_child, Value_create, setGrad, Heap.write]
    norm_num
  · by_cases h1 : n = 1
    · subst h1
      simp [sharedSumHeap, Value_add, Value_add_child, Value_create, setGrad, Heap.write]
      norm_num
    · by_cases h0 : n = 0
      · subst h0
        simp [sharedSumHeap, Value_add, Value_add_child, Value_create, setGrad, Heap.write]
      · simp [sharedSumHeap, Value_add, Value_add_child, Value_create, setGrad, Heap.write,
          h2, h1, h0]

/-- C1: the run that shows the defect of `Value_backward`.  On `z = y + y`,
`y = x + x` with `x = 3`, all nodes requiring gradient, all gradients zero and the seed
1 at `z`, the node `y` has operands and is reached by two paths.  The recursive
`Value_backward` returns with `x.grad = 8`, while the sum over the four paths from `z`
to `x` of the products of the local derivatives is 4, and so is the gradient left by
the reverse-topological pass over `[z, y, x]`.  Every number of the run is a small
integer, so binary64 computes the same. -/
theorem backward_shared_operand_overcounts :
    ∃ h' t, Value_backward 3 sharedSumHeap 2 = .ok h' ∧
      topoOrderBackward sharedSumHeap [2, 1, 0] = .ok t ∧
      IsRevTopo sharedSumHeap [2, 1, 0] ∧
      (h' 0).grad = 8 ∧ pathSum 3 sharedSumHeap 2 0 = 4 ∧ (t 0).grad = 4 ∧
      (h' 0).grad ≠ pathSum 3 sharedSumHeap 2 0 ∧ (h' 0).grad ≠ (t 0).grad := by
  have e2 := sharedSumHeap_apply 2
  have e1 := sharedSumHeap_apply 1
  have e0 := sharedSumHeap_apply 0
  simp only [if_pos, if_neg, OfNat.ofNat_ne_zero, Nat.succ_ne_self, ↓reduceIte,
    show (1 : Nat) ≠ 2 by decide, show (0 : Nat) ≠ 2 by decide,
    show (0 : Nat) ≠ 1 by decide] at e2 e1 e0
  generalize sharedSumHeap = H at *
  simp [Value_backward, callBackward, Value_add_backward, childAt, backwardLoop,
    Value.child_count, addGrad_same, addGrad_other, topoOrderBackward, IsRevTopo,
    pathSum, allPaths, operandDerivs, e2, e1, e0]
  norm_num

/-! ## Paths and their weights -/

theorem operandDerivs_fst (h : Heap) (r : Nat) :
    (operandDerivs h r).map Prod.fst = (h r).children := by
  unfold operandDerivs
  split <;> simp_all [Function.comp_def]

theorem operandDerivs_congr {h h' : Heap} (s : SameShape h h') (r : Nat) :
    operandDerivs h' r = operandDerivs h r := by
  simp only [operandDerivs, s.backward r, s.children r, s.data]

theorem allPaths_congr {h h' : Heap} (s : SameShape h h') :
    ∀ (depth r : Nat), allPaths depth h' r = allPaths depth h r := by
  intro depth
  induction depth with
  | zero => intro r; rfl
  | succ d ih =>
    intro r
    simp only [allPaths, operandDerivs_congr s r, ih]

theorem pathSum_congr {h h' : Heap} (s : SameShape h h') (depth r n : Nat) :
    pathSum depth h' r n = pathSum depth h r n := by
  simp only [pathSum, allPaths_congr s]

theorem hasOperands_congr {h h' : Heap} (s : SameShape h h') (n : Nat) :
    hasOperands h' n = hasOperands h n := by
  simp only [hasOperands, s.children n]

theorem sum_filter_scaled (w : ℚ) (n : Nat) (l : List (Nat × ℚ)) :
    (((l.map fun q => (q.1, w * q.2)).filter fun q => decide (q.1 = n)).map Prod.snd).sum =
      w * ((l.filter fun q => decide (q.1 = n)).map Prod.snd).sum := by
  induction l with
  | nil => simp
  | cons q l ih =>
    by_cases hq : q.1 = n
    · simp only [List.map_cons, List.filter_cons, hq, decide_True, if_true, List.sum_cons, mul_add]
      rw [← ih]
    · simp only [List.map_cons, List.filter_cons, hq, decide_False, if_false]
      exact ih

theorem sum_filter_flatMap (n : Nat) (g : Nat × ℚ → List (Nat × ℚ)) (E : List (Nat × ℚ)) :
    (((E.flatMap g).filter fun q => decide (q.1 = n)).map Prod.snd).sum =
      (E.map fun e => (((g e).filter fun q => decide (q.1 = n)).map Prod.snd).sum).sum := by
  induction E with
  | nil => simp
  | cons e E ih =>
    simp only [List.flatMap_cons, List.filter_append, List.map_append, List.sum_append,
      List.map_cons, List.sum_cons, ih]

theorem pathSum_succ (depth : Nat) (h : Heap) (r n : Nat) :
    pathSum (depth + 1) h r n =
      (if r = n then 1 else 0) +
        ((operandDerivs h r).map fun e => e.2 * pathSum depth h e.1 n).sum := by
  simp only [pathSum, allPaths, List.filter_cons]
  have key := sum_filter_flatMap n
    (fun e => (allPaths depth h e.1).map fun q => (q.1, e.2 * q.2)) (operandDerivs h r)
  simp only [sum_filter_scaled] at key
  by_cases hr : r = n
  · subst hr
    simp only [decide_True, if_true, List.map_cons, List.sum_cons]
    rw [key]
  · simp only [hr, decide_False, if_false, zero_add]
    exact key

theorem mem_visits_succ (depth : Nat) (h : Heap) (r m : Nat) :
    m ∈ (allPaths (depth + 1) h r).map Prod.fst ↔
      m = r ∨ ∃ c ∈ (h r).children, m ∈ (allPaths depth h c).map Prod.fst := by
  simp only [allPaths, List.map_cons, List.mem_cons, List.map_flatMap, List.map_map,
    List.mem_flatMap]
  constructor
  · rintro (e | ⟨e, he, hm⟩)
    · exact Or.inl e
    · refine Or.inr ⟨e.1, ?_, ?_⟩
      · rw [← operandDerivs_fst]; exact List.mem_map_of_mem _ he
      · simp only [List.mem_map, Function.comp] at hm ⊢
        obtain ⟨q, hq, e'⟩ := hm
        exact ⟨q, hq, e'⟩
  · rintro (e | ⟨c, hc, hm⟩)
    · exact Or.inl e
    · rw [← operandDerivs_fst] at hc
      obtain ⟨e, he, rfl⟩ := List.mem_map.1 hc
      refine Or.inr ⟨e, he, ?_⟩
      simp only [List.mem_map, Function.comp] at hm ⊢
      obtain ⟨q, hq, e'⟩ := hm
      exact ⟨q, hq, e'⟩

theorem pathSum_eq_zero {depth : Nat} {h : Heap} {r n : Nat}
    (hn : n ∉ (allPaths depth h r).map Prod.fst) : pathSum depth h r n = 0 := by
  have : (allPaths depth h r).filter (fun q => decide (q.1 = n)) = [] := by
    rw [List.filter_eq_nil_iff]
    intro q hq hd
    simp only [decide_eq_true_eq] at hd
    exact hn (List.mem_map.2 ⟨q, hq, hd⟩)
  simp only [pathSum, this, List.map_nil, List.sum_nil]

theorem mem_visits_self (depth : Nat) (h : Heap) (r : Nat) :
    r ∈ (allPaths (depth + 1) h r).map Prod.fst :=
  (mem_visits_succ depth h r r).2 (Or.inl rfl)

theorem rank_le_of_mem_visits {h : Heap} {rank : Nat → Nat} (ac : Acyclic h rank) :
    ∀ (depth r m : Nat), m ∈ (allPaths depth h r).map Prod.fst → rank m ≤ rank r := by
  intro depth
  induction depth with
  | zero => intro r m hm; simp [allPaths] at hm
  | succ d ih =>
    intro r m hm
    rcases (mem_visits_succ d h r m).1 hm with e | ⟨c, hc, hm'⟩
    · rw [e]
    · have := ih c m hm'
      have := ac r c hc
      omega

theorem allPaths_leaf (depth : Nat) (h : Heap) (r : Nat) (hl : (h r).children = []) :
    allPaths (depth + 1) h r = [(r, 1)] := by
  have : operandDerivs h r = [] := by
    have := operandDerivs_fst h r
    rw [hl] at this
    exact List.map_eq_nil_iff.1 this
  simp only [allPaths, this, List.flatMap_nil]


/-! ## One application of a backward function on a built graph -/

theorem length_two {l : List Nat} (hl : l.length = 2) : ∃ a b, l = [a, b] := by
  match l, hl with
  | [a, b], _ => exact ⟨a, b, rfl⟩

theorem length_one {l : List Nat} (hl : l.length = 1) : ∃ a, l = [a] := by
  match l, hl with
  | [a], _ => exact ⟨a, rfl⟩

theorem Built.toWellFormed {h : Heap} (b : Built h) : WellFormed h := by
  intro n
  have := b n
  split <;> simp_all

theorem SameShape.built {h h' : Heap} (s : SameShape h h') (b : Built h) : Built h' := by
  intro n
  have := b n
  rw [s.backward n, s.children n]
  exact this

theorem SameShape.operandsRequire {h h' : Heap} (s : SameShape h h')
    (hrg : ∀ p c, c ∈ (h p).children → (h c).requires_grad = true) :
    ∀ p c, c ∈ (h' p).children → (h' c).requires_grad = true := by
  intro p c hc
  rw [s.children p] at hc
  rw [s.requires_grad c]
  exact hrg p c hc

theorem callBackward_built (h : Heap) (r : Nat) (hb : Built h)
    (hrg : ∀ p c, c ∈ (h p).children → (h c).requires_grad = true)
    (hself : r ∉ (h r).children) :
    ∃ h1, callBackward h r = .ok h1 ∧ SameShape h h1 ∧
      ∀ n, (h1 n).grad = (h n).grad +
        ((operandDerivs h r).map fun e => if e.1 = n then e.2 * (h r).grad else 0).sum := by
  have hbr := hb r
  cases hbk : (h r)._backward with
  | none =>
    rw [hbk] at hbr
    simp only at hbr
    refine ⟨h, ?_, SameShape.rfl_shape h, fun n => ?_⟩
    · simp only [callBackward, hbk]
    · simp [operandDerivs, hbk, hbr]
  | some fn =>
    cases fn with
    | add =>
      rw [hbk] at hbr
      simp only at hbr
      obtain ⟨a, b, hch⟩ := length_two hbr
      have hra : r ≠ a := by
        rintro rfl
        exact hself (by rw [hch]; simp)
      have ga : (h a).requires_grad = true := hrg r a (by rw [hch]; simp)
      have gb : (h b).requires_grad = true := hrg r b (by rw [hch]; simp)
      have e : callBackward h r =
          .ok (addGrad (addGrad h a (h r).grad) b (h r).grad) := by
        simp [callBackward, hbk, Value_add_backward, childAt, hch, ga, gb,
          addGrad_other _ _ _ _ hra, addGrad_same]
        by_cases hba : b = a
        · subst hba; simp [addGrad_same, ga]
        · simp [addGrad_other _ _ _ _ hba, gb]
      refine ⟨_, e, (callBackward_frame e).1, fun n => ?_⟩
      simp only [operandDerivs, hbk, hch, List.map_cons, List.map_nil, List.sum_cons,
        List.sum_nil, one_mul, add_zero]
      by_cases hnb : n = b
      · subst hnb
        rw [addGrad_same]
        by_cases hna : n = a
        · subst hna; simp [addGrad_same]; ring
        · simp [addGrad_other _ _ _ _ hna, Ne.symm hna]
      · rw [addGrad_other _ _ _ _ hnb]
        by_cases hna : n = a
        · subst hna; simp [addGrad_same, Ne.symm hnb]
        · simp [addGrad_other _ _ _ _ hna, Ne.symm hna, Ne.symm hnb]
    | mul =>
      rw [hbk] at hbr
      simp only at hbr
      obtain ⟨a, b, hch⟩ := length_two hbr
      have hra : r ≠ a := by
        rintro rfl
        exact hself (by rw [hch]; simp)
      have ga : (h a).requires_grad = true := hrg r a (by rw [hch]; simp)
      have gb : (h b).requires_grad = true := hrg r b (by rw [hch]; simp)
      have e : callBackward h r =
          .ok (addGrad (addGrad h a ((h b).data * (h r).grad)) b ((h a).data * (h r).grad)) := by
        have d1 : ∀ x, (addGrad h a ((h b).data * (h r).grad) x).data = (h x).data :=
          fun x => (sameShape_addGrad h a _).data x
        have r1 : (addGrad h a ((h b).data * (h r).grad) b).requires_grad = true := by
          rw [(sameShape_addGrad h a _).requires_grad b]; exact gb
        have c1 : (addGrad h a ((h b).data * (h r).grad) r).children = [a, b] := by
          rw [(sameShape_addGrad h a _).children r]; exact hch
        simp [callBackward, hbk, Value_mul_backward, mulAccumulate, childAt, hch, ga, d1, r1,
          c1, addGrad_other _ _ _ _ hra]
      refine ⟨_, e, (callBackward_frame e).1, fun n => ?_⟩
      simp only [operandDerivs, hbk, hch, List.map_cons, List.map_nil, List.sum_cons,
        List.sum_nil, add_zero]
      by_cases hnb : n = b
      · subst hnb
        rw [addGrad_same]
        by_cases hna : n = a
        · subst hna; simp [addGrad_same]; ring
        · simp [addGrad_other _ _ _ _ hna, Ne.symm hna]
      · rw [addGrad_other _ _ _ _ hnb]
        by_cases hna : n = a
        · subst hna; simp [addGrad_same, Ne.symm hnb]
        · simp [addGrad_other _ _ _ _ hna, Ne.symm hna, Ne.symm hnb]
    | relu =>
      rw [hbk] at hbr
      simp only at hbr
      obtain ⟨a, hch⟩ := length_one hbr
      have ga : (h a).requires_grad = true := hrg r a (by rw [hch]; simp)
      have e : callBackward h r =
          .ok (addGrad h a (if (h r).data > 0 then (h r).grad else 0)) := by
        simp [callBackward, hbk, Value_relu_backward, childAt, hch, ga]
      refine ⟨_, e, (callBackward_frame e).1, fun n => ?_⟩
      simp only [operandDerivs, hbk, hch, List.map_cons, List.map_nil, List.sum_cons,
        List.sum_nil, add_zero]
      by_cases hna : n = a
      · subst hna
        rw [addGrad_same]
        by_cases hp : (h r).data > 0 <;> simp [hp]
      · rw [addGrad_other _ _ _ _ hna]
        simp [Ne.symm hna]


/-! ## The recursive pass on a graph that shares only leaves -/

theorem backwardLoop_eq_visitAll {f : Heap → Nat → Except Fault Heap} (r : Nat)
    (hf : ∀ h c h', f h c = .ok h' → SameShape h h') :
    ∀ (i : Nat) (h : Heap), i ≤ (h r).children.length →
      backwardLoop f r i h = visitAll f (((h r).children.take i).reverse) h := by
  intro i
  induction i with
  | zero => intro h _; simp [backwardLoop, visitAll]
  | succ i ih =>
    intro h hi
    have hlt : i < (h r).children.length := by omega
    simp only [backwardLoop]
    rw [childAt_ok h r i hlt]
    simp only [ok_bind]
    have ht : ((h r).children.take (i + 1)).reverse =
        (h r).children.get ⟨i, hlt⟩ :: ((h r).children.take i).reverse := by
      rw [List.take_succ, List.getElem?_eq_getElem hlt]
      simp
    rw [ht]
    simp only [visitAll]
    cases e1 : f h ((h r).children.get ⟨i, hlt⟩) with
    | error x => rfl
    | ok h1 =>
      simp only [ok_bind]
      have s1 := hf _ _ _ e1
      rw [ih h1 (by rw [s1.children r]; omega), s1.children r]

theorem visits_succ_eq (depth : Nat) (h : Heap) (r : Nat) :
    (allPaths (depth + 1) h r).map Prod.fst =
      r :: (operandDerivs h r).flatMap fun e => (allPaths depth h e.1).map Prod.fst := by
  simp only [allPaths, List.map_cons, List.map_flatMap, List.map_map, Function.comp_def]

theorem leafSharing_children {depth : Nat} {h : Heap} {r : Nat}
    (ls : LeafSharing (depth + 1) h r) :
    (∀ e ∈ operandDerivs h r, LeafSharing depth h e.1) ∧
      (operandDerivs h r).Pairwise fun e e' =>
        ∀ m, hasOperands h m = true → m ∈ (allPaths depth h e.1).map Prod.fst →
          m ∉ (allPaths depth h e'.1).map Prod.fst := by
  unfold LeafSharing at ls
  rw [visits_succ_eq] at ls
  have ls' : (((operandDerivs h r).flatMap fun e => (allPaths depth h e.1).map Prod.fst).filter
      (hasOperands h)).Nodup :=
    ls.sublist ((List.sublist_cons_self _ _).filter _)
  rw [List.filter_flatMap, List.nodup_flatMap] at ls'
  refine ⟨fun e he => ls'.1 e he, ls'.2.imp ?_⟩
  intro e e' hd m hm h1 h2
  exact hd (List.mem_filter.2 ⟨h1, hm⟩) (List.mem_filter.2 ⟨h2, hm⟩)

theorem sum_single_operand {h : Heap} {depth : Nat} (s : ℚ) (m : Nat)
    (hm : hasOperands h m = true) (hself : m ∈ (allPaths depth h m).map Prod.fst) :
    ∀ (E : List (Nat × ℚ)),
      E.Pairwise (fun e e' =>
        ∀ m, hasOperands h m = true → m ∈ (allPaths depth h e.1).map Prod.fst →
          m ∉ (allPaths depth h e'.1).map Prod.fst) →
      ∀ e ∈ E, m ∈ (allPaths depth h e.1).map Prod.fst →
        (E.map fun x => if x.1 = m then x.2 * s else 0).sum = if e.1 = m then e.2 * s else 0 := by
  intro E
  induction E with
  | nil => intro _ e he; cases he
  | cons x E ih =>
    intro hp e he hme
    rw [List.pairwise_cons] at hp
    have tail_zero : (∀ y ∈ E, m ∉ (allPaths depth h y.1).map Prod.fst) →
        (E.map fun x => if x.1 = m then x.2 * s else 0).sum = 0 := by
      intro hy
      apply List.sum_eq_zero
      intro v hv
      obtain ⟨y, hyE, rfl⟩ := List.mem_map.1 hv
      have : y.1 ≠ m := by
        intro e'
        exact hy y hyE (by rw [e']; exact hself)
      simp [this]
    rcases List.mem_cons.1 he with rfl | heE
    · simp only [List.map_cons, List.sum_cons]
      rw [tail_zero (fun y hy => hp.1 y hy m hm hme), add_zero]
    · have hx : m ∉ (allPaths depth h x.1).map Prod.fst := by
        intro hmx
        exact hp.1 e heE m hm hmx hme
      have hxm : x.1 ≠ m := by
        intro e'
        exact hx (by rw [e']; exact hself)
      simp only [List.map_cons, List.sum_cons, hxm, if_false, zero_add]
      exact ih hp.2 e heE hme

theorem pathSum_leaf (depth : Nat) (h : Heap) (c n : Nat) (hl : hasOperands h c = false) :
    pathSum (depth + 1) h c n - (if c = n then 1 else 0) = 0 := by
  have hc : (h c).children = [] := by
    simpa [hasOperands] using hl
  rw [pathSum, allPaths_leaf depth h c hc]
  by_cases e : c = n <;> simp [e]


theorem sum_combine (s : ℚ) (n : Nat) (P : Nat → ℚ) (E : List (Nat × ℚ)) :
    (E.map fun e => if e.1 = n then e.2 * s else 0).sum +
        (E.map fun e => e.2 * s * (P e.1 - if e.1 = n then 1 else 0)).sum =
      s * (E.map fun e => e.2 * P e.1).sum := by
  induction E with
  | nil => simp
  | cons x E ih =>
    simp only [List.map_cons, List.sum_cons]
    by_cases hx : x.1 = n
    · simp only [hx, if_true]
      linear_combination ih
    · simp only [hx, if_false]
      linear_combination ih

theorem leafSharing_congr {h k : Heap} (s : SameShape h k) {depth c : Nat}
    (ls : LeafSharing depth h c) : LeafSharing depth k c := by
  have e : hasOperands k = hasOperands h := funext (hasOperands_congr s)
  unfold LeafSharing at ls ⊢
  rw [allPaths_congr s, e]
  exact ls

theorem visitAll_pathSum (rank : Nat → Nat) (fuel : Nat) (h : Heap) (s : ℚ)
    (ih : ∀ (k : Heap) (c : Nat), SameShape h k → LeafSharing fuel h c → rank c < fuel →
      (∀ m ∈ (allPaths fuel h c).map Prod.fst, m ≠ c → hasOperands h m = true →
        (k m).grad = 0) →
      ∃ k', Value_backward fuel k c = .ok k' ∧ SameShape k k' ∧
        ∀ n, (k' n).grad =
          (k n).grad + (k c).grad * (pathSum fuel h c n - if c = n then 1 else 0)) :
    ∀ (L : List (Nat × ℚ)) (k : Heap), SameShape h k →
      L.Pairwise (fun e e' =>
        ∀ m, hasOperands h m = true → m ∈ (allPaths fuel h e.1).map Prod.fst →
          m ∉ (allPaths fuel h e'.1).map Prod.fst) →
      (∀ e ∈ L, LeafSharing fuel h e.1 ∧ rank e.1 < fuel) →
      (∀ e ∈ L, ∀ m ∈ (allPaths fuel h e.1).map Prod.fst, hasOperands h m = true →
        (k m).grad = if e.1 = m then e.2 * s else 0) →
      ∃ k', visitAll (Value_backward fuel) (L.map Prod.fst) k = .ok k' ∧ SameShape k k' ∧
        ∀ n, (k' n).grad = (k n).grad +
          (L.map fun e => e.2 * s * (pathSum fuel h e.1 n - if e.1 = n then 1 else 0)).sum := by
  intro L
  induction L with
  | nil =>
    intro k _ _ _ _
    exact ⟨k, rfl, SameShape.rfl_shape k, fun n => by simp⟩
  | cons e L ihL =>
    intro k sk hp hq hinv
    rw [List.pairwise_cons] at hp
    obtain ⟨hls, hrk⟩ := hq e (List.mem_cons_self _ _)
    obtain ⟨f, rfl⟩ : ∃ f, fuel = f + 1 := ⟨fuel - 1, by omega⟩
    have hself : ∀ x, x ∈ (allPaths (f + 1) h x).map Prod.fst := mem_visits_self f h
    obtain ⟨k2, e2, s2, g2⟩ := ih k e.1 sk hls hrk (fun m hm hne hop => by
      have := hinv e (List.mem_cons_self _ _) m hm hop
      rw [if_neg (Ne.symm hne)] at this
      exact this)
    have hscale : ∀ n, (k e.1).grad * (pathSum (f + 1) h e.1 n - if e.1 = n then 1 else 0) =
        e.2 * s * (pathSum (f + 1) h e.1 n - if e.1 = n then 1 else 0) := by
      intro n
      by_cases hop : hasOperands h e.1 = true
      · have := hinv e (List.mem_cons_self _ _) e.1 (hself e.1) hop
        rw [if_pos rfl] at this
        rw [this]
      · have hop' : hasOperands h e.1 = false := by simpa using hop
        rw [pathSum_leaf f h e.1 n hop']
        simp
    obtain ⟨k', e', s', g'⟩ := ihL k2 (sk.then_shape s2) hp.2
      (fun x hx => hq x (List.mem_cons_of_mem _ hx))
      (fun x hx m hm hop => by
        have hnot : m ∉ (allPaths (f + 1) h e.1).map Prod.fst :=
          fun hme => hp.1 x hx m hop hme hm
        have hne : e.1 ≠ m := fun e' => hnot (by rw [← e']; exact hself e.1)
        rw [g2 m, pathSum_eq_zero hnot, if_neg hne, sub_zero, mul_zero, add_zero]
        exact hinv x (List.mem_cons_of_mem _ hx) m hm hop)
    refine ⟨k', ?_, s2.then_shape s', fun n => ?_⟩
    · simp only [List.map_cons, visitAll]
      rw [e2]
      exact e'
    · rw [g' n, g2 n, hscale n]
      simp only [List.map_cons, List.sum_cons]
      ring

theorem Value_backward_pathSum (rank : Nat → Nat) :
    ∀ (fuel : Nat) (h : Heap) (r : Nat), Built h →
      (∀ p c, c ∈ (h p).children → (h c).requires_grad = true) →
      Acyclic h rank → rank r < fuel → LeafSharing fuel h r →
      (∀ m ∈ (allPaths fuel h r).map Prod.fst, m ≠ r → hasOperands h m = true →
        (h m).grad = 0) →
      ∃ h', Value_backward fuel h r = .ok h' ∧ SameShape h h' ∧
        ∀ n, (h' n).grad =
          (h n).grad + (h r).grad * (pathSum fuel h r n - if r = n then 1 else 0) := by
  intro fuel
  induction fuel with
  | zero => intro h r _ _ _ hr; omega
  | succ f ih =>
    intro h r hb hrg ac hr ls hz
    have hself : r ∉ (h r).children := fun hc => by
      have := ac r r hc
      omega
    obtain ⟨h1, e1, s1, g1⟩ := callBackward_built h r hb hrg hself
    obtain ⟨hls, hpw⟩ := leafSharing_children ls
    have hmemE : ∀ e ∈ operandDerivs h r, e.1 ∈ (h r).children := by
      intro e he
      rw [← operandDerivs_fst]
      exact List.mem_map_of_mem _ he
    have hrankE : ∀ e ∈ operandDerivs h r, rank e.1 < f := by
      intro e he
      have := ac r e.1 (hmemE e he)
      omega
    have hloop : Value_backward (f + 1) h r =
        visitAll (Value_backward f) (((operandDerivs h r).reverse).map Prod.fst) h1 := by
      simp only [Value_backward]
      rw [e1]
      simp only [ok_bind, Value.child_count]
      rw [backwardLoop_eq_visitAll r (fun a c b e => (Value_backward_frame f a c b e).1) _ h1
        (le_refl _)]
      rw [List.take_length, s1.children r, List.map_reverse, operandDerivs_fst]
    obtain ⟨k', ek, sk, gk⟩ := visitAll_pathSum rank f h (h r).grad
      (fun k c sk lsc hrc hzc => by
        obtain ⟨k', e, s, g⟩ := ih k c (sk.built hb)
          (sk.operandsRequire hrg) (sk.acyclic ac) hrc
          (leafSharing_congr sk lsc)
          (fun m hm hne hop => by
            rw [allPaths_congr sk] at hm
            rw [hasOperands_congr sk] at hop
            exact hzc m hm hne hop)
        refine ⟨k', e, s, fun n => ?_⟩
        rw [g n, pathSum_congr sk])
      (operandDerivs h r).reverse h1 s1
      (List.pairwise_reverse.2 (hpw.imp (fun hab m hop hmb hma => hab m hop hma hmb)))
      (fun e he => ⟨hls e (List.mem_reverse.1 he), hrankE e (List.mem_reverse.1 he)⟩)
      (fun e he m hm hop => by
        have heE := List.mem_reverse.1 he
        have hrm : rank m ≤ rank e.1 := rank_le_of_mem_visits ac f e.1 m hm
        have hre := ac r e.1 (hmemE e heE)
        have hmr : m ≠ r := by
          rintro rfl
          omega
        have h0 : (h m).grad = 0 :=
          hz m ((mem_visits_succ f h r m).2 (Or.inr ⟨e.1, hmemE e heE, hm⟩)) hmr hop
        obtain ⟨f', rfl⟩ : ∃ f', f = f' + 1 := ⟨f - 1, by have := hrankE e heE; omega⟩
        rw [g1 m, h0, zero_add]
        exact sum_single_operand (h r).grad m hop (mem_visits_self f' h m) _ hpw e heE hm)
    refine ⟨k', hloop.trans ek, s1.then_shape sk, fun n => ?_⟩
    rw [gk n, g1 n, pathSum_succ, List.map_reverse, List.sum_reverse, add_sub_cancel_left,
      add_assoc]
    exact congrArg (fun x => (h n).grad + x)
      (sum_combine (h r).grad n (fun c => pathSum f h c n) (operandDerivs h r))


/-! ## The reverse-topological pass -/

theorem allPaths_depth {h : Heap} {rank : Nat → Nat} (ac : Acyclic h rank) :
    ∀ (d1 d2 r : Nat), rank r < d1 → rank r < d2 → allPaths d1 h r = allPaths d2 h r := by
  intro d1
  induction d1 with
  | zero => intro d2 r h1 _; omega
  | succ a ih =>
    intro d2 r h1 h2
    obtain ⟨b, rfl⟩ : ∃ b, d2 = b + 1 := ⟨d2 - 1, by omega⟩
    simp only [allPaths]
    congr 1
    apply List.flatMap_congr
    intro e he
    have hc : e.1 ∈ (h r).children := by
      rw [← operandDerivs_fst]
      exact List.mem_map_of_mem _ he
    have := ac r e.1 hc
    rw [ih b e.1 (by omega) (by omega)]

theorem pathSum_depth {h : Heap} {rank : Nat → Nat} (ac : Acyclic h rank)
    (d1 d2 r n : Nat) (h1 : rank r < d1) (h2 : rank r < d2) :
    pathSum d1 h r n = pathSum d2 h r n := by
  simp only [pathSum, allPaths_depth ac d1 d2 r h1 h2]

theorem IsRevTopo.nodup {h : Heap} : ∀ {order : List Nat}, IsRevTopo h order → order.Nodup := by
  intro order
  induction order with
  | nil => intro _; exact List.nodup_nil
  | cons p rest ih =>
    intro ho
    exact List.nodup_cons.2 ⟨ho.1, ih ho.2.2⟩

theorem IsRevTopo.topo_congr {h h' : Heap} (s : SameShape h h') :
    ∀ {order : List Nat}, IsRevTopo h order → IsRevTopo h' order := by
  intro order
  induction order with
  | nil => intro _; trivial
  | cons p rest ih =>
    intro ho
    refine ⟨ho.1, ?_, ih ho.2.2⟩
    rw [s.children p]
    exact ho.2.1

theorem sum_indicator (b : Nat → ℚ) (v : ℚ) (c : Nat) :
    ∀ (l : List Nat), l.Nodup → c ∈ l →
      (l.map fun q => (if c = q then v else 0) * b q).sum = v * b c := by
  intro l
  induction l with
  | nil => intro _ hc; cases hc
  | cons x l ih =>
    intro hn hc
    rw [List.nodup_cons] at hn
    simp only [List.map_cons, List.sum_cons]
    by_cases hx : c = x
    · subst hx
      have : (l.map fun q => (if c = q then v else 0) * b q).sum = 0 := by
        apply List.sum_eq_zero
        intro y hy
        obtain ⟨q, hq, rfl⟩ := List.mem_map.1 hy
        have : c ≠ q := by
          rintro rfl
          exact hn.1 hq
        simp [this]
      rw [this, if_pos rfl, add_zero]
    · have hcl : c ∈ l := by
        rcases List.mem_cons.1 hc with e | e
        · exact absurd e hx
        · exact e
      rw [if_neg hx, zero_mul, zero_add]
      exact ih hn.2 hcl

theorem sum_swap (a : Nat × ℚ → ℚ) (b : Nat → ℚ) (l : List Nat) (hn : l.Nodup) :
    ∀ (E : List (Nat × ℚ)), (∀ e ∈ E, e.1 ∈ l) →
      (l.map fun q => (E.map fun e => if e.1 = q then a e else 0).sum * b q).sum =
        (E.map fun e => a e * b e.1).sum := by
  intro E
  induction E with
  | nil => intro _; simp
  | cons x E ih =>
    intro hE
    simp only [List.map_cons, List.sum_cons, add_mul]
    rw [List.sum_map_add, sum_indicator b (a x) x.1 l hn (hE x (List.mem_cons_self _ _)),
      ih (fun e he => hE e (List.mem_cons_of_mem _ he))]

theorem topoOrderBackward_pathSum (rank : Nat → Nat) (h0 : Heap) (hb : Built h0)
    (hrg : ∀ p c, c ∈ (h0 p).children → (h0 c).requires_grad = true) (ac : Acyclic h0 rank) :
    ∀ (order : List Nat) (h : Heap), SameShape h0 h → IsRevTopo h0 order →
      ∃ h', topoOrderBackward h order = .ok h' ∧ SameShape h h' ∧
        ∀ n, (h' n).grad = (h n).grad +
          (order.map fun p =>
            (h p).grad * (pathSum (rank p + 1) h0 p n - if p = n then 1 else 0)).sum := by
  intro order
  induction order with
  | nil =>
    intro h _ _
    exact ⟨h, rfl, SameShape.rfl_shape h, fun n => by simp⟩
  | cons p rest ih =>
    intro h sh ho
    have hself : p ∉ (h p).children := fun hc => by
      rw [sh.children p] at hc
      have := ac p p hc
      omega
    obtain ⟨h1, e1, s1, g1⟩ := callBackward_built h p (sh.built hb)
      (sh.operandsRequire hrg) hself
    obtain ⟨h', e', s', g'⟩ := ih h1 (sh.then_shape s1) ho.2.2
    refine ⟨h', ?_, s1.then_shape s', fun n => ?_⟩
    · simp only [topoOrderBackward]
      rw [e1]
      exact e'
    · have hE : ∀ e ∈ operandDerivs h0 p, e.1 ∈ rest := by
        intro e he
        apply ho.2.1
        rw [← operandDerivs_fst]
        exact List.mem_map_of_mem _ he
      have hsw := sum_swap (fun e => e.2 * (h p).grad)
        (fun q => pathSum (rank q + 1) h0 q n - if q = n then 1 else 0) rest
        ho.2.2.nodup (operandDerivs h0 p) hE
      have hps : pathSum (rank p + 1) h0 p n - (if p = n then 1 else 0) =
          ((operandDerivs h0 p).map fun e => e.2 * pathSum (rank e.1 + 1) h0 e.1 n).sum := by
        rw [pathSum_succ, add_sub_cancel_left]
        congr 1
        apply List.map_congr_left
        intro e he
        have hc : e.1 ∈ (h0 p).children := by
          rw [← operandDerivs_fst]
          exact List.mem_map_of_mem _ he
        have := ac p e.1 hc
        rw [pathSum_depth ac (rank p) (rank e.1 + 1) e.1 n (by omega) (by omega)]
      have hcomb := sum_combine (h p).grad n (fun c => pathSum (rank c + 1) h0 c n)
        (operandDerivs h0 p)
      rw [g' n]
      simp only [g1, operandDerivs_congr sh, add_mul, List.sum_map_add, List.map_cons,
        List.sum_cons, hps]
      rw [hsw]
      linear_combination hcomb


/-- In exact arithmetic the defect of `Value_backward` shows only when a node that has
operands is shared.  On an acyclic graph built by add, multiply and rectify in which
every operand requires gradient, all gradients are zero and only leaves are reachable
from the root by more than one path (`LeafSharing`), seed the root with 1.  Then the
recursive `Value_backward` returns and leaves at every node the sum over all
root-to-node paths of the product of the local derivatives, and the reverse-topological
pass over any valid order containing the root returns and leaves the same gradients.
The sums are exact here: in binary64 the order of accumulation can change the rounded
result. -/
theorem backward_sums_paths (h : Heap) (rank : Nat → Nat) (root fuel : Nat)
    (order : List Nat) (hb : Built h)
    (hrg : ∀ p c, c ∈ (h p).children → (h c).requires_grad = true)
    (ac : Acyclic h rank) (hf : rank root < fuel) (hz : ∀ n, (h n).grad = 0)
    (ls : LeafSharing fuel h root) (ho : IsRevTopo h order) (hro : root ∈ order) :
    ∃ h' t, Value_backward fuel (setGrad h root 1) root = .ok h' ∧
      topoOrderBackward (setGrad h root 1) order = .ok t ∧
      ∀ n, (h' n).grad = pathSum fuel h root n ∧ (t n).grad = (h' n).grad := by
  have ss : SameShape h (setGrad h root 1) := sameShape_setGrad h root 1
  have hsg : ∀ p, (setGrad h root 1 p).grad = if root = p then 1 else 0 := by
    intro p
    by_cases e : p = root
    · subst e; rw [setGrad_same, if_pos rfl]
    · rw [setGrad_other _ _ _ _ e, if_neg (Ne.symm e)]; exact hz p
  obtain ⟨h', e1, _, g1⟩ := Value_backward_pathSum rank fuel (setGrad h root 1) root
    (ss.built hb) (ss.operandsRequire hrg) (ss.acyclic ac) hf
    (leafSharing_congr ss ls)
    (fun m _ hne _ => by rw [hsg m, if_neg (Ne.symm hne)])
  obtain ⟨t, e2, _, g2⟩ := topoOrderBackward_pathSum rank h hb hrg ac order
    (setGrad h root 1) ss ho
  have n1 : ∀ n, (h' n).grad = pathSum fuel h root n := by
    intro n
    rw [g1 n, hsg n, hsg root, if_pos rfl, one_mul, pathSum_congr ss]
    ring
  refine ⟨h', t, e1, e2, fun n => ⟨n1 n, ?_⟩⟩
  rw [n1 n, g2 n]
  simp only [hsg]
  rw [sum_indicator (fun p => pathSum (rank p + 1) h p n - if p = n then 1 else 0) 1 root
    order ho.nodup hro, pathSum_depth ac (rank root + 1) fuel root n (by omega) hf]
  ring


theorem sharedLeafHeap_apply (n : Nat) :
    sharedLeafHeap n =
      if n = 2 then { data := 12, grad := 0, children := [1, 0], op := "+",
                      _backward := some BackwardFn.add, requires_grad := true }
      else if n = 1 then { data := 9, grad := 0, children := [0, 0], op := "*",
                           _backward := some BackwardFn.mul, requires_grad := true }
      else if n = 0 then { data := 3, grad := 0, children := [], op := "",
                           _backward := none, requires_grad := true }
      else emptyHeap n := by
  by_cases h2 : n = 2
  · subst h2
    simp [sharedLeafHeap, Value_add, Value_mul, Value_add_child, Value_create, Heap.write]
    norm_num
  · by_cases h1 : n = 1
    · subst h1
      simp [sharedLeafHeap, Value_add, Value_mul, Value_add_child, Value_create, Heap.write]
      norm_num
    · by_cases h0 : n = 0
      · subst h0
        simp [sharedLeafHeap, Value_add, Value_mul, Value_add_child, Value_create, Heap.write]
      · simp [sharedLeafHeap, Value_add, Value_mul, Value_add_child, Value_create, Heap.write,
          h2, h1, h0]

/-- The theorem `backward_sums_paths` at `q = x * x + x`, whose leaf `x` is shared by
three paths. -/
theorem backward_sums_paths_witness :
    ∃ h' t, Value_backward 3 (setGrad sharedLeafHeap 2 1) 2 = .ok h' ∧
      topoOrderBackward (setGrad sharedLeafHeap 2 1) [2, 1, 0] = .ok t ∧
      ∀ n, (h' n).grad = pathSum 3 sharedLeafHeap 2 n ∧ (t n).grad = (h' n).grad := by
  have e2 := sharedLeafHeap_apply 2
  have e1 := sharedLeafHeap_apply 1
  have e0 := sharedLeafHeap_apply 0
  simp only [↓reduceIte, show (1 : Nat) ≠ 2 by decide, show (0 : Nat) ≠ 2 by decide,
    show (0 : Nat) ≠ 1 by decide] at e2 e1 e0
  have cases3 : ∀ (P : Nat → Prop), P 2 → P 1 → P 0 →
      (∀ n, n ≠ 2 → n ≠ 1 → n ≠ 0 → P n) → ∀ n, P n := by
    intro P p2 p1 p0 pr n
    by_cases h2 : n = 2
    · rw [h2]; exact p2
    · by_cases h1 : n = 1
      · rw [h1]; exact p1
      · by_cases h0 : n = 0
        · rw [h0]; exact p0
        · exact pr n h2 h1 h0
  have er : ∀ n, n ≠ 2 → n ≠ 1 → n ≠ 0 → sharedLeafHeap n = emptyHeap n := by
    intro n h2 h1 h0
    rw [sharedLeafHeap_apply, if_neg h2, if_neg h1, if_neg h0]
  refine backward_sums_paths sharedLeafHeap (fun n => n) 2 3 [2, 1, 0] ?_ ?_ ?_ (by decide)
    ?_ ?_ ?_ (by decide)
  · intro n
    revert n
    apply cases3
    · rw [e2]; rfl
    · rw [e1]; rfl
    · rw [e0]
    · intro n h2 h1 h0; rw [er n h2 h1 h0]; rfl
  · intro p c
    revert p
    apply cases3
    · rw [e2]; intro hc; simp at hc; rcases hc with rfl | rfl
      · rw [e1]
      · rw [e0]
    · rw [e1]; intro hc; simp at hc; rw [hc, e0]
    · rw [e0]; intro hc; simp at hc
    · intro n h2 h1 h0; rw [er n h2 h1 h0]; intro hc; simp [emptyHeap] at hc
  · intro p c
    revert p
    apply cases3
    · rw [e2]; intro hc; simp at hc; rcases hc with rfl | rfl <;> simp
    · rw [e1]; intro hc; simp at hc; rw [hc]; simp
    · rw [e0]; intro hc; simp at hc
    · intro n h2 h1 h0; rw [er n h2 h1 h0]; intro hc; simp [emptyHeap] at hc
  · apply cases3
    · rw [e2]
    · rw [e1]
    · rw [e0]
    · intro n h2 h1 h0; rw [er n h2 h1 h0]; rfl
  · simp [LeafSharing, allPaths, operandDerivs, hasOperands, e2, e1, e0]
  · simp [IsRevTopo, e2, e1, e0]

/-- On `q = x * x + x` with `x = 3` the three paths from `q` to `x` weigh 3, 3 and 1. -/
theorem sharedLeafHeap_pathSum : pathSum 3 sharedLeafHeap 2 0 = 7 := by
  have e2 := sharedLeafHeap_apply 2
  have e1 := sharedLeafHeap_apply 1
  have e0 := sharedLeafHeap_apply 0
  simp only [↓reduceIte, show (1 : Nat) ≠ 2 by decide, show (0 : Nat) ≠ 2 by decide,
    show (0 : Nat) ≠ 1 by decide] at e2 e1 e0
  simp [pathSum, allPaths, operandDerivs, e2, e1, e0]
  norm_num

/-! ## The gradient reset and freshly built nodes -/

/-- C11: on an acyclic graph zero_grad returns; afterwards the gradient of the root and
of every node reachable from it is 0, whatever the `requires_grad` flags, the gradient
of every unreachable node is what it was, and the value, operands, operation tag,
backward function and `requires_grad` of every node are what they were. -/
theorem zero_grad_frame (h : Heap) (rank : Nat → Nat) (root fuel : Nat)
    (ac : Acyclic h rank) (hf : rank root < fuel) :
    ∃ h', Value_zero_grad fuel h root = .ok h' ∧ (h' root).grad = 0 ∧
      (∀ n, Reachable h root n → (h' n).grad = 0) ∧
      (∀ n, ¬ Reachable h root n → (h' n).grad = (h n).grad) ∧
      ∀ n, (h' n).data = (h n).data ∧ (h' n).children = (h n).children ∧
        (h' n).op = (h n).op ∧ (h' n)._backward = (h n)._backward ∧
        (h' n).requires_grad = (h n).requires_grad := by
  obtain ⟨h', e⟩ := Value_zero_grad_ok rank fuel h root ac hf
  have z := Value_zero_grad_zeroes fuel h root h' e
  have r := Value_zero_grad_rel fuel h root h' e
  exact ⟨h', e, z root (Reachable.refl root), z, r.2.2,
    fun n => (shape_eq_iff _ _).1 (r.1 n)⟩

/-- Witness for `zero_grad_frame`: the graph `q = x * x + x` with the seed 5 at `q`. -/
theorem zero_grad_frame_witness :
    ∃ h', Value_zero_grad 3 (setGrad sharedLeafHeap 2 5) 2 = .ok h' ∧ (h' 2).grad = 0 ∧
      (∀ n, Reachable (setGrad sharedLeafHeap 2 5) 2 n → (h' n).grad = 0) ∧
      (∀ n, ¬ Reachable (setGrad sharedLeafHeap 2 5) 2 n →
        (h' n).grad = (setGrad sharedLeafHeap 2 5 n).grad) ∧
      ∀ n, (h' n).data = (setGrad sharedLeafHeap 2 5 n).data ∧
        (h' n).children = (setGrad sharedLeafHeap 2 5 n).children ∧
        (h' n).op = (setGrad sharedLeafHeap 2 5 n).op ∧
        (h' n)._backward = (setGrad sharedLeafHeap 2 5 n)._backward ∧
        (h' n).requires_grad = (setGrad sharedLeafHeap 2 5 n).requires_grad :=
  zero_grad_frame (setGrad sharedLeafHeap 2 5) (fun n => n) 2 3
    (acyclic_setGrad (acyclic_add (acyclic_mul (acyclic_create (acyclic_create
      (acyclic_create (acyclic_emptyHeap _) _ _ _) _ _ _) _ _ _) _ _ _ (by decide) (by decide))
      _ _ _ (by decide) (by decide)) _ _)
    (by decide)

/-- C13: on a result node fresh from `Value_create`, add and multiply that leave the
result requiring gradient record exactly the operands `[a, b]` in call order with their
own backward function, rectify records exactly `[a]`; when the result does not require
gradient no operand and no backward function is recorded. -/
theorem fresh_result_operands (h : Heap) (r a b : Nat) (d0 : ℚ) (rg0 : Bool) :
    (((Value_add (Value_create h r d0 rg0) r a b r).requires_grad = true →
        (Value_add (Value_create h r d0 rg0) r a b r).children = [a, b] ∧
        (Value_add (Value_create h r d0 rg0) r a b r)._backward = some BackwardFn.add) ∧
      ((Value_add (Value_create h r d0 rg0) r a b r).requires_grad = false →
        (Value_add (Value_create h r d0 rg0) r a b r).children = [] ∧
        (Value_add (Value_create h r d0 rg0) r a b r)._backward = none)) ∧
    (((Value_mul (Value_create h r d0 rg0) r a b r).requires_grad = true →
        (Value_mul (Value_create h r d0 rg0) r a b r).children = [a, b] ∧
        (Value_mul (Value_create h r d0 rg0) r a b r)._backward = some BackwardFn.mul) ∧
      ((Value_mul (Value_create h r d0 rg0) r a b r).requires_grad = false →
        (Value_mul (Value_create h r d0 rg0) r a b r).children = [] ∧
        (Value_mul (Value_create h r d0 rg0) r a b r)._backward = none)) ∧
    (((Value_relu (Value_create h r d0 rg0) r a r).requires_grad = true →
        (Value_relu (Value_create h r d0 rg0) r a r).children = [a] ∧
        (Value_relu (Value_create h r d0 rg0) r a r)._backward = some BackwardFn.relu) ∧
      ((Value_relu (Value_create h r d0 rg0) r a r).requires_grad = false →
        (Value_relu (Value_create h r d0 rg0) r a r).children = [] ∧
        (Value_relu (Value_create h r d0 rg0) r a r)._backward = none)) := by
  obtain ⟨k, hk⟩ : ∃ k, k = Value_create h r d0 rg0 := ⟨_, rfl⟩
  have kr : k r = { data := d0, grad := 0, children := [], op := "", _backward := none,
                    requires_grad := rg0 } := by
    rw [hk, Value_create_same]
  rw [← hk]
  have flags : ∀ x, (k x).requires_grad = true ∨ (k x).requires_grad = false := by
    intro x
    cases (k x).requires_grad
    · exact Or.inr rfl
    · exact Or.inl rfl
  refine ⟨?_, ?_, ?_⟩
  · rcases flags a with ha | ha
    · rw [Value_add_same k r a b (Or.inl ha)]; simp [kr]
    · rcases flags b with hb | hb
      · rw [Value_add_same k r a b (Or.inr hb)]; simp [kr]
      · rw [Value_add_same_unflagged k r a b ha hb]; simp [kr]
  · rcases flags a with ha | ha
    · rw [Value_mul_same k r a b (Or.inl ha)]; simp [kr]
    · rcases flags b with hb | hb
      · rw [Value_mul_same k r a b (Or.inr hb)]; simp [kr]
      · rw [Value_mul_same_unflagged k r a b ha hb]; simp [kr]
  · rcases flags a with ha | ha
    · rw [Value_relu_same k r a ha]; simp [kr]
    · rw [Value_relu_same_unflagged k r a ha]; simp [kr]

theorem Value_backward_leaf (fuel : Nat) (h : Heap) (p : Nat) (hl : IsLeaf h p) :
    Value_backward (fuel + 1) h p = .ok h := by
  simp [Value_backward, callBackward, hl.2, Value.child_count, hl.1, backwardLoop]

/-- C14: when no operand requires gradient, add, multiply and rectify on a fresh result
node leave the result with `requires_grad` false, and backward from the result, for any
seed, returns the heap it was given: no gradient of any node changes. -/
theorem unflagged_result_backward (h : Heap) (r a b : Nat) (d0 seed : ℚ) (rg0 : Bool)
    (fuel : Nat) (hra : r ≠ a) (hrb : r ≠ b)
    (ha : (h a).requires_grad = false) (hb : (h b).requires_grad = false) :
    ((Value_add (Value_create h r d0 rg0) r a b r).requires_grad = false ∧
      Value_backward (fuel + 1) (setGrad (Value_add (Value_create h r d0 rg0) r a b) r seed) r
        = .ok (setGrad (Value_add (Value_create h r d0 rg0) r a b) r seed)) ∧
    ((Value_mul (Value_create h r d0 rg0) r a b r).requires_grad = false ∧
      Value_backward (fuel + 1) (setGrad (Value_mul (Value_create h r d0 rg0) r a b) r seed) r
        = .ok (setGrad (Value_mul (Value_create h r d0 rg0) r a b) r seed)) ∧
    ((Value_relu (Value_create h r d0 rg0) r a r).requires_grad = false ∧
      Value_backward (fuel + 1) (setGrad (Value_relu (Value_create h r d0 rg0) r a) r seed) r
        = .ok (setGrad (Value_relu (Value_create h r d0 rg0) r a) r seed)) := by
  obtain ⟨k, hk⟩ : ∃ k, k = Value_create h r d0 rg0 := ⟨_, rfl⟩
  have kr : k r = { data := d0, grad := 0, children := [], op := "", _backward := none,
                    requires_grad := rg0 } := by
    rw [hk, Value_create_same]
  have ka : (k a).requires_grad = false := by
    rw [hk, Value_create_other _ _ _ _ _ (Ne.symm hra)]; exact ha
  have kb : (k b).requires_grad = false := by
    rw [hk, Value_create_other _ _ _ _ _ (Ne.symm hrb)]; exact hb
  rw [← hk]
  refine ⟨⟨?_, ?_⟩, ⟨?_, ?_⟩, ⟨?_, ?_⟩⟩
  · rw [Value_add_same_unflagged k r a b ka kb]
  · apply Value_backward_leaf
    constructor
    · rw [(sameShape_setGrad _ r seed).children r, Value_add_same_unflagged k r a b ka kb, kr]
    · rw [(sameShape_setGrad _ r seed).backward r, Value_add_same_unflagged k r a b ka kb, kr]
  · rw [Value_mul_same_unflagged k r a b ka kb]
  · apply Value_backward_leaf
    constructor
    · rw [(sameShape_setGrad _ r seed).children r, Value_mul_same_unflagged k r a b ka kb, kr]
    · rw [(sameShape_setGrad _ r seed).backward r, Value_mul_same_unflagged k r a b ka kb, kr]
  · rw [Value_relu_same_unflagged k r a ka]
  · apply Value_backward_leaf
    constructor
    · rw [(sameShape_setGrad _ r seed).children r, Value_relu_same_unflagged k r a ka, kr]
    · rw [(sameShape_setGrad _ r seed).backward r, Value_relu_same_unflagged k r a ka, kr]

/-- Witness for `unflagged_result_backward`: operands 4 and 5 created without gradient
tracking, seed 1. -/
theorem unflagged_result_backward_witness :
    ((Value_add (Value_create (Value_create (Value_create emptyHeap 0 4 false) 1 5 false)
        2 0 true) 2 0 1 2).requires_grad = false ∧
      Value_backward 1 (setGrad (Value_add (Value_create (Value_create (Value_create emptyHeap
        0 4 false) 1 5 false) 2 0 true) 2 0 1) 2 1) 2
        = .ok (setGrad (Value_add (Value_create (Value_create (Value_create emptyHeap
        0 4 false) 1 5 false) 2 0 true) 2 0 1) 2 1)) ∧
    ((Value_mul (Value_create (Value_create (Value_create emptyHeap 0 4 false) 1 5 false)
        2 0 true) 2 0 1 2).requires_grad = false ∧
      Value_backward 1 (setGrad (Value_mul (Value_create (Value_create (Value_create emptyHeap
        0 4 false) 1 5 false) 2 0 true) 2 0 1) 2 1) 2
        = .ok (setGrad (Value_mul (Value_create (Value_create (Value_create emptyHeap
        0 4 false) 1 5 false) 2 0 true) 2 0 1) 2 1)) ∧
    ((Value_relu (Value_create (Value_create (Value_create emptyHeap 0 4 false) 1 5 false)
        2 0 true) 2 0 2).requires_grad = false ∧
      Value_backward 1 (setGrad (Value_relu (Value_create (Value_create (Value_create emptyHeap
        0 4 false) 1 5 false) 2 0 true) 2 0) 2 1) 2
        = .ok (setGrad (Value_relu (Value_create (Value_create (Value_create emptyHeap
        0 4 false) 1 5 false) 2 0 true) 2 0) 2 1)) :=
  unflagged_result_backward (Value_create (Value_create emptyHeap 0 4 false) 1 5 false)
    2 0 1 0 1 true 0 (by decide) (by decide) rfl rfl

/-! ## Backward only adds to gradients strictly below the root -/

theorem applyPushes_append (h : Heap) (l1 l2 : List (Nat × ℚ)) :
    applyPushes h (l1 ++ l2) = applyPushes (applyPushes h l1) l2 := by
  induction l1 generalizing h with
  | nil => rfl
  | cons e l1 ih =>
    show applyPushes (addGrad h e.1 e.2) (l1 ++ l2) = _
    rw [ih]
    rfl

theorem applyPushes_shape (l : List (Nat × ℚ)) :
    ∀ h : Heap, SameShape h (applyPushes h l) := by
  induction l with
  | nil => intro h; exact SameShape.rfl_shape h
  | cons e l ih =>
    intro h
    exact (sameShape_addGrad h e.1 e.2).then_shape (ih _)

theorem applyPushes_grad (l : List (Nat × ℚ)) :
    ∀ (h : Heap) (n : Nat), (applyPushes h l n).grad =
      (h n).grad + ((l.filter fun e => decide (e.1 = n)).map Prod.snd).sum := by
  induction l with
  | nil => intro h n; simp [applyPushes]
  | cons e l ih =>
    intro h n
    simp only [applyPushes, ih, List.filter_cons]
    by_cases hn : e.1 = n
    · subst hn
      simp only [addGrad_same, decide_True, if_true, List.map_cons, List.sum_cons]
      ring
    · simp only [addGrad_other _ _ _ _ (Ne.symm hn), hn, decide_False, if_false]
      simp

theorem Accumulates.rfl_acc (T : Nat → Prop) (h : Heap) : Accumulates T h h :=
  ⟨[], rfl, fun _ he => by cases he⟩

theorem Accumulates.then_acc {T : Nat → Prop} {a b c : Heap} (x : Accumulates T a b)
    (y : Accumulates T b c) : Accumulates T a c := by
  obtain ⟨l1, e1, t1⟩ := x
  obtain ⟨l2, e2, t2⟩ := y
  refine ⟨l1 ++ l2, ?_, ?_⟩
  · rw [applyPushes_append, ← e1, e2]
  · intro e he
    rcases List.mem_append.1 he with h1 | h2
    · exact t1 e h1
    · exact t2 e h2

theorem Accumulates.mono {T U : Nat → Prop} {a b : Heap} (x : Accumulates T a b)
    (hTU : ∀ p, T p → U p) : Accumulates U a b := by
  obtain ⟨l, e, t⟩ := x
  exact ⟨l, e, fun q hq => hTU _ (t q hq)⟩

theorem Accumulates.shape {T : Nat → Prop} {a b : Heap} (x : Accumulates T a b) :
    SameShape a b := by
  obtain ⟨l, e, _⟩ := x
  rw [e]
  exact applyPushes_shape l a

theorem Accumulates.outside {T : Nat → Prop} {a b : Heap} (x : Accumulates T a b)
    (n : Nat) (hn : ¬ T n) : (b n).grad = (a n).grad := by
  obtain ⟨l, e, t⟩ := x
  rw [e, applyPushes_grad]
  have : l.filter (fun q => decide (q.1 = n)) = [] := by
    rw [List.filter_eq_nil_iff]
    intro q hq hd
    simp only [decide_eq_true_eq] at hd
    exact hn (hd ▸ t q hq)
  rw [this]
  simp

theorem accumulates_addGrad {T : Nat → Prop} (h : Heap) (p : Nat) (d : ℚ) (hp : T p) :
    Accumulates T h (addGrad h p d) :=
  ⟨[(p, d)], rfl, fun e he => by
    rw [List.mem_singleton] at he
    rw [he]
    exact hp⟩

theorem accumulates_guarded {T : Nat → Prop} (h : Heap) (p : Nat) (d : ℚ)
    (hp : (h p).requires_grad = true → T p) :
    Accumulates T h (if (h p).requires_grad = true then addGrad h p d else h) := by
  by_cases hg : (h p).requires_grad = true
  · rw [if_pos hg]; exact accumulates_addGrad h p d (hp hg)
  · rw [if_neg hg]; exact Accumulates.rfl_acc T h

theorem mulAccumulate_accumulates {h h' : Heap} {r i j : Nat}
    (e : mulAccumulate h r i j = .ok h') :
    Accumulates (fun p => p ∈ (h r).children ∧ (h p).requires_grad = true) h h' := by
  unfold mulAccumulate at e
  cases e0 : childAt h r i with
  | error f => rw [e0] at e; cases e
  | ok c0 =>
    rw [e0] at e
    simp only [ok_bind] at e
    by_cases hp : (h c0).requires_grad = true
    · rw [if_pos hp] at e
      cases e1 : childAt h r j with
      | error f => rw [e1] at e; cases e
      | ok c1 =>
        rw [e1] at e
        simp only [ok_bind, pure_eq_ok, Except.ok.injEq] at e
        rw [← e]
        exact accumulates_addGrad h c0 _ ⟨childAt_mem e0, hp⟩
    · rw [if_neg hp] at e
      simp only [pure_eq_ok, Except.ok.injEq] at e
      rw [← e]
      exact Accumulates.rfl_acc _ h

theorem callBackward_accumulates {h h' : Heap} {r : Nat} (e : callBackward h r = .ok h') :
    Accumulates (fun p => p ∈ (h r).children ∧ (h p).requires_grad = true) h h' := by
  unfold callBackward at e
  split at e
  · simp only [Except.ok.injEq] at e
    rw [← e]
    exact Accumulates.rfl_acc _ h
  · unfold Value_add_backward at e
    cases e0 : childAt h r 0 with
    | error f => rw [e0] at e; cases e
    | ok c0 =>
      rw [e0] at e
      simp only [ok_bind] at e
      have a1 : Accumulates (fun p => p ∈ (h r).children ∧ (h p).requires_grad = true) h
          (if (h c0).requires_grad = true then addGrad h c0 (h r).grad else h) :=
        accumulates_guarded h c0 _ (fun hg => ⟨childAt_mem e0, hg⟩)
      revert e a1
      generalize (if (h c0).requires_grad = true then addGrad h c0 (h r).grad else h) = h1
      intro e a1
      cases e1 : childAt h1 r 1 with
      | error f => rw [e1] at e; cases e
      | ok c1 =>
        rw [e1] at e
        simp only [ok_bind, pure_eq_ok, Except.ok.injEq] at e
        rw [← e]
        refine a1.then_acc (accumulates_guarded h1 c1 _ (fun hg => ⟨?_, ?_⟩))
        · rw [← a1.shape.children r]; exact childAt_mem e1
        · rw [← a1.shape.requires_grad c1]; exact hg
  · unfold Value_mul_backward at e
    cases e0 : mulAccumulate h r 0 1 with
    | error f => rw [e0] at e; cases e
    | ok h1 =>
      rw [e0] at e
      simp only [ok_bind] at e
      have a1 := mulAccumulate_accumulates e0
      refine a1.then_acc ((mulAccumulate_accumulates e).mono (fun p hp => ⟨?_, ?_⟩))
      · rw [← a1.shape.children r]; exact hp.1
      · rw [← a1.shape.requires_grad p]; exact hp.2
  · unfold Value_relu_backward at e
    cases e0 : childAt h r 0 with
    | error f => rw [e0] at e; cases e
    | ok c0 =>
      rw [e0] at e
      simp only [ok_bind, pure_eq_ok, Except.ok.injEq] at e
      rw [← e]
      exact accumulates_guarded h c0 _ (fun hg => ⟨childAt_mem e0, hg⟩)

theorem backwardLoop_rel (R : Heap → Heap → Prop) (hrefl : ∀ h, R h h)
    (htrans : ∀ a b c, R a b → R b c → R a c)
    {f : Heap → Nat → Except Fault Heap} (r : Nat)
    (hf : ∀ h c h', c ∈ (h r).children → f h c = .ok h' → R h h') :
    ∀ (i : Nat) (h h' : Heap), backwardLoop f r i h = .ok h' → R h h' := by
  intro i
  induction i with
  | zero =>
    intro h h' e
    simp only [backwardLoop, Except.ok.injEq] at e
    rw [← e]
    exact hrefl h
  | succ i ih =>
    intro h h' e
    simp only [backwardLoop] at e
    cases e0 : childAt h r i with
    | error x => rw [e0] at e; cases e
    | ok c =>
      rw [e0] at e
      simp only [ok_bind] at e
      cases e1 : f h c with
      | error x => rw [e1] at e; cases e
      | ok h1 =>
        rw [e1] at e
        simp only [ok_bind] at e
        exact htrans _ _ _ (hf h c h1 (childAt_mem e0) e1) (ih h1 h' e)

theorem PushRel.rfl_push (r : Nat) (h : Heap) : PushRel r h h := Accumulates.rfl_acc _ h

theorem PushRel.then_push {r : Nat} {a b c : Heap} (x : PushRel r a b) (y : PushRel r b c) :
    PushRel r a c := by
  have s : SameShape a b := Accumulates.shape x
  refine Accumulates.then_acc x (Accumulates.mono y ?_)
  rintro p ⟨⟨d, hd, hr⟩, hg⟩
  refine ⟨⟨d, ?_, hr.reach_congr s.symm⟩, ?_⟩
  · rw [← s.children r]; exact hd
  · rw [← s.requires_grad p]; exact hg

theorem PushRel.push_of_child {r c : Nat} {h h' : Heap} (hc : c ∈ (h r).children)
    (x : PushRel c h h') : PushRel r h h' := by
  refine Accumulates.mono x ?_
  rintro p ⟨⟨d, hd, hr⟩, hg⟩
  exact ⟨⟨c, hc, Reachable.step c d p hd hr⟩, hg⟩

theorem Value_backward_pushRel :
    ∀ (fuel : Nat) (h : Heap) (r : Nat) (h' : Heap),
      Value_backward fuel h r = .ok h' → PushRel r h h' := by
  intro fuel
  induction fuel with
  | zero => intro h r h' e; cases e
  | succ fuel ih =>
    intro h r h' e
    simp only [Value_backward] at e
    cases e0 : callBackward h r with
    | error x => rw [e0] at e; cases e
    | ok h1 =>
      rw [e0] at e
      simp only [ok_bind] at e
      have p1 : PushRel r h h1 :=
        (callBackward_accumulates e0).mono
          (fun p hp => ⟨⟨p, hp.1, Reachable.refl p⟩, hp.2⟩)
      refine p1.then_push ?_
      exact backwardLoop_rel (PushRel r) (PushRel.rfl_push r) (fun _ _ _ x y => x.then_push y) r
        (fun k c k' hc ek => (ih k c k' ek).push_of_child hc) _ h1 h' e

theorem not_properDesc_self {h : Heap} {rank : Nat → Nat} (ac : Acyclic h rank) (r : Nat) :
    ¬ ProperDesc h r r := by
  have hle : ∀ a b, Reachable h a b → rank b ≤ rank a := by
    intro a b hab
    induction hab with
    | refl _ => exact le_refl _
    | step p c n hc _ ih =>
      have := ac p c hc
      omega
  rintro ⟨c, hc, hr⟩
  have := ac r c hc
  have := hle c r hr
  omega

/-- C12: on a well-formed acyclic graph backward returns; the value, operands,
operation tag, backward function and `requires_grad` of every node are what they were;
the root's gradient is still the seed it held on entry; and the heap left behind is the
entry heap after a list of statements `p->grad += d`, each on a node strictly below the
root that requires gradient, so every gradient is its previous value plus what was added
to it. -/
theorem backward_frame (h : Heap) (rank : Nat → Nat) (root fuel : Nat)
    (w : WellFormed h) (ac : Acyclic h rank) (hf : rank root < fuel) :
    ∃ h' pushes, Value_backward fuel h root = .ok h' ∧
      (∀ n, (h' n).data = (h n).data ∧ (h' n).children = (h n).children ∧
        (h' n).op = (h n).op ∧ (h' n)._backward = (h n)._backward ∧
        (h' n).requires_grad = (h n).requires_grad) ∧
      (h' root).grad = (h root).grad ∧
      h' = applyPushes h pushes ∧
      (∀ e ∈ pushes, ProperDesc h root e.1 ∧ (h e.1).requires_grad = true) ∧
      ∀ n, (h' n).grad =
        (h n).grad + ((pushes.filter fun e => decide (e.1 = n)).map Prod.snd).sum := by
  obtain ⟨h', e⟩ := Value_backward_ok rank fuel h root w ac hf
  have pr := Value_backward_pushRel fuel h root h' e
  have hroot : (h' root).grad = (h root).grad :=
    Accumulates.outside pr root (fun hp => not_properDesc_self ac root hp.1)
  obtain ⟨pushes, ep, tp⟩ := pr
  refine ⟨h', pushes, e, fun n => ?_, hroot, ep, tp, fun n => ?_⟩
  · have := applyPushes_shape pushes h n
    rw [← ep] at this
    exact (shape_eq_iff _ _).1 this
  · rw [ep, applyPushes_grad]

/-- Witness for `backward_frame`: the graph `q = x * x + x` with the seed 5 at `q`. -/
theorem backward_frame_witness :
    ∃ h' pushes, Value_backward 3 (setGrad sharedLeafHeap 2 5) 2 = .ok h' ∧
      (∀ n, (h' n).data = (setGrad sharedLeafHeap 2 5 n).data ∧
        (h' n).children = (setGrad sharedLeafHeap 2 5 n).children ∧
        (h' n).op = (setGrad sharedLeafHeap 2 5 n).op ∧
        (h' n)._backward = (setGrad sharedLeafHeap 2 5 n)._backward ∧
        (h' n).requires_grad = (setGrad sharedLeafHeap 2 5 n).requires_grad) ∧
      (h' 2).grad = (setGrad sharedLeafHeap 2 5 2).grad ∧
      h' = applyPushes (setGrad sharedLeafHeap 2 5) pushes ∧
      (∀ e ∈ pushes, ProperDesc (setGrad sharedLeafHeap 2 5) 2 e.1 ∧
        (setGrad sharedLeafHeap 2 5 e.1).requires_grad = true) ∧
      ∀ n, (h' n).grad = (setGrad sharedLeafHeap 2 5 n).grad +
        ((pushes.filter fun e => decide (e.1 = n)).map Prod.snd).sum :=
  backward_frame (setGrad sharedLeafHeap 2 5) (fun n => n) 2 3
    (wellFormed_setGrad (wellFormed_add (wellFormed_mul (wellFormed_create (wellFormed_create
      (wellFormed_create wellFormed_emptyHeap _ _ _) _ _ _) _ _ _) _ _ _) _ _ _) _ _)
    (acyclic_setGrad (acyclic_add (acyclic_mul (acyclic_create (acyclic_create
      (acyclic_create (acyclic_emptyHeap _) _ _ _) _ _ _) _ _ _) _ _ _ (by decide) (by decide))
      _ _ _ (by decide) (by decide)) _ _)
    (by decide)

/-! ## Which faults backward can raise -/

theorem childAt_fault {h : Heap} {r i : Nat} {e : Fault} (x : childAt h r i = .error e) :
    e = Fault.operand := by
  unfold childAt at x
  split at x
  · cases x
  · cases x; rfl

theorem mulAccumulate_fault {h : Heap} {r i j : Nat} {e : Fault}
    (x : mulAccumulate h r i j = .error e) : e = Fault.operand := by
  unfold mulAccumulate at x
  cases e0 : childAt h r i with
  | error f => rw [e0] at x; cases x; exact childAt_fault e0
  | ok c0 =>
    rw [e0] at x
    simp only [ok_bind] at x
    by_cases hp : (h c0).requires_grad = true
    · rw [if_pos hp] at x
      cases e1 : childAt h r j with
      | error f => rw [e1] at x; cases x; exact childAt_fault e1
      | ok c1 => rw [e1] at x; cases x
    · rw [if_neg hp] at x; cases x

theorem callBackward_fault {h : Heap} {r : Nat} {e : Fault}
    (x : callBackward h r = .error e) : e = Fault.operand := by
  unfold callBackward at x
  split at x
  · cases x
  · unfold Value_add_backward at x
    cases e0 : childAt h r 0 with
    | error f => rw [e0] at x; cases x; exact childAt_fault e0
    | ok c0 =>
      rw [e0] at x
      simp only [ok_bind] at x
      revert x
      generalize (if (h c0).requires_grad = true then addGrad h c0 (h r).grad else h) = h1
      intro x
      cases e1 : childAt h1 r 1 with
      | error f => rw [e1] at x; cases x; exact childAt_fault e1
      | ok c1 => rw [e1] at x; cases x
  · unfold Value_mul_backward at x
    cases e0 : mulAccumulate h r 0 1 with
    | error f => rw [e0] at x; cases x; exact mulAccumulate_fault e0
    | ok h1 =>
      rw [e0] at x
      exact mulAccumulate_fault x
  · unfold Value_relu_backward at x
    cases e0 : childAt h r 0 with
    | error f => rw [e0] at x; cases x; exact childAt_fault e0
    | ok c0 => rw [e0] at x; cases x

theorem backwardLoop_fault (P : Fault → Prop) {f : Heap → Nat → Except Fault Heap}
    (h0 : Heap) (r : Nat)
    (hchild : ∀ k i e, SameShape h0 k → i < (h0 r).children.length →
      childAt k r i = .error e → P e)
    (hf : ∀ k c, SameShape h0 k → c ∈ (h0 r).children →
      (∀ e, f k c = .error e → P e) ∧ ∀ k', f k c = .ok k' → SameShape k k') :
    ∀ (i : Nat) (k : Heap) (e : Fault), i ≤ (h0 r).children.length → SameShape h0 k →
      backwardLoop f r i k = .error e → P e := by
  intro i
  induction i with
  | zero => intro k e _ _ x; cases x
  | succ i ih =>
    intro k e hi sk x
    simp only [backwardLoop] at x
    cases e0 : childAt k r i with
    | error y =>
      rw [e0] at x
      cases x
      exact hchild k i _ sk (by omega) e0
    | ok c =>
      rw [e0] at x
      simp only [ok_bind] at x
      have hc : c ∈ (h0 r).children := by
        rw [← sk.children r]; exact childAt_mem e0
      obtain ⟨fe, fs⟩ := hf k c sk hc
      cases e1 : f k c with
      | error y =>
        rw [e1] at x
        cases x
        exact fe _ e1
      | ok k1 =>
        rw [e1] at x
        simp only [ok_bind] at x
        exact ih k1 e (by omega) (sk.then_shape (fs k1 e1)) x

theorem Value_backward_fault_acyclic (rank : Nat → Nat) :
    ∀ (fuel : Nat) (h : Heap) (r : Nat) (e : Fault), Acyclic h rank → rank r < fuel →
      Value_backward fuel h r = .error e → e = Fault.operand := by
  intro fuel
  induction fuel with
  | zero => intro h r e _ hr; omega
  | succ fuel ih =>
    intro h r e ac hr x
    simp only [Value_backward] at x
    cases e0 : callBackward h r with
    | error y => rw [e0] at x; cases x; exact callBackward_fault e0
    | ok h1 =>
      rw [e0] at x
      simp only [ok_bind] at x
      have s1 : SameShape h h1 := (callBackward_frame e0).1
      refine backwardLoop_fault (fun e => e = Fault.operand) h1 r
        (fun k i e _ _ y => childAt_fault y) ?_ _ h1 e (le_refl _) (SameShape.rfl_shape h1) x
      intro k c sk hc
      have hk : SameShape h k := s1.then_shape sk
      have hc' : c ∈ (h r).children := by rw [← s1.children r]; exact hc
      refine ⟨fun e y => ih k c e (hk.acyclic ac) (by have := ac r c hc'; omega) y,
        fun k' y => (Value_backward_frame fuel k c k' y).1⟩

theorem Value_backward_fault_wellFormed :
    ∀ (fuel : Nat) (h : Heap) (r : Nat) (e : Fault), WellFormed h →
      Value_backward fuel h r = .error e → e = Fault.fuel := by
  intro fuel
  induction fuel with
  | zero => intro h r e _ x; cases x; rfl
  | succ fuel ih =>
    intro h r e w x
    simp only [Value_backward] at x
    obtain ⟨h1, e0⟩ := callBackward_ok h r w
    rw [e0] at x
    simp only [ok_bind] at x
    have s1 : SameShape h h1 := (callBackward_frame e0).1
    refine backwardLoop_fault (fun e => e = Fault.fuel) h1 r ?_ ?_ _ h1 e (le_refl _)
      (SameShape.rfl_shape h1) x
    · intro k i e sk hi y
      rw [childAt_congr sk, childAt_ok h1 r i hi] at y
      cases y
    · intro k c sk _
      exact ⟨fun e y => ih k c e ((s1.then_shape sk).wellFormed w) y,
        fun k' y => (Value_backward_frame fuel k c k' y).1⟩

/-- C16: on an acyclic graph, with fuel above the rank of the root, zero_grad returns
and backward does not run out of fuel: the recursion over operand links is well
founded.  When every backward function finds its operands, backward returns as well. -/
theorem backward_and_zero_grad_terminate (h : Heap) (rank : Nat → Nat) (root fuel : Nat)
    (ac : Acyclic h rank) (hf : rank root < fuel) :
    (∃ h', Value_zero_grad fuel h root = .ok h') ∧
      Value_backward fuel h root ≠ .error Fault.fuel ∧
      (WellFormed h → ∃ h', Value_backward fuel h root = .ok h') := by
  refine ⟨Value_zero_grad_ok rank fuel h root ac hf, ?_,
    fun w => Value_backward_ok rank fuel h root w ac hf⟩
  intro x
  have := Value_backward_fault_acyclic rank fuel h root _ ac hf x
  cases this

/-- Witness for `backward_and_zero_grad_terminate`: the graph `q = x * x + x`. -/
theorem backward_and_zero_grad_terminate_witness :
    (∃ h', Value_zero_grad 3 sharedLeafHeap 2 = .ok h') ∧
      Value_backward 3 sharedLeafHeap 2 ≠ .error Fault.fuel ∧
      (WellFormed sharedLeafHeap → ∃ h', Value_backward 3 sharedLeafHeap 2 = .ok h') :=
  backward_and_zero_grad_terminate sharedLeafHeap (fun n => n) 2 3
    (acyclic_add (acyclic_mul (acyclic_create (acyclic_create
      (acyclic_create (acyclic_emptyHeap _) _ _ _) _ _ _) _ _ _) _ _ _ (by decide) (by decide))
      _ _ _ (by decide) (by decide))
    (by decide)

/-! ## Every sequence of construction calls -/

theorem noRule_emptyHeap : NoRuleNoOperands emptyHeap := fun _ _ => rfl

theorem noRule_create {h : Heap} (x : NoRuleNoOperands h) (p : Nat) (d : ℚ) (rg : Bool) :
    NoRuleNoOperands (Value_create h p d rg) := by
  intro n
  by_cases hn : n = p
  · subst hn; rw [Value_create_same]; intro _; rfl
  · rw [Value_create_other _ _ _ _ _ hn]; exact x n

theorem noRule_add {h : Heap} (x : NoRuleNoOperands h) (result a b : Nat) :
    NoRuleNoOperands (Value_add h result a b) := by
  intro n
  by_cases hn : n = result
  · subst hn
    by_cases hr : (h a).requires_grad = true ∨ (h b).requires_grad = true
    · rw [Value_add_same _ _ _ _ hr]; intro y; cases y
    · have ha : (h a).requires_grad = false := by
        cases hx : (h a).requires_grad <;> simp_all
      have hb : (h b).requires_grad = false := by
        cases hx : (h b).requires_grad <;> simp_all
      rw [Value_add_same_unflagged _ _ _ _ ha hb]; exact x n
  · rw [Value_add_other _ _ _ _ _ hn]; exact x n

theorem noRule_mul {h : Heap} (x : NoRuleNoOperands h) (result a b : Nat) :
    NoRuleNoOperands (Value_mul h result a b) := by
  intro n
  by_cases hn : n = result
  · subst hn
    by_cases hr : (h a).requires_grad = true ∨ (h b).requires_grad = true
    · rw [Value_mul_same _ _ _ _ hr]; intro y; cases y
    · have ha : (h a).requires_grad = false := by
        cases hx : (h a).requires_grad <;> simp_all
      have hb : (h b).requires_grad = false := by
        cases hx : (h b).requires_grad <;> simp_all
      rw [Value_mul_same_unflagged _ _ _ _ ha hb]; exact x n
  · rw [Value_mul_other _ _ _ _ _ hn]; exact x n

theorem noRule_relu {h : Heap} (x : NoRuleNoOperands h) (result a : Nat) :
    NoRuleNoOperands (Value_relu h result a) := by
  intro n
  by_cases hn : n = result
  · subst hn
    by_cases hr : (h a).requires_grad = true
    · rw [Value_relu_same _ _ _ hr]; intro y; cases y
    · have ha : (h a).requires_grad = false := by
        cases hx : (h a).requires_grad <;> simp_all
      rw [Value_relu_same_unflagged _ _ _ ha]; exact x n
  · rw [Value_relu_other _ _ _ _ hn]; exact x n

theorem runCalls_invariant (calls : List Call) :
    ∀ h : Heap, WellFormed h → NoRuleNoOperands h →
      WellFormed (runCalls h calls) ∧ NoRuleNoOperands (runCalls h calls) := by
  induction calls with
  | nil => intro h w x; exact ⟨w, x⟩
  | cons c rest ih =>
    intro h w x
    cases c with
    | create p d rg => exact ih _ (wellFormed_create w p d rg) (noRule_create x p d rg)
    | add r a b => exact ih _ (wellFormed_add w r a b) (noRule_add x r a b)
    | mul r a b => exact ih _ (wellFormed_mul w r a b) (noRule_mul x r a b)
    | relu r a => exact ih _ (wellFormed_relu w r a) (noRule_relu x r a)

/-- C19: after any sequence of `Value_create`, `Value_add`, `Value_mul` and `Value_relu`
calls on the initial heap, with any addresses (so also several operations on one result
node), a node with the add or multiply function has at least 2 operands, a node with
the rectify function at least 1, and a node without a backward function has none;
hence no backward function and no backward pass, from any node with any fuel, reads an
operand that is not there. -/
theorem construction_keeps_operands (calls : List Call) :
    (∀ n, ((runCalls emptyHeap calls n)._backward = some BackwardFn.add →
          2 ≤ (runCalls emptyHeap calls n).child_count) ∧
        ((runCalls emptyHeap calls n)._backward = some BackwardFn.mul →
          2 ≤ (runCalls emptyHeap calls n).child_count) ∧
        ((runCalls emptyHeap calls n)._backward = some BackwardFn.relu →
          1 ≤ (runCalls emptyHeap calls n).child_count) ∧
        ((runCalls emptyHeap calls n)._backward = none →
          (runCalls emptyHeap calls n).children = [])) ∧
      (∀ r, callBackward (runCalls emptyHeap calls) r ≠ .error Fault.operand) ∧
      ∀ fuel r, Value_backward fuel (runCalls emptyHeap calls) r ≠ .error Fault.operand := by
  obtain ⟨w, x⟩ := runCalls_invariant calls emptyHeap wellFormed_emptyHeap noRule_emptyHeap
  refine ⟨fun n => ⟨fun hb => ?_, fun hb => ?_, fun hb => ?_, x n⟩, fun r y => ?_,
    fun fuel r y => ?_⟩
  · have := w n; rw [hb] at this; exact this
  · have := w n; rw [hb] at this; exact this
  · have := w n; rw [hb] at this; exact this
  · obtain ⟨h', e⟩ := callBackward_ok _ r w
    rw [e] at y
    cases y
  · have := Value_backward_fault_wellFormed fuel _ r _ w y
    cases this

/-! ## Two backward passes side by side -/

theorem mulAccumulate_rel (ρ : Heap → Heap → Prop) (r : Nat)
    (hshape : ∀ k k', ρ k k' → SameShape k k')
    (hpush : ∀ k k' c d, ρ k k' →
      ρ (addGrad k c (d * (k r).grad)) (addGrad k' c (d * (k' r).grad)))
    {k k' o : Heap} {i j : Nat} (x : ρ k k') (e : mulAccumulate k r i j = .ok o) :
    ∃ o', mulAccumulate k' r i j = .ok o' ∧ ρ o o' := by
  have s := hshape k k' x
  unfold mulAccumulate at e ⊢
  rw [childAt_congr s, childAt_congr s]
  cases e0 : childAt k r i with
  | error f => rw [e0] at e; cases e
  | ok c0 =>
    rw [e0] at e
    simp only [ok_bind] at e ⊢
    rw [s.requires_grad c0]
    by_cases hp : (k c0).requires_grad = true
    · rw [if_pos hp] at e ⊢
      cases e1 : childAt k r j with
      | error f => rw [e1] at e; cases e
      | ok c1 =>
        rw [e1] at e
        simp only [ok_bind, pure_eq_ok, Except.ok.injEq] at e ⊢
        refine ⟨_, rfl, ?_⟩
        rw [← e, s.data c1]
        exact hpush k k' c0 _ x
    · rw [if_neg hp] at e ⊢
      simp only [pure_eq_ok, Except.ok.injEq] at e ⊢
      exact ⟨k', rfl, by rw [← e]; exact x⟩

theorem callBackward_rel (ρ : Heap → Heap → Prop) (r : Nat)
    (hshape : ∀ k k', ρ k k' → SameShape k k')
    (hpush : ∀ k k' c d, ρ k k' → (k r)._backward ≠ none →
      ρ (addGrad k c (d * (k r).grad)) (addGrad k' c (d * (k' r).grad)))
    {k k' o : Heap} (x : ρ k k') (e : callBackward k r = .ok o) :
    ∃ o', callBackward k' r = .ok o' ∧ ρ o o' := by
  have s := hshape k k' x
  have guarded : ∀ (a a' : Heap) (c : Nat), ρ a a' → (a r)._backward ≠ none →
      ρ (if (a c).requires_grad = true then addGrad a c (a r).grad else a)
        (if (a' c).requires_grad = true then addGrad a' c (a' r).grad else a') := by
    intro a a' c y hb
    rw [(hshape a a' y).requires_grad c]
    by_cases hp : (a c).requires_grad = true
    · rw [if_pos hp, if_pos hp]
      have := hpush a a' c 1 y hb
      rw [one_mul, one_mul] at this
      exact this
    · rw [if_neg hp, if_neg hp]; exact y
  unfold callBackward at e ⊢
  rw [s.backward r]
  split at e
  · simp only [Except.ok.injEq] at e
    exact ⟨k', rfl, by rw [← e]; exact x⟩
  · next hb =>
    have hne : (k r)._backward ≠ none := by rw [hb]; exact fun y => by cases y
    unfold Value_add_backward at e ⊢
    rw [childAt_congr s]
    cases e0 : childAt k r 0 with
    | error f => rw [e0] at e; cases e
    | ok c0 =>
      rw [e0] at e
      simp only [ok_bind] at e ⊢
      have y1 := guarded k k' c0 x hne
      have hb1 : ((if (k c0).requires_grad = true then addGrad k c0 (k r).grad else k) r)._backward
          ≠ none := by
        rw [(frame_guarded k c0 _).1.backward r]; exact hne
      revert e y1 hb1
      generalize (if (k c0).requires_grad = true then addGrad k c0 (k r).grad else k) = k1
      generalize (if (k' c0).requires_grad = true then addGrad k' c0 (k' r).grad else k') = k1'
      intro e y1 hb1
      rw [childAt_congr (hshape _ _ y1)]
      cases e1 : childAt k1 r 1 with
      | error f => rw [e1] at e; cases e
      | ok c1 =>
        rw [e1] at e
        simp only [ok_bind, pure_eq_ok, Except.ok.injEq] at e ⊢
        refine ⟨_, rfl, ?_⟩
        rw [← e]
        exact guarded k1 k1' c1 y1 hb1
  · next hb =>
    have hne : (k r)._backward ≠ none := by rw [hb]; exact fun y => by cases y
    unfold Value_mul_backward at e ⊢
    cases e0 : mulAccumulate k r 0 1 with
    | error f => rw [e0] at e; cases e
    | ok k1 =>
      rw [e0] at e
      simp only [ok_bind] at e
      have hb1 : ∀ a : Heap, SameShape k a → (a r)._backward ≠ none := by
        intro a sa
        rw [sa.backward r]; exact hne
      -- the relation restricted to heaps of the shape of `k`
      obtain ⟨k1', e1', y1⟩ := mulAccumulate_rel (fun a a' => ρ a a' ∧ SameShape k a) r
        (fun a a' y => hshape a a' y.1)
        (fun a a' c d y => ⟨hpush a a' c d y.1 (hb1 a y.2),
          y.2.then_shape (sameShape_addGrad a c _)⟩)
        (⟨x, SameShape.rfl_shape k⟩ : ρ k k' ∧ SameShape k k) e0
      rw [e1']
      simp only [ok_bind]
      obtain ⟨o', eo, yo⟩ := mulAccumulate_rel (fun a a' => ρ a a' ∧ SameShape k a) r
        (fun a a' y => hshape a a' y.1)
        (fun a a' c d y => ⟨hpush a a' c d y.1 (hb1 a y.2),
          y.2.then_shape (sameShape_addGrad a c _)⟩) y1 e
      exact ⟨o', eo, yo.1⟩
  · next hb =>
    have hne : (k r)._backward ≠ none := by rw [hb]; exact fun y => by cases y
    unfold Value_relu_backward at e ⊢
    rw [childAt_congr s]
    cases e0 : childAt k r 0 with
    | error f => rw [e0] at e; cases e
    | ok c0 =>
      rw [e0] at e
      simp only [ok_bind, pure_eq_ok, Except.ok.injEq] at e ⊢
      refine ⟨_, rfl, ?_⟩
      rw [← e, s.requires_grad c0, s.data r]
      by_cases hp : (k c0).requires_grad = true
      · rw [if_pos hp, if_pos hp]
        by_cases hd : (k r).data > 0
        · rw [if_pos hd, if_pos hd]
          have := hpush k k' c0 1 x hne
          rw [one_mul, one_mul] at this
          exact this
        · rw [if_neg hd, if_neg hd]
          have := hpush k k' c0 0 x hne
          rw [zero_mul, zero_mul] at this
          exact this
      · rw [if_neg hp, if_neg hp]; exact x

theorem backwardLoop_rel2 (ρ : Heap → Heap → Prop) (S : Nat → Prop)
    {f g : Heap → Nat → Except Fault Heap} (r : Nat) (hr : S r)
    (hshape : ∀ k k', ρ k k' → SameShape k k')
    (hclosed : ∀ k k' p c, ρ k k' → S p → c ∈ (k p).children → S c)
    (hf : ∀ k k' c o, S c → ρ k k' → f k c = .ok o → ∃ o', g k' c = .ok o' ∧ ρ o o') :
    ∀ (i : Nat) (k k' o : Heap), ρ k k' → backwardLoop f r i k = .ok o →
      ∃ o', backwardLoop g r i k' = .ok o' ∧ ρ o o' := by
  intro i
  induction i with
  | zero =>
    intro k k' o x e
    simp only [backwardLoop, Except.ok.injEq] at e
    exact ⟨k', rfl, by rw [← e]; exact x⟩
  | succ i ih =>
    intro k k' o x e
    simp only [backwardLoop] at e ⊢
    rw [childAt_congr (hshape k k' x)]
    cases e0 : childAt k r i with
    | error y => rw [e0] at e; cases e
    | ok c =>
      rw [e0] at e
      simp only [ok_bind] at e ⊢
      cases e1 : f k c with
      | error y => rw [e1] at e; cases e
      | ok k1 =>
        rw [e1] at e
        simp only [ok_bind] at e
        obtain ⟨k1', e1', x1⟩ := hf k k' c k1 (hclosed k k' r c x hr (childAt_mem e0)) x e1
        rw [e1']
        simp only [ok_bind]
        exact ih k1 k1' o x1 e

theorem Value_backward_rel (ρ : Heap → Heap → Prop) (S : Nat → Prop)
    (hshape : ∀ k k', ρ k k' → SameShape k k')
    (hclosed : ∀ k k' p c, ρ k k' → S p → c ∈ (k p).children → S c)
    (hpush : ∀ k k' r c d, ρ k k' → S r → (k r)._backward ≠ none →
      ρ (addGrad k c (d * (k r).grad)) (addGrad k' c (d * (k' r).grad))) :
    ∀ (fuel : Nat) (k k' : Heap) (r : Nat) (o : Heap), S r → ρ k k' →
      Value_backward fuel k r = .ok o → ∃ o', Value_backward fuel k' r = .ok o' ∧ ρ o o' := by
  intro fuel
  induction fuel with
  | zero => intro k k' r o _ _ e; cases e
  | succ fuel ih =>
    intro k k' r o hr x e
    simp only [Value_backward] at e ⊢
    cases e0 : callBackward k r with
    | error y => rw [e0] at e; cases e
    | ok k1 =>
      rw [e0] at e
      simp only [ok_bind] at e
      obtain ⟨k1', e1', x1⟩ := callBackward_rel ρ r hshape
        (fun a a' c d y hb => hpush a a' r c d y hr hb) x e0
      rw [e1']
      simp only [ok_bind]
      have hcc : (k1' r).child_count = (k1 r).child_count := by
        simp only [Value.child_count, (hshape _ _ x1).children r]
      rw [hcc]
      exact backwardLoop_rel2 ρ S r hr hshape hclosed (fun a a' c b hc y ea => ih a a' c b hc y ea)
        _ k1 k1' o x1 e

/-- C20: on a well-formed acyclic graph whose gradients are all zero, backward returns
with the root seeded with 1 and with the root seeded with `s`, and the second pass
leaves at every node (the root included) exactly `s` times the gradient the first pass
leaves there. -/
theorem backward_linear_in_seed (h : Heap) (rank : Nat → Nat) (root fuel : Nat) (s : ℚ)
    (w : WellFormed h) (ac : Acyclic h rank) (hf : rank root < fuel)
    (hz : ∀ n, (h n).grad = 0) :
    ∃ h1 hs, Value_backward fuel (setGrad h root 1) root = .ok h1 ∧
      Value_backward fuel (setGrad h root s) root = .ok hs ∧
      ∀ n, (hs n).grad = s * (h1 n).grad := by
  have s1 : SameShape h (setGrad h root 1) := sameShape_setGrad h root 1
  have ss : SameShape h (setGrad h root s) := sameShape_setGrad h root s
  obtain ⟨h1, e1⟩ := Value_backward_ok rank fuel (setGrad h root 1) root
    (s1.wellFormed w) (s1.acyclic ac) hf
  obtain ⟨hs, es, x⟩ := Value_backward_rel
    (fun k k' => SameShape k k' ∧ ∀ n, (k' n).grad = s * (k n).grad) (fun _ => True)
    (fun _ _ y => y.1) (fun _ _ _ _ _ _ _ => trivial)
    (fun k k' r c d y _ _ => by
      refine ⟨(sameShape_addGrad k c _).symm.then_shape
        (y.1.then_shape (sameShape_addGrad k' c _)), fun n => ?_⟩
      by_cases hn : n = c
      · subst hn
        rw [addGrad_same, addGrad_same]
        simp only
        rw [y.2 n, y.2 r]
        ring
      · rw [addGrad_other _ _ _ _ hn, addGrad_other _ _ _ _ hn]
        exact y.2 n)
    fuel (setGrad h root 1) (setGrad h root s) root h1 trivial
    ⟨s1.symm.then_shape ss, fun n => by
      by_cases hn : n = root
      · subst hn; rw [setGrad_same, setGrad_same]; simp
      · rw [setGrad_other _ _ _ _ hn, setGrad_other _ _ _ _ hn, hz n]; simp⟩
    e1
  exact ⟨h1, hs, e1, es, x.2⟩

/-- Witness for `backward_linear_in_seed`: the graph `q = x * x + x` with seed 5. -/
theorem backward_linear_in_seed_witness :
    ∃ h1 hs, Value_backward 3 (setGrad sharedLeafHeap 2 1) 2 = .ok h1 ∧
      Value_backward 3 (setGrad sharedLeafHeap 2 5) 2 = .ok hs ∧
      ∀ n, (hs n).grad = 5 * (h1 n).grad :=
  backward_linear_in_seed sharedLeafHeap (fun n => n) 2 3 5
    (wellFormed_add (wellFormed_mul (wellFormed_create (wellFormed_create
      (wellFormed_create wellFormed_emptyHeap _ _ _) _ _ _) _ _ _) _ _ _) _ _ _)
    (acyclic_add (acyclic_mul (acyclic_create (acyclic_create
      (acyclic_create (acyclic_emptyHeap _) _ _ _) _ _ _) _ _ _) _ _ _ (by decide) (by decide))
      _ _ _ (by decide) (by decide))
    (by decide)
    (by
      intro n
      rw [sharedLeafHeap_apply]
      by_cases h2 : n = 2
      · rw [if_pos h2]
      · rw [if_neg h2]
        by_cases h1 : n = 1
        · rw [if_pos h1]
        · rw [if_neg h1]
          by_cases h0 : n = 0
          · rw [if_pos h0]
          · rw [if_neg h0]; rfl)

/-! ## Release -/

theorem visits_succ_children (depth : Nat) (h : Heap) (r : Nat) :
    (allPaths (depth + 1) h r).map Prod.fst =
      r :: (h r).children.flatMap fun c => (allPaths depth h c).map Prod.fst := by
  rw [visits_succ_eq, ← operandDerivs_fst h r, List.flatMap_map]

theorem mem_visits_reachable {h : Heap} :
    ∀ (depth r m : Nat), m ∈ (allPaths depth h r).map Prod.fst → Reachable h r m := by
  intro depth
  induction depth with
  | zero => intro r m hm; simp [allPaths] at hm
  | succ d ih =>
    intro r m hm
    rcases (mem_visits_succ d h r m).1 hm with e | ⟨c, hc, hm'⟩
    · rw [e]; exact Reachable.refl r
    · exact Reachable.step r c m hc (ih c m hm')

theorem reachable_mem_visits {h : Heap} {rank : Nat → Nat} (ac : Acyclic h rank)
    {r m : Nat} (x : Reachable h r m) :
    ∀ depth, rank r < depth → m ∈ (allPaths depth h r).map Prod.fst := by
  induction x with
  | refl r =>
    intro depth hd
    obtain ⟨d, rfl⟩ : ∃ d, depth = d + 1 := ⟨depth - 1, by omega⟩
    exact mem_visits_self d h r
  | step r c n hc _ ih =>
    intro depth hd
    obtain ⟨d, rfl⟩ : ∃ d, depth = d + 1 := ⟨depth - 1, by omega⟩
    have := ac r c hc
    exact (mem_visits_succ d h r n).2 (Or.inr ⟨c, hc, ih d (by omega)⟩)

theorem freeLoop_count {f : Option Nat → Except Fault (List Nat)} (vis : Nat → List Nat) :
    ∀ cs : List Nat,
      (∀ c ∈ cs, ∃ l, f (some c) = .ok l ∧ ∀ n, l.count n = (vis c).count n) →
      ∃ l, freeLoop f cs = .ok l ∧ ∀ n, l.count n = (cs.flatMap vis).count n := by
  intro cs
  induction cs with
  | nil => intro _; exact ⟨[], rfl, fun n => by simp⟩
  | cons c cs ih =>
    intro hf
    obtain ⟨l1, e1, c1⟩ := hf c (List.mem_cons_self _ _)
    obtain ⟨l2, e2, c2⟩ := ih (fun x hx => hf x (List.mem_cons_of_mem _ hx))
    refine ⟨l1 ++ l2, ?_, fun n => ?_⟩
    · simp only [freeLoop]
      rw [e1]
      simp only [ok_bind]
      rw [e2]
      rfl
    · rw [List.flatMap_cons, List.count_append, List.count_append, c1 n, c2 n]

theorem Value_free_count {h : Heap} {rank : Nat → Nat} (ac : Acyclic h rank) :
    ∀ (fuel root : Nat), rank root < fuel →
      ∃ released, Value_free fuel h (some root) = .ok released ∧
        ∀ n, released.count n = ((allPaths fuel h root).map Prod.fst).count n := by
  intro fuel
  induction fuel with
  | zero => intro root hr; omega
  | succ fuel ih =>
    intro root hr
    obtain ⟨l, el, cl⟩ := freeLoop_count (f := Value_free fuel h)
      (fun c => (allPaths fuel h c).map Prod.fst) (h root).children
      (fun c hc => ih c (by have := ac root c hc; omega))
    refine ⟨l ++ [root], ?_, fun n => ?_⟩
    · simp only [Value_free]
      rw [el]
      rfl
    · rw [visits_succ_children, List.count_append, cl n]
      simp only [List.count_cons, List.count_nil]
      ring

/-- C17: release hands a node to `free` once per path from the root.  On an acyclic
graph `Value_free` returns and the number of times it releases a node is the number of
paths from the root that end in it; when the graph below the root is a tree, every
reachable node is released exactly once and no other node is released; and on a fresh
`p = multiply(x,x)` over a leaf `x` that requires gradient the nodes released are
`x`, `x`, `p`: the node `x` is released twice. -/
theorem release_once_per_path :
    (∀ (h : Heap) (rank : Nat → Nat) (root fuel : Nat), Acyclic h rank → rank root < fuel →
      ∃ released, Value_free fuel h (some root) = .ok released ∧
        (∀ n, released.count n = ((allPaths fuel h root).map Prod.fst).count n) ∧
        (TreeShaped fuel h root →
          ∀ n, (Reachable h root n → released.count n = 1) ∧
            (¬ Reachable h root n → released.count n = 0))) ∧
    (∀ (h : Heap) (x p : Nat) (d0 : ℚ) (rg0 : Bool) (fuel : Nat), p ≠ x → IsLeaf h x →
      (h x).requires_grad = true →
      Value_free (fuel + 2) (Value_mul (Value_create h p d0 rg0) p x x) (some p)
          = .ok [x, x, p] ∧ [x, x, p].count x = 2) := by
  constructor
  · intro h rank root fuel ac hf
    obtain ⟨released, e, c⟩ := Value_free_count ac fuel root hf
    refine ⟨released, e, c, fun ht n => ⟨fun hr => ?_, fun hr => ?_⟩⟩
    · rw [c n]
      exact List.count_eq_one_of_mem ht (reachable_mem_visits ac hr fuel hf)
    · rw [c n]
      exact List.count_eq_zero_of_not_mem (fun hm => hr (mem_visits_reachable fuel root n hm))
  · intro h x p d0 rg0 fuel hpx hl hg
    have hxp : x ≠ p := Ne.symm hpx
    have ep : (Value_mul (Value_create h p d0 rg0) p x x p).children = [x, x] := by
      rw [Value_mul_same _ _ _ _ (Or.inl (by rw [Value_create_other _ _ _ _ _ hxp]; exact hg)),
        Value_create_same]
      rfl
    have ex : (Value_mul (Value_create h p d0 rg0) p x x x).children = [] := by
      rw [Value_mul_other _ _ _ _ _ hxp, Value_create_other _ _ _ _ _ hxp]
      exact hl.1
    constructor
    · simp [Value_free, freeLoop, ep, ex]
    · simp [hxp]

/-- Witness for `release_once_per_path`: the tree `p = a * b` on the inputs of `main`
releases `a`, `b`, `p` once each, and `p = x * x` releases `x` twice. -/
theorem release_once_per_path_witness :
    (∃ released, Value_free 3 (Value_mul (mainInputs 4 5 0) 2 0 1) (some 2) = .ok released ∧
      ∀ n, released.count n =
        ((allPaths 3 (Value_mul (mainInputs 4 5 0) 2 0 1) 2).map Prod.fst).count n) ∧
    (Value_free 2 (Value_mul (Value_create (mainInputs 4 5 0) 5 0 true) 5 0 0) (some 5)
        = .ok [0, 0, 5] ∧ [0, 0, 5].count 0 = 2) := by
  constructor
  · obtain ⟨released, e, c, _⟩ := release_once_per_path.1
      (Value_mul (mainInputs 4 5 0) 2 0 1) (fun n => n) 2 3
      (acyclic_mul (acyclic_create (acyclic_create
        (acyclic_create (acyclic_emptyHeap _) _ _ _) _ _ _) _ _ _) _ _ _ (by decide) (by decide))
      (by decide)
    exact ⟨released, e, c⟩
  · exact release_once_per_path.2 (mainInputs 4 5 0) 0 5 0 true 0 (by decide) ⟨rfl, rfl⟩ rfl

/-! ## Gradients on a tree are partial derivatives -/

theorem pathSum_zero (h : Heap) (r n : Nat) : pathSum 0 h r n = 0 := by
  simp [pathSum, allPaths]

theorem partialDeriv_eq_pathSum {h : Heap} {rank : Nat → Nat} (ac : Acyclic h rank) :
    ∀ (depth r n : Nat), partialDeriv depth h r n = pathSum depth h r n := by
  intro depth
  induction depth with
  | zero => intro r n; rw [pathSum_zero]; rfl
  | succ d ih =>
    intro r n
    rw [pathSum_succ]
    by_cases hrn : r = n
    · subst hrn
      have hz : ((operandDerivs h r).map fun e => e.2 * pathSum d h e.1 r).sum = 0 := by
        apply List.sum_eq_zero
        intro v hv
        obtain ⟨e, he, rfl⟩ := List.mem_map.1 hv
        have hc : e.1 ∈ (h r).children := by
          rw [← operandDerivs_fst]
          exact List.mem_map_of_mem _ he
        have hnot : r ∉ (allPaths d h e.1).map Prod.fst := by
          intro hm
          have := rank_le_of_mem_visits ac d e.1 r hm
          have := ac r e.1 hc
          omega
        rw [pathSum_eq_zero hnot, mul_zero]
      simp only [partialDeriv, if_true, hz, add_zero]
    · simp only [partialDeriv, if_neg hrn, zero_add, operandDerivs]
      split <;> simp_all [ih, Function.comp_def]
      ring

theorem TreeShaped.leafSharing {depth : Nat} {h : Heap} {root : Nat}
    (t : TreeShaped depth h root) : LeafSharing depth h root :=
  List.Nodup.filter _ t

/-- C18: on an acyclic tree-shaped graph built by add, multiply and rectify in which
every operand requires gradient and all gradients are zero, seed the root with 1.
Backward returns and leaves at every node the partial derivative of the root's value
with respect to that node, rectify having derivative 1 where its output is positive and
0 otherwise. -/
theorem backward_tree_partial_derivative (h : Heap) (rank : Nat → Nat) (root fuel : Nat)
    (hb : Built h) (hrg : ∀ p c, c ∈ (h p).children → (h c).requires_grad = true)
    (ac : Acyclic h rank) (hf : rank root < fuel) (hz : ∀ n, (h n).grad = 0)
    (ht : TreeShaped fuel h root) :
    ∃ h', Value_backward fuel (setGrad h root 1) root = .ok h' ∧
      ∀ n, (h' n).grad = partialDeriv fuel h root n := by
  have ss : SameShape h (setGrad h root 1) := sameShape_setGrad h root 1
  have hsg : ∀ p, (setGrad h root 1 p).grad = if root = p then 1 else 0 := by
    intro p
    by_cases e : p = root
    · subst e; rw [setGrad_same, if_pos rfl]
    · rw [setGrad_other _ _ _ _ e, if_neg (Ne.symm e)]; exact hz p
  obtain ⟨h', e1, _, g1⟩ := Value_backward_pathSum rank fuel (setGrad h root 1) root
    (ss.built hb) (ss.operandsRequire hrg) (ss.acyclic ac) hf
    (leafSharing_congr ss ht.leafSharing)
    (fun m _ hne _ => by rw [hsg m, if_neg (Ne.symm hne)])
  refine ⟨h', e1, fun n => ?_⟩
  rw [g1 n, hsg n, hsg root, if_pos rfl, one_mul, pathSum_congr ss,
    partialDeriv_eq_pathSum ac]
  ring

theorem productHeap_apply (n : Nat) :
    productHeap n =
      if n = 2 then { data := 20, grad := 0, children := [0, 1], op := "*",
                      _backward := some BackwardFn.mul, requires_grad := true }
      else if n = 1 then { data := 5, grad := 0, children := [], op := "",
                           _backward := none, requires_grad := true }
      else if n = 0 then { data := 4, grad := 0, children := [], op := "",
                           _backward := none, requires_grad := true }
      else emptyHeap n := by
  by_cases h2 : n = 2
  · subst h2
    simp [productHeap, Value_mul, Value_add_child, Value_create, Heap.write]
    norm_num
  · by_cases h1 : n = 1
    · subst h1
      simp [productHeap, Value_mul, Value_add_child, Value_create, Heap.write]
    · by_cases h0 : n = 0
      · subst h0
        simp [productHeap, Value_mul, Value_add_child, Value_create, Heap.write]
      · simp [productHeap, Value_mul, Value_add_child, Value_create, Heap.write,
          h2, h1, h0]

theorem cases_three (P : Nat → Prop) (p2 : P 2) (p1 : P 1) (p0 : P 0)
    (pr : ∀ n, n ≠ 2 → n ≠ 1 → n ≠ 0 → P n) : ∀ n, P n := by
  intro n
  by_cases h2 : n = 2
  · rw [h2]; exact p2
  · by_cases h1 : n = 1
    · rw [h1]; exact p1
    · by_cases h0 : n = 0
      · rw [h0]; exact p0
      · exact pr n h2 h1 h0

theorem productHeap_facts :
    Built productHeap ∧
      (∀ p c, c ∈ (productHeap p).children → (productHeap c).requires_grad = true) ∧
      Acyclic productHeap (fun n => n) ∧ (∀ n, (productHeap n).grad = 0) ∧
      WellFormed productHeap ∧ TreeShaped 3 productHeap 2 := by
  have e2 := productHeap_apply 2
  have e1 := productHeap_apply 1
  have e0 := productHeap_apply 0
  simp only [↓reduceIte, show (1 : Nat) ≠ 2 by decide, show (0 : Nat) ≠ 2 by decide,
    show (0 : Nat) ≠ 1 by decide] at e2 e1 e0
  have er : ∀ n, n ≠ 2 → n ≠ 1 → n ≠ 0 → productHeap n = emptyHeap n := by
    intro n h2 h1 h0
    rw [productHeap_apply, if_neg h2, if_neg h1, if_neg h0]
  refine ⟨?_, ?_, ?_, ?_, ?_, ?_⟩
  · apply cases_three
    · rw [e2]; rfl
    · rw [e1]
    · rw [e0]
    · intro n h2 h1 h0; rw [er n h2 h1 h0]; rfl
  · intro p c
    revert p
    apply cases_three
    · rw [e2]; intro hc; simp at hc; rcases hc with rfl | rfl
      · rw [e0]
      · rw [e1]
    · rw [e1]; intro hc; simp at hc
    · rw [e0]; intro hc; simp at hc
    · intro n h2 h1 h0; rw [er n h2 h1 h0]; intro hc; simp [emptyHeap] at hc
  · intro p c
    revert p
    apply cases_three
    · rw [e2]; intro hc; simp at hc; rcases hc with rfl | rfl <;> simp
    · rw [e1]; intro hc; simp at hc
    · rw [e0]; intro hc; simp at hc
    · intro n h2 h1 h0; rw [er n h2 h1 h0]; intro hc; simp [emptyHeap] at hc
  · apply cases_three
    · rw [e2]
    · rw [e1]
    · rw [e0]
    · intro n h2 h1 h0; rw [er n h2 h1 h0]; rfl
  · apply cases_three
    · rw [e2]; simp
    · rw [e1]; trivial
    · rw [e0]; trivial
    · intro n h2 h1 h0; rw [er n h2 h1 h0]; trivial
  · simp [TreeShaped, allPaths, operandDerivs, e2, e1, e0]

/-- Witness for `backward_tree_partial_derivative`: `p = a * b` with `a = 4`, `b = 5`. -/
theorem backward_tree_partial_derivative_witness :
    ∃ h', Value_backward 3 (setGrad productHeap 2 1) 2 = .ok h' ∧
      ∀ n, (h' n).grad = partialDeriv 3 productHeap 2 n :=
  backward_tree_partial_derivative productHeap (fun n => n) 2 3
    productHeap_facts.1 productHeap_facts.2.1 productHeap_facts.2.2.1 (by decide)
    productHeap_facts.2.2.2.1 productHeap_facts.2.2.2.2.2

/-- On `p = a * b` with `a = 4`, `b = 5` the partial derivatives of `p` are 5 and 4. -/
theorem productHeap_partialDeriv :
    partialDeriv 3 productHeap 2 0 = 5 ∧ partialDeriv 3 productHeap 2 1 = 4 ∧
      partialDeriv 3 productHeap 2 2 = 1 := by
  have e2 := productHeap_apply 2
  have e1 := productHeap_apply 1
  have e0 := productHeap_apply 0
  simp only [↓reduceIte, show (1 : Nat) ≠ 2 by decide, show (0 : Nat) ≠ 2 by decide,
    show (0 : Nat) ≠ 1 by decide] at e2 e1 e0
  simp [partialDeriv, e2, e1, e0]

/-! ## The order of the recursion into the operands -/

theorem sharedRectifyHeap_apply :
    sharedRectifyHeap 3 = { data := 12, grad := 1, children := [1, 2], op := "+",
                            _backward := some BackwardFn.add, requires_grad := true } ∧
    sharedRectifyHeap 2 = { data := 6, grad := 0, children := [1], op := "ReLU",
                            _backward := some BackwardFn.relu, requires_grad := true } ∧
    sharedRectifyHeap 1 = { data := 6, grad := 0, children := [0, 0], op := "+",
                            _backward := some BackwardFn.add, requires_grad := true } ∧
    sharedRectifyHeap 0 = { data := 3, grad := 0, children := [], op := "",
                            _backward := none, requires_grad := true } := by
  refine ⟨?_, ?_, ?_, ?_⟩
  · simp [sharedRectifyHeap, Value_add, Value_relu, Value_add_child, Value_create, setGrad,
      Heap.write]
    norm_num
  · simp [sharedRectifyHeap, Value_add, Value_relu, Value_add_child, Value_create, setGrad,
      Heap.write]
    norm_num
  · simp [sharedRectifyHeap, Value_add, Value_relu, Value_add_child, Value_create, setGrad,
      Heap.write]
    norm_num
  · simp [sharedRectifyHeap, Value_add, Value_relu, Value_add_child, Value_create, setGrad,
      Heap.write]

/-- C15: the run that shows the order of the recursion to matter.  On
`z = y + relu(y)`, `y = x + x` with `x = 3`, all nodes requiring gradient, all gradients
zero and the seed 1 at `z`, the node `y` has operands and is reached by two paths.
Recursing last-operand-first, as `Value_backward` does, returns with `x.grad = 8`;
recursing first-operand-first returns with `x.grad = 6`.  Every number of the run is a
small integer, so binary64 computes the same. -/
theorem backward_order_matters_when_shared :
    ∃ a b, Value_backward 4 sharedRectifyHeap 3 = .ok a ∧
      Value_backward_firstFirst 4 sharedRectifyHeap 3 = .ok b ∧
      (a 0).grad = 8 ∧ (b 0).grad = 6 ∧ (a 0).grad ≠ (b 0).grad := by
  obtain ⟨e3, e2, e1, e0⟩ := sharedRectifyHeap_apply
  generalize sharedRectifyHeap = H at *
  simp [Value_backward, Value_backward_firstFirst, callBackward, Value_add_backward,
    Value_relu_backward, childAt, backwardLoop, zeroGradLoop, Value.child_count,
    addGrad_same, addGrad_other, e3, e2, e1, e0]
  norm_num

theorem zeroGradLoop_eq_visitAll {f : Heap → Nat → Except Fault Heap} (v : Nat)
    (hf : ∀ h c h', f h c = .ok h' → SameShape h h') :
    ∀ (n i : Nat) (h : Heap), i + n ≤ (h v).children.length →
      zeroGradLoop f v n i h = visitAll f (((h v).children.drop i).take n) h := by
  intro n
  induction n with
  | zero => intro i h _; simp [zeroGradLoop, visitAll]
  | succ n ih =>
    intro i h hi
    have hlt : i < (h v).children.length := by omega
    simp only [zeroGradLoop]
    rw [childAt_ok h v i hlt]
    simp only [ok_bind]
    have ht : ((h v).children.drop i).take (n + 1) =
        (h v).children.get ⟨i, hlt⟩ :: ((h v).children.drop (i + 1)).take n := by
      rw [List.drop_eq_getElem_cons hlt, List.take_succ_cons]
      rfl
    rw [ht]
    simp only [visitAll]
    cases e1 : f h ((h v).children.get ⟨i, hlt⟩) with
    | error x => rfl
    | ok h1 =>
      simp only [ok_bind]
      have s1 := hf _ _ _ e1
      rw [ih (i + 1) h1 (by rw [s1.children v]; omega), s1.children v]

theorem Value_backward_firstFirst_frame :
    ∀ (fuel : Nat) (h : Heap) (r : Nat) (h' : Heap),
      Value_backward_firstFirst fuel h r = .ok h' → Frame h h' := by
  intro fuel
  induction fuel with
  | zero => intro h r h' e; cases e
  | succ fuel ih =>
    intro h r h' e
    simp only [Value_backward_firstFirst] at e
    cases e0 : callBackward h r with
    | error x => rw [e0] at e; cases e
    | ok h1 =>
      rw [e0] at e
      simp only [ok_bind] at e
      exact (callBackward_frame e0).then_frame
        (zeroGradLoop_rel Frame Frame.rfl_frame (fun _ _ _ x y => x.then_frame y) r
          (fun a c b _ ea => ih a c b ea) _ _ h1 h' e)

theorem visitAll_congr {f g : Heap → Nat → Except Fault Heap} (h0 : Heap) :
    ∀ (L : List Nat) (k : Heap), SameShape h0 k →
      (∀ k c, SameShape h0 k → c ∈ L →
        f k c = g k c ∧ ∀ k', f k c = .ok k' → SameShape k k') →
      visitAll f L k = visitAll g L k := by
  intro L
  induction L with
  | nil => intro k _ _; rfl
  | cons c L ih =>
    intro k sk hfg
    obtain ⟨e, hs⟩ := hfg k c sk (List.mem_cons_self _ _)
    simp only [visitAll]
    rw [← e]
    cases e1 : f k c with
    | error x => rfl
    | ok k1 =>
      simp only [ok_bind]
      exact ih k1 (sk.then_shape (hs k1 e1))
        (fun a x sa hx => hfg a x sa (List.mem_cons_of_mem _ hx))

theorem wellFormed_hasOperands {h : Heap} (w : WellFormed h) {n : Nat}
    (hb : (h n)._backward ≠ none) : hasOperands h n = true := by
  have := w n
  have hne : (h n).children ≠ [] := by
    intro hnil
    rw [hnil] at this
    revert this
    cases hk : (h n)._backward with
    | none => exact absurd hk hb
    | some fn => cases fn <;> simp
  simp [hasOperands, hne]

theorem Value_backward_local (a a' : Heap) (r fuel : Nat) (o : Heap) (sa : SameShape a a')
    (w : WellFormed a)
    (hag : ∀ m, Reachable a r m → hasOperands a m = true → (a' m).grad = (a m).grad)
    (e : Value_backward fuel a r = .ok o) :
    ∃ o', Value_backward fuel a' r = .ok o' ∧
      ∀ n, (o' n).grad - (a' n).grad = (o n).grad - (a n).grad := by
  obtain ⟨o', eo, x⟩ := Value_backward_rel
    (fun k k' => SameShape a k ∧ SameShape a k' ∧
      ∀ n, (k' n).grad - (a' n).grad = (k n).grad - (a n).grad)
    (fun p => Reachable a r p)
    (fun k k' y => y.1.symm.then_shape y.2.1)
    (fun k k' p c y hp hc => hp.then_reach (Reachable.child (by
      rw [← y.1.children p]; exact hc)))
    (fun k k' r' c d y hr' hb => by
      have hop : hasOperands a r' = true :=
        wellFormed_hasOperands w (by rw [← y.1.backward r']; exact hb)
      have heq : (k' r').grad = (k r').grad := by
        have h1 := y.2.2 r'
        have h2 := hag r' hr' hop
        linarith
      refine ⟨y.1.then_shape (sameShape_addGrad k c _),
        y.2.1.then_shape (sameShape_addGrad k' c _), fun n => ?_⟩
      by_cases hn : n = c
      · subst hn
        rw [addGrad_same, addGrad_same]
        simp only
        rw [heq]
        have := y.2.2 n
        linarith
      · rw [addGrad_other _ _ _ _ hn, addGrad_other _ _ _ _ hn]
        exact y.2.2 n)
    fuel a a' r o (Reachable.refl r)
    ⟨SameShape.rfl_shape a, sa, fun n => by ring⟩
    e
  exact ⟨o', eo, x.2.2⟩

theorem visitAll_gradChange (rank : Nat → Nat) (fuel : Nat) (k0 : Heap) (w : WellFormed k0)
    (ac : Acyclic k0 rank) :
    ∀ (L : List Nat) (k : Heap), SameShape k0 k → (∀ c ∈ L, rank c < fuel) →
      L.Pairwise (fun c c' =>
        ∀ m, hasOperands k0 m = true → Reachable k0 c m → ¬ Reachable k0 c' m) →
      (∀ c ∈ L, ∀ m, Reachable k0 c m → hasOperands k0 m = true →
        (k m).grad = (k0 m).grad) →
      ∃ k', visitAll (Value_backward fuel) L k = .ok k' ∧ SameShape k k' ∧
        ∀ n, (k' n).grad =
          (k n).grad + (L.map fun c => gradChange (Value_backward fuel k0 c) k0 n).sum := by
  intro L
  induction L with
  | nil =>
    intro k _ _ _ _
    exact ⟨k, rfl, SameShape.rfl_shape k, fun n => by simp⟩
  | cons c L ih =>
    intro k sk hrk hp hinv
    rw [List.pairwise_cons] at hp
    obtain ⟨o0, e0⟩ := Value_backward_ok rank fuel k0 c w ac (hrk c (List.mem_cons_self _ _))
    obtain ⟨o, eo, ho⟩ := Value_backward_local k0 k c fuel o0 sk w
      (fun m hr hop => hinv c (List.mem_cons_self _ _) m hr hop) e0
    have so : SameShape k o := (Value_backward_frame fuel k c o eo).1
    have fr := Value_backward_pushRel fuel k0 c o0 e0
    obtain ⟨k', ek, sk', gk⟩ := ih o (sk.then_shape so)
      (fun x hx => hrk x (List.mem_cons_of_mem _ hx)) hp.2
      (fun c' hc' m hr hop => by
        have h1 := ho m
        have h2 := hinv c' (List.mem_cons_of_mem _ hc') m hr hop
        have h3 : (o0 m).grad = (k0 m).grad :=
          Accumulates.outside fr m (fun hpd => by
            obtain ⟨⟨d, hd, hdm⟩, _⟩ := hpd
            exact hp.1 c' hc' m hop (Reachable.step c d m hd hdm) hr)
        linarith)
    refine ⟨k', ?_, so.then_shape sk', fun n => ?_⟩
    · simp only [visitAll]
      rw [eo]
      exact ek
    · rw [gk n]
      simp only [List.map_cons, List.sum_cons, gradChange, e0]
      have := ho n
      linarith

theorem heap_eq_of_grad {k a b : Heap} (sa : SameShape k a) (sb : SameShape k b)
    (hg : ∀ n, (a n).grad = (b n).grad) : a = b := by
  funext n
  exact value_eq_of_shape ((sa n).trans (sb n).symm) (hg n)

theorem backward_orders_agree (rank : Nat → Nat) :
    ∀ (fuel : Nat) (h : Heap) (r : Nat), WellFormed h → Acyclic h rank → rank r < fuel →
      LeafSharing fuel h r →
      ∃ a, Value_backward fuel h r = .ok a ∧ Value_backward_firstFirst fuel h r = .ok a := by
  intro fuel
  induction fuel with
  | zero => intro h r _ _ hr; omega
  | succ f ih =>
    intro h r w ac hr ls
    obtain ⟨h1, e1⟩ := callBackward_ok h r w
    have s1 : SameShape h h1 := (callBackward_frame e1).1
    obtain ⟨hlsE, hpwE⟩ := leafSharing_children ls
    have hrank : ∀ c ∈ (h r).children, rank c < f := by
      intro c hc
      have := ac r c hc
      omega
    have hls : ∀ c ∈ (h r).children, LeafSharing f h c := by
      intro c hc
      rw [← operandDerivs_fst] at hc
      obtain ⟨e, he, rfl⟩ := List.mem_map.1 hc
      exact hlsE e he
    have hpw : (h r).children.Pairwise (fun c c' =>
        ∀ m, hasOperands h1 m = true → Reachable h1 c m → ¬ Reachable h1 c' m) := by
      rw [← operandDerivs_fst, List.pairwise_map]
      refine hpwE.imp_of_mem ?_
      intro e e' he he' hee m hop hm hm'
      have hc : e.1 ∈ (h r).children := by
        rw [← operandDerivs_fst]; exact List.mem_map_of_mem _ he
      have hc' : e'.1 ∈ (h r).children := by
        rw [← operandDerivs_fst]; exact List.mem_map_of_mem _ he'
      rw [hasOperands_congr s1] at hop
      exact hee m hop
        (reachable_mem_visits ac (hm.reach_congr s1.symm) f (hrank _ hc))
        (reachable_mem_visits ac (hm'.reach_congr s1.symm) f (hrank _ hc'))
    -- the code: last operand first
    have eVB : Value_backward (f + 1) h r =
        visitAll (Value_backward f) (h r).children.reverse h1 := by
      simp only [Value_backward]
      rw [e1]
      simp only [ok_bind, Value.child_count]
      rw [backwardLoop_eq_visitAll r (fun a c b e => (Value_backward_frame f a c b e).1) _ h1
        (le_refl _), List.take_length, s1.children r]
    -- the variant: first operand first, and by induction the same calls
    have eFF : Value_backward_firstFirst (f + 1) h r =
        visitAll (Value_backward f) (h r).children h1 := by
      simp only [Value_backward_firstFirst]
      rw [e1]
      simp only [ok_bind, Value.child_count]
      rw [zeroGradLoop_eq_visitAll r
        (fun a c b e => (Value_backward_firstFirst_frame f a c b e).1) _ 0 h1
        (by omega), List.drop_zero, List.take_length, s1.children r]
      refine visitAll_congr h1 _ h1 (SameShape.rfl_shape h1) ?_
      intro k c sk hc
      have hk : SameShape h k := s1.then_shape sk
      obtain ⟨a, ea, eb⟩ := ih k c (hk.wellFormed w) (hk.acyclic ac) (hrank c hc)
        (leafSharing_congr hk (hls c hc))
      exact ⟨eb.trans ea.symm,
        fun k' e => (Value_backward_firstFirst_frame f k c k' e).1⟩
    obtain ⟨kA, eA, sA, gA⟩ := visitAll_gradChange rank f h1 (s1.wellFormed w) (s1.acyclic ac)
      (h r).children.reverse h1 (SameShape.rfl_shape h1)
      (fun c hc => hrank c (List.mem_reverse.1 hc))
      (List.pairwise_reverse.2 (hpw.imp (fun hab m hop hmb hma => hab m hop hma hmb)))
      (fun _ _ _ _ _ => rfl)
    obtain ⟨kB, eB, sB, gB⟩ := visitAll_gradChange rank f h1 (s1.wellFormed w) (s1.acyclic ac)
      (h r).children h1 (SameShape.rfl_shape h1) hrank hpw (fun _ _ _ _ _ => rfl)
    have hAB : kA = kB := heap_eq_of_grad sA sB (fun n => by
      rw [gA n, gB n, List.map_reverse, List.sum_reverse])
    refine ⟨kA, eVB.trans eA, ?_⟩
    rw [hAB]
    exact eFF.trans eB

theorem sharedLeafHeap_facts :
    WellFormed sharedLeafHeap ∧ Acyclic sharedLeafHeap (fun n => n) ∧
      LeafSharing 3 sharedLeafHeap 2 := by
  refine ⟨wellFormed_add (wellFormed_mul (wellFormed_create (wellFormed_create
      (wellFormed_create wellFormed_emptyHeap _ _ _) _ _ _) _ _ _) _ _ _) _ _ _,
    acyclic_add (acyclic_mul (acyclic_create (acyclic_create
      (acyclic_create (acyclic_emptyHeap _) _ _ _) _ _ _) _ _ _) _ _ _ (by decide) (by decide))
      _ _ _ (by decide) (by decide), ?_⟩
  have e2 := sharedLeafHeap_apply 2
  have e1 := sharedLeafHeap_apply 1
  have e0 := sharedLeafHeap_apply 0
  simp only [↓reduceIte, show (1 : Nat) ≠ 2 by decide, show (0 : Nat) ≠ 2 by decide,
    show (0 : Nat) ≠ 1 by decide] at e2 e1 e0
  simp [LeafSharing, allPaths, operandDerivs, hasOperands, e2, e1, e0]

/-- In exact arithmetic the order of the recursion matters only when a node that has
operands is shared.  On a well-formed acyclic graph in which only leaves are reachable
from the root by more than one path (`LeafSharing`), for any gradients on entry (so any
seed) and any `requires_grad` flags, recursing last-operand-first as `Value_backward`
does and recursing first-operand-first both return, with the same gradient at every
node.  The sums are exact here: in binary64 the order of accumulation can change the
rounded result. -/
theorem backward_order_independent (h : Heap) (rank : Nat → Nat) (root fuel : Nat)
    (w : WellFormed h) (ac : Acyclic h rank) (hf : rank root < fuel)
    (ls : LeafSharing fuel h root) :
    ∃ a b, Value_backward fuel h root = .ok a ∧
      Value_backward_firstFirst fuel h root = .ok b ∧ ∀ n, (a n).grad = (b n).grad := by
  obtain ⟨a, ea, eb⟩ := backward_orders_agree rank fuel h root w ac hf ls
  exact ⟨a, a, ea, eb, fun _ => rfl⟩

/-- The theorem `backward_order_independent` at the graph `q = x * x + x`, whose shared
node `x` is a leaf, with the seed 5 at `q`. -/
theorem backward_order_independent_witness :
    ∃ a b, Value_backward 3 (setGrad sharedLeafHeap 2 5) 2 = .ok a ∧
      Value_backward_firstFirst 3 (setGrad sharedLeafHeap 2 5) 2 = .ok b ∧
      ∀ n, (a n).grad = (b n).grad :=
  backward_order_independent (setGrad sharedLeafHeap 2 5) (fun n => n) 2 3
    (wellFormed_setGrad sharedLeafHeap_facts.1 _ _)
    (acyclic_setGrad sharedLeafHeap_facts.2.1 _ _) (by decide)
    (leafSharing_congr (sameShape_setGrad sharedLeafHeap 2 5) sharedLeafHeap_facts.2.2)

/-! ## The program over the arithmetic of the machine -/

namespace Machine

theorem m_write_same {A : Arith} (h : Heap A) (p : Nat) (v : Value A) :
    Heap.write h p v p = v := by
  simp [Heap.write]

theorem m_write_other {A : Arith} (h : Heap A) (p q : Nat) (v : Value A) (hne : q ≠ p) :
    Heap.write h p v q = h q := by
  simp [Heap.write, hne]

theorem m_setGrad_same {A : Arith} (h : Heap A) (p : Nat) (g : A.D) :
    setGrad h p g p = { h p with grad := g } := by
  simp [setGrad, Heap.write]

theorem m_setGrad_other {A : Arith} (h : Heap A) (p q : Nat) (g : A.D) (hne : q ≠ p) :
    setGrad h p g q = h q := by
  simp [setGrad, Heap.write, hne]

theorem m_addGrad_same {A : Arith} (h : Heap A) (p : Nat) (d : A.D) :
    addGrad h p d p = { h p with grad := A.add (h p).grad d } := by
  simp [addGrad, setGrad, Heap.write]

theorem m_addGrad_other {A : Arith} (h : Heap A) (p q : Nat) (d : A.D) (hne : q ≠ p) :
    addGrad h p d q = h q := by
  simp [addGrad, setGrad, Heap.write, hne]

theorem m_create_other {A : Arith} (h : Heap A) (p q : Nat) (d : A.D) (rg : Bool)
    (hne : q ≠ p) : Value_create h p d rg q = h q := by
  simp [Value_create, Heap.write, hne]

theorem m_create_same {A : Arith} (h : Heap A) (p : Nat) (d : A.D) (rg : Bool) :
    Value_create h p d rg p =
      { data := d, grad := A.zero, children := [], op := "", _backward := none,
        requires_grad := rg } := by
  simp [Value_create, Heap.write]

theorem m_add_other {A : Arith} (h : Heap A) (result a b q : Nat) (hne : q ≠ result) :
    Value_add h result a b q = h q := by
  by_cases hr : ((h a).requires_grad || (h b).requires_grad) = true <;>
    by_cases h1 : a = result <;> by_cases h2 : b = result <;>
    simp_all [Value_add, Value_add_child, Heap.write]

theorem m_mul_other {A : Arith} (h : Heap A) (result a b q : Nat) (hne : q ≠ result) :
    Value_mul h result a b q = h q := by
  by_cases hr : ((h a).requires_grad || (h b).requires_grad) = true <;>
    by_cases h1 : a = result <;> by_cases h2 : b = result <;>
    simp_all [Value_mul, Value_add_child, Heap.write]

theorem m_relu_other {A : Arith} (h : Heap A) (result a q : Nat) (hne : q ≠ result) :
    Value_relu h result a q = h q := by
  by_cases hr : (h a).requires_grad = true <;> by_cases h1 : a = result <;>
    simp_all [Value_relu, Value_add_child, Heap.write]

theorem m_add_same {A : Arith} (h : Heap A) (result a b : Nat)
    (hr : (h a).requires_grad = true ∨ (h b).requires_grad = true) :
    Value_add h result a b result =
      { data := A.add (h a).data (h b).data, grad := (h result).grad,
        children := (h result).children ++ [a, b], op := "+",
        _backward := some BackwardFn.add, requires_grad := true } := by
  by_cases h1 : a = result <;> by_cases h2 : b = result <;>
    rcases hr with hr | hr <;> simp_all [Value_add, Value_add_child, Heap.write]

theorem m_mul_same {A : Arith} (h : Heap A) (result a b : Nat)
    (hr : (h a).requires_grad = true ∨ (h b).requires_grad = true) :
    Value_mul h result a b result =
      { data := A.mul (h a).data (h b).data, grad := (h result).grad,
        children := (h result).children ++ [a, b], op := "*",
        _backward := some BackwardFn.mul, requires_grad := true } := by
  by_cases h1 : a = result <;> by_cases h2 : b = result <;>
    rcases hr with hr | hr <;> simp_all [Value_mul, Value_add_child, Heap.write]

theorem m_relu_same {A : Arith} (h : Heap A) (result a : Nat)
    (hr : (h a).requires_grad = true) :
    Value_relu h result a result =
      { data := A.fmax A.zero (h a).data, grad := (h result).grad,
        children := (h result).children ++ [a], op := "ReLU",
        _backward := some BackwardFn.relu, requires_grad := true } := by
  by_cases h1 : a = result <;> simp_all [Value_relu, Value_add_child, Heap.write]

/-- C9: whatever the arithmetic of the machine, the value stored in the result is what
its `+` gives on the two operand values for add, what its `*` gives on them for
multiply, and what its `fmax` gives on `0.0` and the operand value for rectify, the
operand values being those read before the call; this for all operands, result nodes
and heaps, so whatever the flags of the operands and whatever the result held. -/
theorem forward_value (A : Arith) (h : Heap A) (result a b : Nat) :
    (Value_add h result a b result).data = A.add (h a).data (h b).data ∧
    (Value_mul h result a b result).data = A.mul (h a).data (h b).data ∧
    (Value_relu h result a result).data = A.fmax A.zero (h a).data := by
  refine ⟨?_, ?_, ?_⟩
  · by_cases hr : ((h a).requires_grad || (h b).requires_grad) = true <;>
      by_cases h1 : a = result <;> by_cases h2 : b = result <;>
      simp_all [Value_add, Value_add_child, Heap.write]
  · by_cases hr : ((h a).requires_grad || (h b).requires_grad) = true <;>
      by_cases h1 : a = result <;> by_cases h2 : b = result <;>
      simp_all [Value_mul, Value_add_child, Heap.write]
  · by_cases hr : (h a).requires_grad = true <;> by_cases h1 : a = result <;>
      simp_all [Value_relu, Value_add_child, Heap.write]

/-- C6: whatever the arithmetic of the machine, for distinct leaves `a`, `b`, `bias`
requiring gradient, case 1 of `main` (multiply, add, rectify on three fresh result
nodes, then zero the gradients, seed `1.0`, backward) returns; the intermediate values
are the machine product `a*b` and the machine sum `a*b + bias`, the output value is
`fmax(0.0, a*b + bias)`; when the machine finds `a*b + bias > 0` the gradients of `a`,
`b`, `bias` are `b.data`, `a.data`, `1.0`, and otherwise all three are `0.0`.  Of the
arithmetic this uses `0.0 + 1.0 = 1.0`, `0.0 + 0.0 = 0.0`, that `fmax(0.0, s) > 0`
exactly when `s > 0` for the sum `s = a*b + bias`, and that the values of `a` and `b`
are ordinary numbers. -/
theorem main_case1_gradients (A : Arith) (h : Heap A) (a b bias r1 r2 fin : Nat)
    (fuel : Nat)
    (hab : a ≠ b) (hac : a ≠ bias) (hbc : b ≠ bias)
    (h1a : r1 ≠ a) (h1b : r1 ≠ b) (h1c : r1 ≠ bias)
    (h2a : r2 ≠ a) (h2b : r2 ≠ b) (h2c : r2 ≠ bias) (h21 : r2 ≠ r1)
    (hfa : fin ≠ a) (hfb : fin ≠ b) (hfc : fin ≠ bias) (hf1 : fin ≠ r1) (hf2 : fin ≠ r2)
    (hla : IsLeaf h a) (hlb : IsLeaf h b) (hlc : IsLeaf h bias)
    (hra : (h a).requires_grad = true) (hrb : (h b).requires_grad = true)
    (hrc : (h bias).requires_grad = true)
    (hone : A.add A.zero A.one = A.one) (hzero : A.add A.zero A.zero = A.zero)
    (hmax : A.gt (A.fmax A.zero (A.add (A.mul (h a).data (h b).data) (h bias).data)) A.zero =
      A.gt (A.add (A.mul (h a).data (h b).data) (h bias).data) A.zero)
    (hoa : A.Ordinary (h a).data) (hob : A.Ordinary (h b).data) :
    ∃ h', main_case1 (fuel + 4) h a b bias r1 r2 fin = .ok h' ∧
      (h' r1).data = A.mul (h a).data (h b).data ∧
      (h' r2).data = A.add (A.mul (h a).data (h b).data) (h bias).data ∧
      (h' fin).data = A.fmax A.zero (A.add (A.mul (h a).data (h b).data) (h bias).data) ∧
      (A.gt (A.add (A.mul (h a).data (h b).data) (h bias).data) A.zero = true →
        (h' a).grad = (h b).data ∧ (h' b).grad = (h a).data ∧ (h' bias).grad = A.one) ∧
      (A.gt (A.add (A.mul (h a).data (h b).data) (h bias).data) A.zero = false →
        (h' a).grad = A.zero ∧ (h' b).grad = A.zero ∧ (h' bias).grad = A.zero) := by
  obtain ⟨hca, hna⟩ := hla
  obtain ⟨hcb, hnb⟩ := hlb
  obtain ⟨hcc, hnc⟩ := hlc
  obtain ⟨za, a1, a0⟩ := hoa
  obtain ⟨zb, b1, b0⟩ := hob
  have hba := Ne.symm hab
  have hca' := Ne.symm hac
  have hcb' := Ne.symm hbc
  have ha1 := Ne.symm h1a
  have hb1 := Ne.symm h1b
  have hc1 := Ne.symm h1c
  have ha2 := Ne.symm h2a
  have hb2 := Ne.symm h2b
  have hc2 := Ne.symm h2c
  have h12 := Ne.symm h21
  have haf := Ne.symm hfa
  have hbf := Ne.symm hfb
  have hcf := Ne.symm hfc
  have h1f := Ne.symm hf1
  have h2f := Ne.symm hf2
  -- the heap once the three operations have run
  obtain ⟨G, hG⟩ : ∃ G, G = Value_relu (Value_add (Value_mul (Value_create (Value_create
      (Value_create h r1 A.zero true) r2 A.zero true) fin A.zero true) r1 a b) r2 r1 bias)
      fin r2 := ⟨_, rfl⟩
  have e1 : (Value_mul (Value_create (Value_create (Value_create h r1 A.zero true) r2
      A.zero true) fin A.zero true) r1 a b) r1 =
      { data := A.mul (h a).data (h b).data, grad := A.zero, children := [a, b], op := "*",
        _backward := some BackwardFn.mul, requires_grad := true } := by
    rw [m_mul_same _ _ _ _ (Or.inl (by simp [m_create_other, *]))]
    simp [m_create_other, m_create_same, *]
  have e2 : (Value_add (Value_mul (Value_create (Value_create (Value_create h r1 A.zero
      true) r2 A.zero true) fin A.zero true) r1 a b) r2 r1 bias) r2 =
      { data := A.add (A.mul (h a).data (h b).data) (h bias).data, grad := A.zero,
        children := [r1, bias], op := "+", _backward := some BackwardFn.add,
        requires_grad := true } := by
    rw [m_add_same _ _ _ _ (Or.inl (by rw [e1]))]
    simp [e1, m_mul_other, m_create_other, m_create_same, *]
  have Gf : G fin =
      { data := A.fmax A.zero (A.add (A.mul (h a).data (h b).data) (h bias).data),
        grad := A.zero, children := [r2], op := "ReLU",
        _backward := some BackwardFn.relu, requires_grad := true } := by
    rw [hG, m_relu_same _ _ _ (by rw [e2])]
    simp [e2, m_add_other, m_mul_other, m_create_other, m_create_same, *]
  have G2 : G r2 =
      { data := A.add (A.mul (h a).data (h b).data) (h bias).data, grad := A.zero,
        children := [r1, bias], op := "+", _backward := some BackwardFn.add,
        requires_grad := true } := by
    rw [hG, m_relu_other _ _ _ _ h2f, e2]
  have G1 : G r1 =
      { data := A.mul (h a).data (h b).data, grad := A.zero, children := [a, b],
        op := "*", _backward := some BackwardFn.mul, requires_grad := true } := by
    rw [hG, m_relu_other _ _ _ _ h1f, m_add_other _ _ _ _ _ h12, e1]
  have Ga : G a = h a := by
    rw [hG, m_relu_other _ _ _ _ haf, m_add_other _ _ _ _ _ ha2,
      m_mul_other _ _ _ _ _ ha1, m_create_other _ _ _ _ _ haf,
      m_create_other _ _ _ _ _ ha2, m_create_other _ _ _ _ _ ha1]
  have Gb : G b = h b := by
    rw [hG, m_relu_other _ _ _ _ hbf, m_add_other _ _ _ _ _ hb2,
      m_mul_other _ _ _ _ _ hb1, m_create_other _ _ _ _ _ hbf,
      m_create_other _ _ _ _ _ hb2, m_create_other _ _ _ _ _ hb1]
  have Gc : G bias = h bias := by
    rw [hG, m_relu_other _ _ _ _ hcf, m_add_other _ _ _ _ _ hc2,
      m_mul_other _ _ _ _ _ hc1, m_create_other _ _ _ _ _ hcf,
      m_create_other _ _ _ _ _ hc2, m_create_other _ _ _ _ _ hc1]
  have hmain : main_case1 (fuel + 4) h a b bias r1 r2 fin =
      (Value_zero_grad (fuel + 4) G fin >>= fun z =>
        Value_backward (fuel + 4) (setGrad z fin A.one) fin) := by
    rw [hG]; rfl
  rw [hmain]
  clear hmain hG e1 e2
  -- the gradient reset
  have hz : Value_zero_grad (fuel + 4) G fin = .ok (setGrad (setGrad (setGrad (setGrad
      (setGrad (setGrad G fin A.zero) r2 A.zero) r1 A.zero) a A.zero) b A.zero)
      bias A.zero) := by
    simp [Value_zero_grad, zeroGradLoop, childAt, Value.child_count, m_setGrad_same,
      m_setGrad_other, *]
  rw [hz, ok_bind]
  obtain ⟨Z, hZ⟩ : ∃ Z, Z = setGrad (setGrad (setGrad (setGrad (setGrad (setGrad (setGrad G
      fin A.zero) r2 A.zero) r1 A.zero) a A.zero) b A.zero) bias A.zero) fin A.one :=
    ⟨_, rfl⟩
  rw [← hZ]
  have Zf : Z fin = { G fin with grad := A.one } := by
    simp [hZ, m_setGrad_same, m_setGrad_other, *]
  have Z2 : Z r2 = G r2 := by
    simp [hZ, m_setGrad_same, m_setGrad_other, *]
  have Z1 : Z r1 = G r1 := by
    simp [hZ, m_setGrad_same, m_setGrad_other, *]
  have Za : Z a = { h a with grad := A.zero } := by
    simp [hZ, m_setGrad_same, m_setGrad_other, *]
  have Zb : Z b = { h b with grad := A.zero } := by
    simp [hZ, m_setGrad_same, m_setGrad_other, *]
  have Zc : Z bias = { h bias with grad := A.zero } := by
    simp [hZ, m_setGrad_same, m_setGrad_other, *]
  rw [Gf] at Zf
  rw [G2] at Z2
  rw [G1] at Z1
  clear hZ hz Gf G2 G1 Ga Gb Gc
  cases hpos : A.gt (A.add (A.mul (h a).data (h b).data) (h bias).data) A.zero
  · rw [hpos] at hmax
    simp [Value_backward, callBackward, Value_mul_backward, mulAccumulate, Value_add_backward,
      Value_relu_backward, childAt, backwardLoop, Value.child_count, m_addGrad_same,
      m_addGrad_other, *]
  · rw [hpos] at hmax
    simp [Value_backward, callBackward, Value_mul_backward, mulAccumulate, Value_add_backward,
      Value_relu_backward, childAt, backwardLoop, Value.child_count, m_addGrad_same,
      m_addGrad_other, *]

end Machine
namespace Machine

theorem ratArith_ordinary (x : ℚ) : ratArith.Ordinary x := by
  refine ⟨?_, ?_, ?_⟩
  · show (0 : ℚ) + x = x
    simp
  · show x * (1 : ℚ) = x
    simp
  · show x * (0 : ℚ) = 0
    simp

theorem ratArith_gt_fmax (x : ℚ) :
    ratArith.gt (ratArith.fmax ratArith.zero x) ratArith.zero = ratArith.gt x ratArith.zero := by
  show decide (max (0 : ℚ) x > 0) = decide (x > 0)
  simp

/-- Witness for `main_case1_gradients`: the two scenarios of the specification, in
exact rational arithmetic (all the numbers are small integers, on which binary64
computes the same).  Inputs (2, -3, 1) give the values -6, -5, 0 and the gradients
0, 0, 0; inputs (2, 3, 1) give the values 6, 7, 7 and the gradients 3, 2, 1. -/
theorem main_case1_gradients_witness :
    (∃ h', main_case1 4 (mainInputs ratArith (2 : ℚ) (-3 : ℚ) (1 : ℚ)) 0 1 2 3 4 5 = .ok h' ∧
      (h' 3).data = (-6 : ℚ) ∧ (h' 4).data = (-5 : ℚ) ∧ (h' 5).data = (0 : ℚ) ∧
      (h' 0).grad = (0 : ℚ) ∧ (h' 1).grad = (0 : ℚ) ∧ (h' 2).grad = (0 : ℚ)) ∧
    (∃ h', main_case1 4 (mainInputs ratArith (2 : ℚ) (3 : ℚ) (1 : ℚ)) 0 1 2 3 4 5 = .ok h' ∧
      (h' 3).data = (6 : ℚ) ∧ (h' 4).data = (7 : ℚ) ∧ (h' 5).data = (7 : ℚ) ∧
      (h' 0).grad = (3 : ℚ) ∧ (h' 1).grad = (2 : ℚ) ∧ (h' 2).grad = (1 : ℚ)) := by
  constructor
  · obtain ⟨h', e, d1, d2, d3, _, gneg⟩ :=
      main_case1_gradients ratArith (mainInputs ratArith (2 : ℚ) (-3 : ℚ) (1 : ℚ))
        0 1 2 3 4 5 0
        (by decide) (by decide) (by decide) (by decide) (by decide) (by decide) (by decide)
        (by decide) (by decide) (by decide) (by decide) (by decide) (by decide) (by decide)
        (by decide) ⟨rfl, rfl⟩ ⟨rfl, rfl⟩ ⟨rfl, rfl⟩ rfl rfl rfl
        (zero_add (1 : ℚ)) (zero_add (0 : ℚ)) (ratArith_gt_fmax _)
        (ratArith_ordinary _) (ratArith_ordinary _)
    have v0 : (mainInputs ratArith (2 : ℚ) (-3 : ℚ) (1 : ℚ) 0).data = (2 : ℚ) := rfl
    have v1 : (mainInputs ratArith (2 : ℚ) (-3 : ℚ) (1 : ℚ) 1).data = (-3 : ℚ) := rfl
    have v2 : (mainInputs ratArith (2 : ℚ) (-3 : ℚ) (1 : ℚ) 2).data = (1 : ℚ) := rfl
    have s : ratArith.add (ratArith.mul (2 : ℚ) (-3 : ℚ)) (1 : ℚ) = (-5 : ℚ) := by
      show (2 : ℚ) * (-3) + 1 = -5
      norm_num
    have p : ratArith.mul (2 : ℚ) (-3 : ℚ) = (-6 : ℚ) := by
      show (2 : ℚ) * (-3) = -6
      norm_num
    simp only [v0, v1, v2] at d1 d2 d3 gneg
    rw [s] at d2 d3 gneg
    rw [p] at d1
    refine ⟨h', e, d1, d2, ?_, gneg ?_⟩
    · rw [d3]
      show max (0 : ℚ) (-5) = 0
      norm_num
    · show decide ((-5 : ℚ) > 0) = false
      simp
  · obtain ⟨h', e, d1, d2, d3, gpos, _⟩ :=
      main_case1_gradients ratArith (mainInputs ratArith (2 : ℚ) (3 : ℚ) (1 : ℚ))
        0 1 2 3 4 5 0
        (by decide) (by decide) (by decide) (by decide) (by decide) (by decide) (by decide)
        (by decide) (by decide) (by decide) (by decide) (by decide) (by decide) (by decide)
        (by decide) ⟨rfl, rfl⟩ ⟨rfl, rfl⟩ ⟨rfl, rfl⟩ rfl rfl rfl
        (zero_add (1 : ℚ)) (zero_add (0 : ℚ)) (ratArith_gt_fmax _)
        (ratArith_ordinary _) (ratArith_ordinary _)
    have v0 : (mainInputs ratArith (2 : ℚ) (3 : ℚ) (1 : ℚ) 0).data = (2 : ℚ) := rfl
    have v1 : (mainInputs ratArith (2 : ℚ) (3 : ℚ) (1 : ℚ) 1).data = (3 : ℚ) := rfl
    have v2 : (mainInputs ratArith (2 : ℚ) (3 : ℚ) (1 : ℚ) 2).data = (1 : ℚ) := rfl
    have s : ratArith.add (ratArith.mul (2 : ℚ) (3 : ℚ)) (1 : ℚ) = (7 : ℚ) := by
      show (2 : ℚ) * 3 + 1 = 7
      norm_num
    have p : ratArith.mul (2 : ℚ) (3 : ℚ) = (6 : ℚ) := by
      show (2 : ℚ) * 3 = 6
      norm_num
    simp only [v0, v1, v2] at d1 d2 d3 gpos
    rw [s] at d2 d3 gpos
    rw [p] at d1
    refine ⟨h', e, d1, d2, ?_, gpos ?_⟩
    · rw [d3]
      show max (0 : ℚ) 7 = 7
      norm_num
    · show decide ((7 : ℚ) > 0) = true
      simp

end Machine

end Micrograd
